import Mathlib

/-!
# Verification of the `subgraph-matching` crate against its specification

This file gives a shallow embedding of the Rust sources of the
`subgraph-matching` repository (CSR graphs, the LDF/NLF/GQL candidate
filters, the GQL matching order, the GQL backtracking enumeration and the
`find`/`find_with` driver) and proves or refutes the frozen claims about it.

Modelling conventions:
* Rust `usize` values are modelled as `Nat`; the sentinel `usize::MAX`
  (used as `NOT_FOUND` and `INVALID_NODE_ID` in the sources) is the
  literal `2 ^ 64 - 1`.
* A Rust panic (out-of-bounds indexing or slicing) is modelled by the
  `Option` monad: `none` is a panic, and every Rust indexing operation
  `a[i]` becomes `a.get? i`.  The functions `find_with`, `ldf_filter`,
  `gql_filter`, `nlf_filter`, `gql_order`, `gql_with` and
  `nodes_by_label` are therefore `Option`-valued.  Filters return
  `Option (Option Candidates)`: the outer layer is panic-freedom, the
  inner layer is the `Option<Candidates>` of the sources ("no
  candidates").
* Rust `HashMap<usize, usize>` values (the per-node neighbour label
  frequencies) are modelled as association lists `List (Nat × Nat)`:
  `get` is order-independent key lookup, while iteration follows the
  list order.  The list order models the (unspecified) iteration order
  of the hash map.
* Fixed-size scratch buffers (`left_mapping`, `visited`, ...) that the
  sources re-fill before use are modelled as total functions
  `Nat → Nat` updated pointwise; the BFS queue, which the sources write
  at index `queue_size`, is modelled as a growing list (the sources
  never overflow the buffer because enqueued left vertices are
  pairwise distinct, which is proved below).
-/

namespace Suma

/-- `usize::MAX`, the `NOT_FOUND` sentinel of `filter.rs`. -/
def NOT_FOUND : Nat := 2 ^ 64 - 1

/-- `usize::MAX`, the `INVALID_NODE_ID` sentinel of `filter.rs`. -/
def INVALID_NODE_ID : Nat := 2 ^ 64 - 1

/-- Pointwise update of a buffer modelled as a function. -/
def upd {α : Type} (f : Nat → α) (i : Nat) (v : α) : Nat → α :=
  fun j => if j = i then v else f j

/-- Bounds-checked write `xs[i] = v`; `none` models the Rust panic. -/
def setAt {α : Type} (xs : List α) (i : Nat) (v : α) : Option (List α) :=
  if i < xs.length then some (xs.set i v) else none

/-- Bounds-checked slice `&xs[a..b]`; `none` models the Rust panic. -/
def listSlice {α : Type} (xs : List α) (a b : Nat) : Option (List α) :=
  if a ≤ b ∧ b ≤ xs.length then some ((xs.drop a).take (b - a)) else none

/-- Rust's `slice::binary_search` (`is_ok` view): repeated halving of the
search window `[left, right)`.  Correct exactly on sorted slices, which is
why sorted adjacency is a precondition of the enumeration.  The window
shrinks strictly at every iteration, so the structural fuel
`right - left + 1` of `binary_search` never runs out. -/
def binary_search_go (xs : List Nat) (t : Nat) : Nat → Nat → Nat → Bool
  | 0, _, _ => false
  | fuel + 1, left, right =>
    if left < right then
      let mid := left + (right - left) / 2
      let x := xs.getD mid 0
      if x < t then binary_search_go xs t fuel (mid + 1) right
      else if t < x then binary_search_go xs t fuel left mid
      else true
    else false

/-- `self.binary_search(&target).is_ok()` on a slice. -/
def binary_search (xs : List Nat) (t : Nat) : Bool :=
  binary_search_go xs t (xs.length + 1) 0 xs.length

/-!
## The graph model (`graph.rs`)

The fields mirror `struct Graph` of `graph.rs`.  The field
`nlf` models the feature-gated `neighbor_label_frequencies` box of
`HashMap<usize, usize>` per node; each hash map is an association list
whose order stands for the unspecified hash-map iteration order.
-/

structure Graph where
  node_count : Nat
  relationship_count : Nat
  label_count : Nat
  labels : List Nat
  offsets : List Nat
  neighbors : List Nat
  label_index : List Nat
  label_index_offsets : List Nat
  max_degree : Nat
  max_label : Nat
  max_label_frequency : Nat
  nlf : List (List (Nat × Nat))
deriving Repr, DecidableEq

/-- `Graph::label`, panic-modelled. -/
def Graph.label? (g : Graph) (v : Nat) : Option Nat := g.labels.get? v

/-- `Graph::degree`: `offsets[node + 1] - offsets[node]`, panic-modelled.
(The subtraction is `Nat` truncated subtraction; it agrees with the Rust
`usize` subtraction whenever `offsets` is monotone, which the well-formed
graphs of the theorems below satisfy.) -/
def Graph.degree? (g : Graph) (v : Nat) : Option Nat := do
  let a ← g.offsets.get? v
  let b ← g.offsets.get? (v + 1)
  pure (b - a)

/-- `Graph::neighbors`: the slice `neighbors[offsets[v]..offsets[v+1]]`. -/
def Graph.neighbors? (g : Graph) (v : Nat) : Option (List Nat) := do
  let a ← g.offsets.get? v
  let b ← g.offsets.get? (v + 1)
  listSlice g.neighbors a b

/-- Total variant of `Graph.neighbors?` (empty slice on a panic), used in
the enumeration whose theorems carry well-formedness hypotheses that put
all accesses in bounds. -/
def Graph.neighborsD (g : Graph) (v : Nat) : List Nat :=
  (g.neighbors? v).getD []

/-- Total variant of `Graph.degree?`. -/
def Graph.degreeD (g : Graph) (v : Nat) : Nat :=
  (g.degree? v).getD 0

/-- `Graph::exists`: binary search over the sorted adjacency of `source`. -/
def Graph.existsD (g : Graph) (source target : Nat) : Bool :=
  binary_search (g.neighborsD source) target

/-- `Graph::nodes_by_label`: the slice
`label_index[label_index_offsets[l]..label_index_offsets[l+1]]`,
panic-modelled (`none` when `l + 1` is out of bounds of the offset
array). -/
def Graph.nodes_by_label? (g : Graph) (l : Nat) : Option (List Nat) := do
  let a ← g.label_index_offsets.get? l
  let b ← g.label_index_offsets.get? (l + 1)
  listSlice g.label_index a b

/-- `Graph::neighbor_label_frequency`, panic-modelled. -/
def Graph.neighbor_label_frequency? (g : Graph) (v : Nat) : Option (List (Nat × Nat)) :=
  g.nlf.get? v

/-!
## Graph construction (`ParseGraph` → `Graph`, `graph.rs`)

Only the parts of the construction that the claims touch are modelled:
the label statistics and the label index.  `label_frequency` is a
`HashMap<usize, usize>` in the sources, but every use in the
construction (`get` lookups, `len`, `values().max()`) is independent of
iteration order, so it is modelled as the counting function on the label
list.
-/

/-- `label_frequency[l]`: number of nodes carrying label `l`. -/
def label_frequency (labels : List Nat) (l : Nat) : Nat := labels.count l

/-- `label_frequency.len()`: number of distinct labels. -/
def distinct_label_count (labels : List Nat) : Nat := labels.dedup.length

/-- `max_label` as computed in the parse loop (maximum label, `0` when
there are no nodes). -/
def parse_max_label (labels : List Nat) : Nat := labels.foldl max 0

/-- `ParseGraph::label_count`:
`if label_frequency.len() > max_label + 1 { len } else { max_label + 1 }`. -/
def parse_label_count (labels : List Nat) : Nat :=
  if distinct_label_count labels > parse_max_label labels + 1 then
    distinct_label_count labels
  else
    parse_max_label labels + 1

/-- `ParseGraph::max_label_frequency`: `values().max()` of the label
frequencies (`0` if there are none). -/
def parse_max_label_frequency (labels : List Nat) : Nat :=
  (labels.dedup.map (label_frequency labels)).foldl max 0

/-- The offset vector of `ParseGraph::label_index` before the fill loop:
`offsets = [0]`, then for `label in 0..label_count` push the running
total before adding `label_frequency[label]`. -/
def label_index_offsets_init (labels : List Nat) : List Nat :=
  0 :: (List.range (parse_label_count labels)).map
    (fun l => ((List.range l).map (label_frequency labels)).sum)

/-- One step of the fill loop of `ParseGraph::label_index`: for node
`node` with label `label`, write `node` at position `offsets[label+1]`
and increment `offsets[label+1]`.  (The write is always in bounds during
construction; it is modelled with the total `set`.) -/
def label_index_fill_step (p : List Nat × List Nat) (nl : Nat × Nat) : List Nat × List Nat :=
  let off := p.2.getD (nl.2 + 1) 0
  (p.1.set off nl.1, p.2.set (nl.2 + 1) (off + 1))

/-- `ParseGraph::label_index`: the node array and offset array. -/
def parse_label_index (labels : List Nat) : List Nat × List Nat :=
  labels.enum.foldl label_index_fill_step
    (List.replicate labels.length 0, label_index_offsets_init labels)

/-- One admissible iteration order for the neighbour-label-frequency map
of a node: labels of its neighbours in first-occurrence order.  (The
sources build a `HashMap` whose iteration order is unspecified; claims
that depend on that order quantify over the `nlf` field directly.) -/
def nlf_of_row (labels : List Nat) (row : List Nat) : List (Nat × Nat) :=
  (row.map (fun v => labels.getD v 0)).dedup.map
    (fun l => (l, (row.map (fun v => labels.getD v 0)).count l))

/-- `Graph::from(ParseGraph)` for an adjacency given as one row per
node: sorts each adjacency row (`sort_neighbors`), computes the label
index and the summary statistics. -/
def Graph.fromParse (labels : List Nat) (rows : List (List Nat)) : Graph :=
  let sorted := rows.map (fun r => r.insertionSort (· ≤ ·))
  let li := parse_label_index labels
  { node_count := labels.length
    relationship_count := (rows.map List.length).sum / 2
    label_count := parse_label_count labels
    labels := labels
    offsets := (List.range (labels.length + 1)).map
      (fun i => ((sorted.take i).map List.length).sum)
    neighbors := sorted.flatten
    label_index := li.1
    label_index_offsets := li.2
    max_degree := (rows.map List.length).foldl max 0
    max_label := parse_max_label labels
    max_label_frequency := parse_max_label_frequency labels
    nlf := sorted.map (nlf_of_row labels) }

/-!
## Candidates (`filter.rs`)
-/

/-- `Candidates`: one row of data-node ids per query node.
`Candidates::default()` is the empty row list. -/
abbrev Candidates := List (List Nat)

/-- `Candidates::candidate_count`, panic-modelled (the row must exist). -/
def candidate_count? (c : Candidates) (u : Nat) : Option Nat :=
  (c.get? u).map List.length

/-- `Candidates::sort`: sort every row ascending. -/
def sortCands (c : Candidates) : Candidates :=
  c.map (fun row => row.insertionSort (· ≤ ·))

/-- `Candidates::compact`: drop the `INVALID_NODE_ID` sentinel from every
row, preserving order. -/
def compactCands (c : Candidates) : Candidates :=
  c.map (fun row => row.filter (fun v => v ≠ INVALID_NODE_ID))

/-- `Candidates::is_valid`: every row non-empty. -/
def candidatesValid (c : Candidates) : Bool :=
  c.all (fun row => !row.isEmpty)

/-!
## LDF filter (`filter/ldf.rs`, also inlined in `filter.rs`)
-/

/-- The body of the `ldf_filter` loop over query nodes: build the row of
a query node (`nodes_by_label` filtered by degree), short-circuit with
the inner `none` ("no candidates") when the row is empty. -/
def ldf_filter_go (d q : Graph) : List Nat → Candidates → Option (Option Candidates)
  | [], acc => some (some acc)
  | u :: rest, acc => do
    let label ← q.label? u
    let degree ← q.degree? u
    let nodes_by_label ← d.nodes_by_label? label
    let row ← nodes_by_label.foldlM
      (fun r v => do
        let dd ← d.degree? v
        pure (if degree ≤ dd then r ++ [v] else r)) []
    if row.length = 0 then pure none
    else ldf_filter_go d q rest (acc ++ [row])

/-- `ldf_filter`: `C(u) = { v ∈ nodes_by_label(L(u)) | d(v) ≥ d(u) }`,
with early return of `None` when some row is empty. -/
def ldf_filter (d q : Graph) : Option (Option Candidates) :=
  ldf_filter_go d q (List.range q.node_count) []

/-!
## NLF filter (`filter/nlf.rs`)
-/

/-- The dominance check of `nlf_filter_` exactly as written in the
sources: `is_valid` is *overwritten* on each iteration of the loop over
`query_nlf` instead of being conjoined, so only the last iterated entry
decides. -/
def nlf_is_valid (query_nlf data_nlf : List (Nat × Nat)) : Bool :=
  query_nlf.foldl
    (fun _ p =>
      match data_nlf.lookup p.1 with
      | some data_label_count => decide (p.2 ≤ data_label_count)
      | none => false)
    true

/-- The loop of `nlf_filter_` over query nodes. -/
def nlf_filter_go (d q : Graph) : List Nat → Candidates → Option (Option Candidates)
  | [], acc => some (some acc)
  | u :: rest, acc => do
    let label ← q.label? u
    let degree ← q.degree? u
    let query_nlf ← q.neighbor_label_frequency? u
    let nodes_by_label ← d.nodes_by_label? label
    let row ← nodes_by_label.foldlM
      (fun r v => do
        let dd ← d.degree? v
        if degree ≤ dd then do
          let data_nlf ← d.neighbor_label_frequency? v
          if query_nlf.length ≤ data_nlf.length then
            pure (if nlf_is_valid query_nlf data_nlf then r ++ [v] else r)
          else pure r
        else pure r) []
    if row.length = 0 then pure none
    else nlf_filter_go d q rest (acc ++ [row])

/-- `nlf_filter_` (the `neighbor-label-frequency` feature enabled). -/
def nlf_filter_ (d q : Graph) : Option (Option Candidates) :=
  nlf_filter_go d q (List.range q.node_count) []

/-- `nlf_filter`: the `cfg_if!` dispatch of `filter/nlf.rs`.  The
`feature` flag models whether the crate is compiled with the
`neighbor-label-frequency` feature; without it the function silently
falls back to `ldf_filter`. -/
def nlf_filter (feature : Bool) (d q : Graph) : Option (Option Candidates) :=
  if feature then nlf_filter_ d q else ldf_filter d q

/-!
## GQL filter (`filter/gql.rs`, also inlined in `filter.rs`)

The bipartite graph `B(u, v)` between `N(u)` and `N(v)` is stored in the
sources as a CSR pair `(offsets, targets)` over scratch buffers; it is
modelled as the list of its rows (row `i` is the slice
`targets[offsets[i]..offsets[i+1]]`, always rebuilt before being read).
Left vertices are positions in `N(u)`, right vertices positions in
`N(v)`.
-/

/-- `compute_bipartite_graph`: row `i` lists, in ascending order, the
positions `j` in `N(v)` with `valid_candidates[N(u)[i]][N(v)[j]]`. -/
def compute_bipartite_graph (qnbrs dnbrs : List Nat) (valid : List (List Bool)) :
    Option (List (List Nat)) :=
  qnbrs.mapM (fun qn => do
    let vrow ← valid.get? qn
    dnbrs.enum.foldlM
      (fun acc p => do
        let b ← vrow.get? p.2
        pure (if b then acc ++ [p.1] else acc)) [])

/-- The mutable matching state of `match_cheap` / `match_bfs`:
`left_mapping`, `right_mapping`, `visited`, `predecessors` (buffers
re-initialised before use) and the augmentation counter. -/
structure MState where
  lm : Nat → Nat
  rm : Nat → Nat
  vis : Nat → Nat
  pred : Nat → Nat
  augId : Nat

/-- The state at the start of a `(u, v)` test: `left_mapping` and
`right_mapping` filled with `NOT_FOUND`, `visited` with `0`,
`augment_path_id = 1`. -/
def matchInit : MState :=
  ⟨fun _ => NOT_FOUND, fun _ => NOT_FOUND, fun _ => 0, fun _ => 0, 1⟩

/-- `match_cheap`: for each left vertex take the first right vertex in
its row that is still unmatched. -/
def match_cheap (rows : List (List Nat)) (st : MState) : MState :=
  (List.range rows.length).foldl
    (fun s l =>
      match (rows.getD l []).find? (fun r => s.rm r == NOT_FOUND) with
      | some r => { s with lm := upd s.lm l r, rm := upd s.rm r l }
      | none => s)
    st

/-- The augmenting-path walk-back of `match_bfs`
(`while target != NOT_FOUND { ... }`): flip matched and unmatched edges
along the predecessor chain.  The chain strictly descends the BFS queue,
so `fuel = queue.length + 1` never runs out (proved below). -/
def augment_loop : Nat → Nat → MState → MState
  | 0, _, st => st
  | fuel + 1, target, st =>
    if target = NOT_FOUND then st
    else
      let col := st.pred target
      let temp := st.lm col
      augment_loop fuel temp
        { st with lm := upd st.lm col target, rm := upd st.rm target col }

/-- The inner `for offset in ...` loop of `match_bfs` scanning the
bigraph row of the dequeued left vertex `next`.  Returns the new state,
the new queue, and whether an augmenting path was found (in which case
the sources set `queue_size = 0` and break, ending the BFS). -/
def scan_row (next : Nat) : List Nat → MState → List Nat → MState × List Nat × Bool
  | [], st, queue => (st, queue, false)
  | target :: rest, st, queue =>
    let temp := st.vis target
    if temp ≠ st.augId ∧ temp ≠ NOT_FOUND then
      let st1 := { st with pred := upd st.pred target next,
                           vis := upd st.vis target st.augId }
      let col := st1.rm target
      if col = NOT_FOUND then
        let st2 := augment_loop (queue.length + 1) target st1
        ({ st2 with augId := st2.augId + 1 }, queue, true)
      else scan_row next rest st1 (queue ++ [col])
    else scan_row next rest st queue

/-- The `while queue_ptr < queue_size` loop of `match_bfs`.  Enqueued
left vertices are pairwise distinct (they are the matched partners of
distinct visited right vertices), so the loop makes at most
`rows.length + 1` iterations and the fuel below never runs out (proved
below); on exhaustion the state is returned unchanged. -/
def bfs_loop (rows : List (List Nat)) : Nat → List Nat → Nat → MState → MState × List Nat × Bool
  | 0, queue, _, st => (st, queue, false)
  | fuel + 1, queue, qptr, st =>
    if qptr < queue.length then
      let next := queue.getD qptr 0
      match scan_row next (rows.getD next []) st queue with
      | (st1, queue1, true) => (st1, queue1, true)
      | (st1, queue1, false) => bfs_loop rows fuel queue1 (qptr + 1) st1
    else (st, queue, false)

/-- The body of the `for root in 0..left_size` loop of `match_bfs`: run
a BFS from an unmatched root with a non-empty row; if it fails, mark
every right vertex visited during it (`left_mapping[queue[j]]` for
`j ≥ 1`) permanently with `NOT_FOUND`. -/
def process_root (rows : List (List Nat)) (st : MState) (root : Nat) : MState :=
  if st.lm root = NOT_FOUND ∧ rows.getD root [] ≠ [] then
    let r := bfs_loop rows (rows.length + 1) [root] 0 st
    if r.1.lm root = NOT_FOUND then
      (r.2.1.drop 1).foldl (fun s qj => { s with vis := upd s.vis (s.lm qj) NOT_FOUND }) r.1
    else r.1
  else st

/-- `match_bfs`: `visited.fill(0)`, `augment_path_id = 1`, then one BFS
per unmatched left root. -/
def match_bfs (rows : List (List Nat)) (st : MState) : MState :=
  (List.range rows.length).foldl (process_root rows)
    { st with vis := fun _ => 0, augId := 1 }

/-- `is_semi_perfect_matching`: every left vertex is matched. -/
def is_semi_perfect_matching (lm : Nat → Nat) (size : Nat) : Bool :=
  (List.range size).all (fun i => lm i ≠ NOT_FOUND)

/-- The complete test the GQL filter applies to a pair `(u, v)`:
rebuild `B(u, v)`, reset the mappings, `match_cheap`, `match_bfs`, then
check for a semi-perfect matching. -/
def gql_test (d q : Graph) (valid : List (List Bool)) (u v : Nat) : Option Bool := do
  let qnbrs ← q.neighbors? u
  let dnbrs ← d.neighbors? v
  let bg ← compute_bipartite_graph qnbrs dnbrs valid
  let st := match_bfs bg (match_cheap bg matchInit)
  pure (is_semi_perfect_matching st.lm qnbrs.length)

/-- Whether the bipartite graph given by its rows admits a matching that
saturates the left side, as a brute-force executable check: pick for
every row a right vertex not picked before. -/
def sat_matchable_go : List (List Nat) → List Nat → Bool
  | [], _ => true
  | row :: rest, used =>
    row.any (fun r => !used.contains r && sat_matchable_go rest (r :: used))

/-- Executable left-saturating-matching check. -/
def sat_matchable (rows : List (List Nat)) : Bool :=
  sat_matchable_go rows []

/-- Modelled from the spec: `B(u, v)` "admits a matching that saturates
the left side": an injective choice of one right vertex per row. -/
def SatM (rows : List (List Nat)) : Prop :=
  ∃ f : Fin rows.length → Nat,
    Function.Injective f ∧ ∀ i, f i ∈ rows.get i

/-- Modelled from the spec: the per-pair test of the GQL filter as the
specification states it — `v` survives iff `B(u, v)` admits a matching
saturating the left side `N(u)`. -/
def gql_test_spec (d q : Graph) (valid : List (List Bool)) (u v : Nat) : Option Bool := do
  let qnbrs ← q.neighbors? u
  let dnbrs ← d.neighbors? v
  let bg ← compute_bipartite_graph qnbrs dnbrs valid
  pure (sat_matchable bg)

/-- `valid_candidates[u][v] = false`, panic-modelled. -/
def invalidate (valid : List (List Bool)) (u v : Nat) : Option (List (List Bool)) := do
  let row ← valid.get? u
  let row' ← setAt row v false
  setAt valid u row'

/-- The `for data_node in candidates.candidates_mut(query_node)` loop of
the refinement pass, parameterised by the per-pair test (the algorithm
uses `gql_test`, the specification `gql_test_spec`).  Entries equal to
`INVALID_NODE_ID` are skipped; entries failing the test are overwritten
with `INVALID_NODE_ID` and removed from `valid_candidates`. -/
def gql_refine_row (test : Graph → Graph → List (List Bool) → Nat → Nat → Option Bool)
    (d q : Graph) (u : Nat) :
    List Nat → List (List Bool) → Option (List Nat × List (List Bool))
  | [], valid => some ([], valid)
  | v :: rest, valid =>
    if v = INVALID_NODE_ID then do
      let p ← gql_refine_row test d q u rest valid
      pure (v :: p.1, p.2)
    else do
      let ok ← test d q valid u v
      if ok then do
        let p ← gql_refine_row test d q u rest valid
        pure (v :: p.1, p.2)
      else do
        let valid' ← invalidate valid u v
        let p ← gql_refine_row test d q u rest valid'
        pure (INVALID_NODE_ID :: p.1, p.2)

/-- One global-refinement pass: refine the row of every query node in
order. -/
def gql_pass (test : Graph → Graph → List (List Bool) → Nat → Nat → Option Bool)
    (d q : Graph) :
    List Nat → Candidates → List (List Bool) → Option (Candidates × List (List Bool))
  | [], cands, valid => some (cands, valid)
  | u :: rest, cands, valid => do
    let row ← cands.get? u
    let p ← gql_refine_row test d q u row valid
    gql_pass test d q rest (cands.set u p.1) p.2

/-- The initial `valid_candidates` bitmap: one dense boolean row per
query node, set at the LDF candidates. -/
def build_valid (data_node_count : Nat) (cands : Candidates) : Option (List (List Bool)) :=
  cands.mapM (fun row =>
    row.foldlM (fun vrow v => setAt vrow v true) (List.replicate data_node_count false))

/-- The GQL filter pipeline after LDF seeding, parameterised by the
per-pair test: exactly two global-refinement passes, then `compact` and
the validity check. -/
def gql_refine (test : Graph → Graph → List (List Bool) → Nat → Nat → Option Bool)
    (d q : Graph) (cands : Candidates) : Option (Option Candidates) := do
  let valid ← build_valid d.node_count cands
  let p1 ← gql_pass test d q (List.range q.node_count) cands valid
  let p2 ← gql_pass test d q (List.range q.node_count) p1.1 p1.2
  let compacted := compactCands p2.1
  pure (if candidatesValid compacted then some compacted else none)

/-- `gql_filter`: seed with LDF, two refinement passes with the
`match_cheap`/`match_bfs` feasibility test, compact, validity check. -/
def gql_filter (d q : Graph) : Option (Option Candidates) := do
  let seed ← ldf_filter d q
  match seed with
  | none => pure none
  | some cands => gql_refine gql_test d q cands

/-- Modelled from the spec: `gql_filter` with every per-pair test
replaced by the specification's criterion ("`v` survives iff `B(u, v)`
admits a matching saturating the left side"). -/
def gql_filter_spec (d q : Graph) : Option (Option Candidates) := do
  let seed ← ldf_filter d q
  match seed with
  | none => pure none
  | some cands => gql_refine gql_test_spec d q cands

/-!
## Matching order (`order.rs`)
-/

/-- `gql_start_node`: fold of the selection loop, starting from node
`0`; a node replaces the current start when it has strictly fewer
candidates, or equally many and strictly larger degree. -/
def gql_start_node (q : Graph) (cands : Candidates) : Option Nat :=
  (List.range' 1 (q.node_count - 1)).foldlM
    (fun start node => do
      let num_node_candidates ← candidate_count? cands node
      let num_start_candidates ← candidate_count? cands start
      if num_node_candidates < num_start_candidates then pure node
      else if num_node_candidates = num_start_candidates then do
        let dn ← q.degree? node
        let ds ← q.degree? start
        pure (if ds < dn then node else start)
      else pure start)
    0

/-- `update_valid_vertices`: mark the selected node visited and all its
query-graph neighbours adjacent.  Panics (models `visited[query_node]`)
when the node is out of range — in particular when the selection loop
found no candidate and `query_node` is `usize::MAX`. -/
def update_valid_vertices (q : Graph) (u : Nat) (visited adjacent : List Bool) :
    Option (List Bool × List Bool) := do
  let visited' ← setAt visited u true
  let nbrs ← q.neighbors? u
  let adjacent' ← nbrs.foldlM (fun a w => setAt a w true) adjacent
  pure (visited', adjacent')

/-- The inner scan of the `gql_order` selection loop: over all query
nodes, keep the unvisited adjacent node with the fewest candidates
(ties: larger degree), starting from `(usize::MAX, data.node_count + 1)`. -/
def gql_select_fold (d q : Graph) (cands : Candidates) (visited adjacent : List Bool) :
    Option (Nat × Nat) :=
  (List.range q.node_count).foldlM
    (fun p curr =>
      if visited.getD curr false = false ∧ adjacent.getD curr false = true then do
        let num_candidates ← candidate_count? cands curr
        if num_candidates < p.2 then pure (curr, num_candidates)
        else if num_candidates = p.2 then do
          let dc ← q.degree? curr
          let dn ← q.degree? p.1
          pure (if dn < dc then (curr, p.2) else p)
        else pure p
      else pure p)
    (NOT_FOUND, d.node_count + 1)

/-- `gql_order`: start node, then `node_count - 1` greedy selections
restricted to the connected frontier. -/
def gql_order (d q : Graph) (cands : Candidates) : Option (List Nat) := do
  let start ← gql_start_node q cands
  let va ← update_valid_vertices q start (List.replicate q.node_count false)
    (List.replicate q.node_count false)
  let r ← (List.range (q.node_count - 1)).foldlM
    (fun (st : List Nat × List Bool × List Bool) _ => do
      let next ← gql_select_fold d q cands st.2.1 st.2.2
      let va' ← update_valid_vertices q next.1 st.2.1 st.2.2
      pure (st.1 ++ [next.1], va'.1, va'.2))
    ([start], va.1, va.2)
  pure r.1

/-!
## Enumeration (`enumerate.rs`)
-/

/-- One step of the `visited_neighbors` loop: record the already-visited
neighbours of `order[i]`, then mark `order[i]` visited. -/
def vn_step (q : Graph) (order : List Nat) (p : List (List Nat) × (Nat → Bool)) (i : Nat) :
    List (List Nat) × (Nat → Bool) :=
  let cur := order.getD i 0
  let row := (q.neighborsD cur).filter (fun nbr => p.2 nbr)
  (p.1 ++ [row], upd p.2 cur true)

/-- The `visited_neighbors` loop after `k` iterations (positions
`1, ..., k`); position 0 has no visited neighbours and `order[0]` starts
out visited. -/
def vn_go (q : Graph) (order : List Nat) (k : Nat) : List (List Nat) × (Nat → Bool) :=
  (List.range' 1 k).foldl (vn_step q order)
    ([[]], upd (fun _ => false) (order.getD 0 0) true)

/-- `visited_neighbors`: for each position `i ≥ 1` of the order, the
neighbours of `order[i]` already visited at position `i`. -/
def visited_neighbors_def (q : Graph) (order : List Nat) : List (List Nat) :=
  (vn_go q order (q.node_count - 1)).1

/-- `generate_valid_candidates`: the candidates of the query node at the
given depth that are unvisited and adjacent (checked by binary search)
to the image of every already-visited query neighbour. -/
def generate_valid_candidates (d : Graph) (emb : Nat → Nat) (visited : Nat → Bool)
    (vnbrs : List Nat) (crow : List Nat) : List Nat :=
  crow.filter (fun v => !visited v && vnbrs.all (fun u_nbr => d.existsD v (emb u_nbr)))

/-- The last depth of the backtracking DFS of `gql_with`, written
recursively: one call processes the remaining candidate list of the
current depth (the iterative loop of the sources tracks the same
position in `idx`).  Returns the final `visited` and `embedding`
buffers and the emitted embeddings in order. -/
def dfs_leaf (maxDepth : Nat) (order : List Nat) (depth : Nat) :
    List Nat → (Nat → Bool) → (Nat → Nat) →
    ((Nat → Bool) × (Nat → Nat) × List (List Nat))
  | [], vis, emb => (vis, emb, [])
  | v :: rest, vis, emb =>
    -- last depth: count the embedding, clear `visited[v]` before the
    -- callback fires, emit, continue with the next candidate
    let u := order.getD depth 0
    let emb1 := upd emb u v
    let vis1 := upd (upd vis v true) v false
    let out := (List.range maxDepth).map emb1
    let prest := dfs_leaf maxDepth order depth rest vis1 emb1
    (prest.1, prest.2.1, out :: prest.2.2)

/-- One inner (non-leaf) depth of the DFS: `lower` processes the depth
below.  When the depth below is exhausted, the iterative loop of the
sources backtracks and clears `visited[embedding[order[cur_depth]]]`,
which is the `upd ... false` after the descent. -/
def dfs_run (d : Graph) (cands : Candidates) (order : List Nat) (vnbrs : List (List Nat))
    (lower : Nat → List Nat → (Nat → Bool) → (Nat → Nat) →
      ((Nat → Bool) × (Nat → Nat) × List (List Nat)))
    (depth : Nat) :
    List Nat → (Nat → Bool) → (Nat → Nat) →
    ((Nat → Bool) × (Nat → Nat) × List (List Nat))
  | [], vis, emb => (vis, emb, [])
  | v :: rest, vis, emb =>
    let u := order.getD depth 0
    let emb1 := upd emb u v
    let vis1 := upd vis v true
    let nrow := generate_valid_candidates d emb1 vis1 (vnbrs.getD (depth + 1) [])
      (cands.getD (order.getD (depth + 1) 0) [])
    let pdown := lower (depth + 1) nrow vis1 emb1
    -- backtrack: `visited[embedding[order[cur_depth]]] = false`
    let visB := upd pdown.1 (pdown.2.1 (order.getD depth 0)) false
    let prest := dfs_run d cands order vnbrs lower depth rest visB pdown.2.1
    (prest.1, prest.2.1, pdown.2.2 ++ prest.2.2)

/-- The backtracking DFS of `gql_with`, by the number `rem` of depths
below the current one (`rem = 0` is the last depth `max_depth - 1`). -/
def gql_dfs (d : Graph) (maxDepth : Nat) (cands : Candidates) (order : List Nat)
    (vnbrs : List (List Nat)) :
    Nat → Nat → List Nat → (Nat → Bool) → (Nat → Nat) →
    ((Nat → Bool) × (Nat → Nat) × List (List Nat))
  | 0 => dfs_leaf maxDepth order
  | rem + 1 => dfs_run d cands order vnbrs (gql_dfs d maxDepth cands order vnbrs rem)

/-- `gql_with`: the driver of the DFS.  `none` models the panics on an
empty order or a zero-node query graph (`idx[0]` on an empty buffer).
Returns the embedding count and the emitted embeddings in order; the
count equals the number of emissions by construction, as in the sources
where both are incremented together. -/
def gql_with (d q : Graph) (cands : Candidates) (order : List Nat) :
    Option (Nat × List (List Nat)) := do
  let start_node ← order.get? 0
  if q.node_count = 0 then none
  else
    let vnbrs := visited_neighbors_def q order
    let cl0 ← cands.get? start_node
    let p := gql_dfs d q.node_count cands order vnbrs (q.node_count - 1) 0 cl0
      (fun _ => false) (fun _ => 0)
    pure (p.2.2.length, p.2.2)

/-!
## Driver (`lib.rs` / `config.rs` / `main.rs`)
-/

/-- The filter selection of `config.rs`. -/
inductive Filter
  | Ldf
  | Gql
  | Nlf
deriving Repr, DecidableEq

/-- `Config` (`order` and `enumeration` have a single variant, GQL). -/
structure Config where
  filter : Filter
deriving Repr, DecidableEq

/-- `find_with`: filter (with `unwrap_or_default()` turning the "no
candidates" result into the default `Candidates`, which has **zero**
rows), sort, order, enumerate.  The `feature` flag models whether the
crate is compiled with `neighbor-label-frequency` (the `Nlf` arm follows
`main.rs`).  Returns the embedding count and the sequence of embeddings
passed to the callback, `none` for a panic. -/
def find_with (feature : Bool) (d q : Graph) (config : Config) :
    Option (Nat × List (List Nat)) := do
  let filtered ← match config.filter with
    | .Ldf => ldf_filter d q
    | .Gql => gql_filter d q
    | .Nlf => nlf_filter feature d q
  let cands := filtered.getD []
  let cands := sortCands cands
  let order ← gql_order d q cands
  gql_with d q cands order

/-- `find`: `find_with` with the no-op callback; returns the count. -/
def find (feature : Bool) (d q : Graph) (config : Config) : Option Nat :=
  (find_with feature d q config).map (·.1)

/-!
## Specification-side predicates and concrete instances
-/

/-- Number of neighbours of `v` carrying label `l` (the quantity the
NLF dominance condition of the specification compares). -/
def nbr_label_count (g : Graph) (v l : Nat) : Nat :=
  ((g.neighborsD v).map (fun w => g.labels.getD w 0)).count l

/-- A sound embedding in the sense of the specification: one data node
per query node, injective, and preserving every query edge. -/
def SoundEmb (d q : Graph) (e : List Nat) : Prop :=
  e.length = q.node_count ∧
    (∀ u1 < q.node_count, ∀ u2 < q.node_count, u1 ≠ u2 → e.getD u1 0 ≠ e.getD u2 0) ∧
    (∀ u < q.node_count, ∀ w ∈ q.neighborsD u, e.getD w 0 ∈ d.neighborsD (e.getD u 0))

/-- State invariant of the enumeration DFS at entry of a depth: the
`visited` buffer marks exactly the images of the already-placed order
prefix, the partial embedding is injective on that prefix, every
already-checkable query edge is realised in the data graph, and all
placed images are data-node ids. -/
def DfsInvCore (d q : Graph) (order : List Nat) (depth : Nat)
    (vis : Nat → Bool) (emb : Nat → Nat) : Prop :=
  (∀ x, vis x = true ↔ ∃ p, p < depth ∧ emb (order.getD p 0) = x) ∧
    (∀ p1 p2, p1 < depth → p2 < depth → p1 ≠ p2 →
      emb (order.getD p1 0) ≠ emb (order.getD p2 0)) ∧
    (∀ p, p < depth → ∀ w ∈ (visited_neighbors_def q order).getD p [],
      emb w ∈ d.neighborsD (emb (order.getD p 0))) ∧
    (∀ p, p < depth → emb (order.getD p 0) < d.node_count)

/-- Invariant of the candidate list handed to a DFS depth: every entry
is an unvisited data node adjacent to the image of each already-visited
query neighbour of the query node at this depth. -/
def DfsClOk (d q : Graph) (order : List Nat) (depth : Nat) (cl : List Nat)
    (vis : Nat → Bool) (emb : Nat → Nat) : Prop :=
  ∀ v ∈ cl, vis v = false ∧ v < d.node_count ∧
    ∀ w ∈ (visited_neighbors_def q order).getD depth [],
      emb w ∈ d.neighborsD v

/-- Conclusion of one DFS call: the `visited` buffer is restored, the
embedding is unchanged on the already-placed prefix, and every emitted
embedding is sound. -/
def DfsOk (d q : Graph) (order : List Nat) (depth : Nat) (vis : Nat → Bool)
    (emb : Nat → Nat) (r : (Nat → Bool) × (Nat → Nat) × List (List Nat)) : Prop :=
  (∀ x, r.1 x = vis x) ∧
    (∀ p, p < depth → r.2.1 (order.getD p 0) = emb (order.getD p 0)) ∧
    (∀ e ∈ r.2.2, SoundEmb d q e)

/-- Coherence of a matching state: the two mapping buffers are inverse
partial bijections, every matched pair is an edge of the bipartite
graph, and the `NOT_FOUND` pseudo-indices are unmatched. -/
def MCoh (rows : List (List Nat)) (st : MState) : Prop :=
  st.lm NOT_FOUND = NOT_FOUND ∧ st.rm NOT_FOUND = NOT_FOUND ∧
    (∀ l, st.lm l ≠ NOT_FOUND → st.lm l ∈ rows.getD l [] ∧ st.rm (st.lm l) = l) ∧
    (∀ r, st.rm r ≠ NOT_FOUND → st.lm (st.rm r) = r)

/-- Invariant of the BFS queue of `match_bfs`: entries are distinct
left vertices, the root (entry 0) is unmatched, and every later entry
is matched to a right vertex that was discovered — in this augmentation
round — from a strictly earlier queue entry along an edge. -/
def BInv (rows : List (List Nat)) (st : MState) (queue : List Nat) : Prop :=
  queue ≠ [] ∧ queue.Nodup ∧
    (∀ i, i < queue.length → queue.getD i 0 ≠ NOT_FOUND) ∧
    st.lm (queue.getD 0 0) = NOT_FOUND ∧
    (∀ i, 1 ≤ i → i < queue.length →
      st.lm (queue.getD i 0) ≠ NOT_FOUND ∧
      st.vis (st.lm (queue.getD i 0)) = st.augId ∧
      (∃ j, j < i ∧ st.pred (st.lm (queue.getD i 0)) = queue.getD j 0 ∧
        st.lm (queue.getD i 0) ∈ rows.getD (queue.getD j 0) []))

/-- The semantic content of the `valid_candidates` bitmap relative to a
candidate structure: a set bit only at pairs whose data node is a
candidate of the query node. -/
def ValidSub (cands : Candidates) (valid : List (List Bool)) : Prop :=
  ∀ a b, (valid.getD a []).getD b false = true → b ∈ cands.getD a []

/-- Pruning invariant of `match_bfs`: every permanently excluded right
vertex (`visited = NOT_FOUND`) is matched, to a left vertex all of whose
row entries are also permanently excluded; and `right_mapping` only
holds left indices. -/
def PruneInv (rows : List (List Nat)) (st : MState) : Prop :=
  (∀ r, st.vis r = NOT_FOUND → st.rm r ≠ NOT_FOUND ∧
    ∀ t ∈ rows.getD (st.rm r) [], st.vis t = NOT_FOUND) ∧
  (∀ r, st.rm r ≠ NOT_FOUND → st.rm r < rows.length)

/-- Every right vertex visited in the current augmentation round is the
matched partner of an enqueued (non-root) left vertex. -/
def VisScope (st : MState) (queue : List Nat) : Prop :=
  ∀ t, st.vis t = st.augId →
    ∃ i, 1 ≤ i ∧ i < queue.length ∧ st.lm (queue.getD i 0) = t

/-- All BFS-queue entries are left indices. -/
def QBound (rows : List (List Nat)) (queue : List Nat) : Prop :=
  ∀ i, i < queue.length → queue.getD i 0 < rows.length

/-- The rows of the already-dequeued left vertices are fully scanned:
every entry is either visited this round or permanently excluded. -/
def Scanned (rows : List (List Nat)) (st : MState) (queue : List Nat) (qptr : Nat) : Prop :=
  ∀ i, i < qptr → i < queue.length → ∀ t ∈ rows.getD (queue.getD i 0) [],
    st.vis t = st.augId ∨ st.vis t = NOT_FOUND

/-- Invariant of the root loop of `match_bfs` after processing the
left vertices of `done`: coherence, the pruning invariant, the failure
certificate for every processed-but-unmatched left vertex, freshness of
the augmentation counter, and its arithmetic bound. -/
def MatchInv (rows : List (List Nat)) (done : List Nat) (st : MState) : Prop :=
  MCoh rows st ∧ PruneInv rows st ∧
    (∀ l ∈ done, st.lm l = NOT_FOUND →
      ∀ t ∈ rows.getD l [], st.vis t = NOT_FOUND) ∧
    (∀ t, st.vis t = NOT_FOUND ∨ st.vis t < st.augId) ∧
    st.augId ≤ done.length + 1

/-- Pointwise decrease of `valid_candidates` bitmaps: the refinement
only ever clears bits. -/
def ValidDesc (v1 v2 : List (List Bool)) : Prop :=
  ∀ a b, (v2.getD a []).getD b false = true → (v1.getD a []).getD b false = true

/-- Well-formedness of the per-node neighbour-label-frequency maps: one
map per node; each map has duplicate-free keys and records, for each of
its keys, the exact number of neighbours carrying that label (a positive
number), and it has a key for the label of every neighbour. -/
def Graph.NlfWf (g : Graph) : Prop :=
  g.nlf.length = g.node_count ∧
    ∀ u, u < g.node_count →
      ((g.nlf.getD u []).map Prod.fst).Nodup ∧
      (∀ p ∈ g.nlf.getD u [], p.2 = nbr_label_count g u p.1 ∧ 0 < p.2) ∧
      (∀ w ∈ g.neighborsD u, (g.nlf.getD u []).lookup (g.labels.getD w 0) ≠ none)

/-- Well-formedness of the label index: every node listed under a label
is an in-range node carrying that label. -/
def Graph.LabelIndexWf (g : Graph) : Prop :=
  ∀ l, l < g.label_index_offsets.length - 1 →
    ∀ v ∈ (g.nodes_by_label? l).getD [], v < g.node_count ∧ g.labels.getD v 0 = l

/-- Total candidate-count (the length of row `u`). -/
def cntD (cands : Candidates) (u : Nat) : Nat := (cands.getD u []).length

/-- The start-node preference of the specification: `s` is preferred
over `u` when it has fewer candidates, or equally many and larger
degree, or both equal and a smaller (or equal) id. -/
def start_pref (q : Graph) (cands : Candidates) (s u : Nat) : Prop :=
  cntD cands s < cntD cands u ∨
    (cntD cands s = cntD cands u ∧ q.degreeD u < q.degreeD s) ∨
    (cntD cands s = cntD cands u ∧ q.degreeD s = q.degreeD u ∧ s ≤ u)

/-- The pure selection step of `gql_start_node` (its `Option` wrapper
only records the panics, which the well-formedness hypotheses rule
out). -/
def gql_start_step (q : Graph) (cands : Candidates) (s node : Nat) : Nat :=
  if cntD cands node < cntD cands s then node
  else if cntD cands node = cntD cands s then
    (if q.degreeD s < q.degreeD node then node else s)
  else s

/-- Well-formed CSR offsets: one entry per node plus one, monotone, and
ending within the neighbour array (the construction invariant of
`graph.rs`). -/
def Graph.OffsetsWf (g : Graph) : Prop :=
  g.offsets.length = g.node_count + 1 ∧
    (∀ i < g.node_count, g.offsets.getD i 0 ≤ g.offsets.getD (i + 1) 0) ∧
    g.offsets.getD g.node_count 0 ≤ g.neighbors.length

/-- All adjacency entries are node ids. -/
def Graph.NbrsInRange (g : Graph) : Prop :=
  ∀ v < g.node_count, ∀ w ∈ g.neighborsD v, w < g.node_count

/-- Symmetric (undirected) adjacency. -/
def Graph.Symm (g : Graph) : Prop :=
  ∀ a < g.node_count, ∀ b < g.node_count, (a ∈ g.neighborsD b ↔ b ∈ g.neighborsD a)

/-- Connectivity in cut form: every non-empty proper subset of the
nodes has an edge leaving it.  For non-empty graphs this is ordinary
connectedness; stated over `Fin` so that it is decidable on concrete
graphs. -/
def Graph.CutConnected (g : Graph) : Prop :=
  ∀ S : Finset (Fin g.node_count), S.Nonempty → S ≠ Finset.univ →
    ∃ a ∈ S, ∃ b : Fin g.node_count, b ∉ S ∧ (b : Nat) ∈ g.neighborsD (a : Nat)

/-- The invariant of the `gql_order` selection loop: the accumulated
order is a duplicate-free list of query nodes, `visited` marks exactly
its members, `adjacent` marks exactly the neighbours of its members,
and every member after the first is adjacent to an earlier one. -/
def order_inv (q : Graph) (st : List Nat × List Bool × List Bool) : Prop :=
  st.1 ≠ [] ∧ st.1.Nodup ∧ (∀ x ∈ st.1, x < q.node_count) ∧
    st.2.1.length = q.node_count ∧ st.2.2.length = q.node_count ∧
    (∀ v < q.node_count, (st.2.1.getD v false = true ↔ v ∈ st.1)) ∧
    (∀ v < q.node_count, (st.2.2.getD v false = true ↔ ∃ a ∈ st.1, v ∈ q.neighborsD a)) ∧
    (∀ i, 0 < i → i < st.1.length → ∃ j < i, st.1.getD j 0 ∈ q.neighborsD (st.1.getD i 0))

/-- The five-node test graph of the sources (`lib.rs`/`enumerate.rs`):
labels `[L0, L1, L2, L1, L2]`, edges 0-1, 0-2, 1-2, 1-3, 2-4, 3-4. -/
def exG : Graph := Graph.fromParse [0, 1, 2, 1, 2] [[1, 2], [0, 2, 3], [0, 1, 4], [1, 4], [2, 3]]

/-- The line query `(n0:L2)-(n1:L1)-(n2:L1)` of the `lib.rs` tests. -/
def exQ2 : Graph := Graph.fromParse [2, 1, 1] [[1], [0, 2], [1]]

/-- A star query whose centre has label `L0` and degree 3: LDF finds no
candidate for the centre (the unique `L0` data node of `exG` has degree
2), so the filter returns "no candidates". -/
def exQStar : Graph := Graph.fromParse [0, 1, 2, 1] [[1, 2, 3], [0], [0], [0]]

/-- Data graph for the NLF claims: node 0 (`L0`) has one `L1` neighbour
and two `L2` neighbours. -/
def dC2 : Graph := Graph.fromParse [0, 1, 2, 2] [[1, 2, 3], [0], [0], [0]]

/-- Query graph for the NLF claims: node 0 (`L0`) has two `L1`
neighbours and one `L2` neighbour, so its neighbour-label frequencies
dominate those of `dC2`'s node 0 at label 2 but not at label 1.  The
constructed iteration order of its frequency map is
`[(1, 2), (2, 1)]` — the buggy check tests label 2 last and keeps the
violating candidate. -/
def qC2 : Graph := Graph.fromParse [0, 1, 1, 2] [[1, 2, 3], [0], [0], [0]]

/-- `qC2` with the frequency map of node 0 iterated in the other order
(`[(2, 1), (1, 2)]`) — the same abstract graph under a different
hash-map iteration order; the buggy check now tests label 1 last and
drops the candidate. -/
def qC2perm : Graph := { qC2 with nlf := [[(2, 1), (1, 2)], [(0, 1)], [(0, 1)], [(0, 1)]] }

/-- A query graph with two isolated nodes (disconnected). -/
def qdisc : Graph := Graph.fromParse [0, 0] [[], []]

/-- A one-node query graph with a self-loop. -/
def qLoop : Graph := Graph.fromParse [0] [[0]]

/-- A one-node data graph with no relationships (sorted and symmetric). -/
def dLoop : Graph := Graph.fromParse [0] [[]]

/-!
## Theorems
-/

/-- **C1** (code bug).  When the selected filter returns "no
candidates", the driver does *not* return an embedding count of 0: it
replaces the absent `Candidates` with `Candidates::default()` — which
has **zero rows** — and then invokes the order stage unconditionally,
where `candidate_count` indexes a missing row and panics.  Concretely,
on `exG` and the star query `exQStar` the LDF filter returns the inner
`none` ("no candidates"), yet `find_with` panics (`none`) instead of
returning `some 0`. -/
theorem c1_find_with_panics_on_empty_filter_result :
    ldf_filter exG exQStar = some none ∧
    find_with false exG exQStar ⟨Filter.Ldf⟩ = none := by
  decide

/-- **C2** (code bug).  The NLF filter keeps data node 0 in the
candidate row of query node 0 although the neighbour-label dominance
fails at label 1 (query node 0 has two `L1` neighbours, data node 0 only
one): the `is_valid` flag of `nlf_filter_` is overwritten on every
iteration of the loop over the query frequencies instead of being
conjoined, so only the last iterated label decides. -/
theorem c2_nlf_keeps_dominance_violating_candidate :
    nlf_filter_ dC2 qC2 = some (some [[0], [1], [1], [2, 3]]) ∧
    nbr_label_count dC2 0 1 < nbr_label_count qC2 0 1 := by
  decide

/-- **C6** (code bug).  Two runs of `find_with` on the same abstract
data graph, query graph and NLF configuration can differ: `qC2` and
`qC2perm` agree on every field except the iteration order of the
neighbour-label-frequency hash maps (unspecified in Rust and varying
across runs), yet one run returns an embedding count of 0 and the other
panics, because the buggy `is_valid` overwrite of `nlf_filter_` makes
the kept candidate set depend on that order. -/
theorem c6_find_with_depends_on_nlf_iteration_order :
    qC2perm.labels = qC2.labels ∧ qC2perm.offsets = qC2.offsets ∧
    qC2perm.neighbors = qC2.neighbors ∧
    qC2perm.label_index = qC2.label_index ∧
    qC2perm.label_index_offsets = qC2.label_index_offsets ∧
    List.Forall₂ List.Perm qC2.nlf qC2perm.nlf ∧
    find_with true dC2 qC2 ⟨Filter.Nlf⟩ = some (0, []) ∧
    find_with true dC2 qC2perm ⟨Filter.Nlf⟩ = none := by
  decide

/-- **C9** (counterexample).  `nodes_by_label` is *not* defined for
every label with no occurrences: on the constructed graph `exG`
(labels 0, 1, 2) the label 5 occurs on no node, and the lookup
`label_index_offsets[5]` is out of bounds — a panic, not an empty
slice. -/
theorem c9_nodes_by_label_panics_on_unseen_label :
    exG.labels.count 5 = 0 ∧ exG.nodes_by_label? 5 = none := by
  decide

/-- The second (offset) component of the label-index fill fold only
depends on the second components. -/
theorem label_index_fill_snd (ps : List (Nat × Nat)) (acc : List Nat × List Nat) :
    (ps.foldl label_index_fill_step acc).2 =
      ps.foldl (fun off p => off.set (p.2 + 1) (off.getD (p.2 + 1) 0 + 1)) acc.2 := by
  induction ps generalizing acc with
  | nil => rfl
  | cons p ps ih => simp only [List.foldl_cons, ih]; rfl

/-- The first (node) component of the label-index fill fold keeps its
length. -/
theorem label_index_fill_fst_length (ps : List (Nat × Nat)) (acc : List Nat × List Nat) :
    (ps.foldl label_index_fill_step acc).1.length = acc.1.length := by
  induction ps generalizing acc with
  | nil => rfl
  | cons p ps ih => simp only [List.foldl_cons, ih, label_index_fill_step, List.length_set]

/-- The offset-only fill fold keeps the length of the offset list. -/
theorem fill_offsets_length (ls : List Nat) (off : List Nat) :
    (ls.foldl (fun o l => o.set (l + 1) (o.getD (l + 1) 0 + 1)) off).length = off.length := by
  induction ls generalizing off with
  | nil => rfl
  | cons l ls ih => simp only [List.foldl_cons, ih, List.length_set]

/-- The offset-only fill fold leaves position 0 unchanged. -/
theorem fill_offsets_getD_zero (ls : List Nat) (off : List Nat) :
    (ls.foldl (fun o l => o.set (l + 1) (o.getD (l + 1) 0 + 1)) off).getD 0 0 =
      off.getD 0 0 := by
  induction ls generalizing off with
  | nil => rfl
  | cons l ls ih =>
    simp only [List.foldl_cons, ih]
    simp [List.getD_eq_getElem?_getD, List.getElem?_set_ne (Nat.succ_ne_zero l)]

/-- After the fill fold, position `j + 1` of the offset list has grown
by the number of processed labels equal to `j`. -/
theorem fill_offsets_getD_succ (ls : List Nat) (off : List Nat) (j : Nat)
    (hb : ∀ l ∈ ls, l + 1 < off.length) :
    (ls.foldl (fun o l => o.set (l + 1) (o.getD (l + 1) 0 + 1)) off).getD (j + 1) 0 =
      off.getD (j + 1) 0 + ls.count j := by
  induction ls generalizing off with
  | nil => simp
  | cons l ls ih =>
    have hl : l + 1 < off.length := hb l (List.mem_cons_self l ls)
    have hb' : ∀ x ∈ ls, x + 1 < (off.set (l + 1) (off.getD (l + 1) 0 + 1)).length := by
      intro x hx; rw [List.length_set]; exact hb x (List.mem_cons_of_mem l hx)
    simp only [List.foldl_cons, ih _ hb']
    by_cases hlj : l = j
    · subst hlj
      have : (off.set (l + 1) (off.getD (l + 1) 0 + 1)).getD (l + 1) 0 =
          off.getD (l + 1) 0 + 1 := by
        simp [List.getD_eq_getElem?_getD, List.getElem?_set_eq_of_lt _ hl]
      rw [this, List.count_cons]
      simp
      omega
    · have : (off.set (l + 1) (off.getD (l + 1) 0 + 1)).getD (j + 1) 0 =
          off.getD (j + 1) 0 := by
        have hne : l + 1 ≠ j + 1 := by omega
        simp [List.getD_eq_getElem?_getD, List.getElem?_set_ne hne]
      rw [this, List.count_cons]
      simp [hlj]

/-- Sums over `List.range` as `Finset.range` sums. -/
theorem list_range_map_sum (f : Nat → Nat) (n : Nat) :
    ((List.range n).map f).sum = ∑ i in Finset.range n, f i := by
  induction n with
  | zero => simp
  | succ n ih =>
    rw [List.range_succ, List.map_append, List.sum_append, Finset.sum_range_succ, ih]
    simp

/-- The sum of the counts of the labels `0, ..., m - 1` in a list is at
most the length of the list. -/
theorem sum_counts_le (labels : List Nat) (m : Nat) :
    ∑ k in Finset.range m, labels.count k ≤ labels.length := by
  induction labels with
  | nil => simp
  | cons a ls ih =>
    have hsum : ∑ k in Finset.range m, (a :: ls).count k =
        (∑ k in Finset.range m, ls.count k) + ∑ k in Finset.range m, if a = k then 1 else 0 := by
      rw [← Finset.sum_add_distrib]
      refine Finset.sum_congr rfl ?_
      intro k _
      simp [List.count_cons]
    have hind : (∑ k in Finset.range m, if a = k then 1 else 0) ≤ 1 := by
      by_cases ha : a < m
      · rw [Finset.sum_ite_eq (Finset.range m) a (fun _ => 1)]
        simp [Finset.mem_range.mpr ha]
      · have : ∀ k ∈ Finset.range m, (if a = k then 1 else 0) = 0 := by
          intro k hk
          have : a ≠ k := by
            intro h; exact ha (h ▸ Finset.mem_range.mp hk)
          simp [this]
        rw [Finset.sum_congr rfl this]
        simp
    simp only [List.length_cons]
    omega

/-- The initial label-index offset vector: length and entries. -/
theorem label_index_offsets_init_getD (labels : List Nat) (j : Nat)
    (hj : j < parse_label_count labels) :
    (label_index_offsets_init labels).getD (j + 1) 0 =
      ∑ k in Finset.range j, labels.count k := by
  unfold label_index_offsets_init
  have hlen : j < ((List.range (parse_label_count labels)).map
      (fun l => ((List.range l).map (label_frequency labels)).sum)).length := by
    simpa using hj
  rw [List.getD_cons_succ]
  rw [List.getD_eq_getElem?_getD, List.getElem?_eq_getElem hlen]
  simp [label_frequency, list_range_map_sum]

/-- Length of the initial label-index offset vector. -/
theorem label_index_offsets_init_length (labels : List Nat) :
    (label_index_offsets_init labels).length = parse_label_count labels + 1 := by
  simp [label_index_offsets_init]

/-- A `foldl max` dominates its base. -/
theorem base_le_foldl_max (ls : List Nat) (a : Nat) : a ≤ ls.foldl max a := by
  induction ls generalizing a with
  | nil => exact le_refl a
  | cons x ls ih => exact le_trans (le_max_left a x) (ih (max a x))

/-- A `foldl max` dominates every element. -/
theorem le_foldl_max (ls : List Nat) (a l : Nat) (h : l ∈ ls) : l ≤ ls.foldl max a := by
  induction ls generalizing a with
  | nil => cases h
  | cons x ls ih =>
    rcases List.mem_cons.mp h with h | h
    · subst h
      exact le_trans (le_max_right a l) (base_le_foldl_max ls (max a l))
    · exact ih (max a x) h

/-- Every label is at most `parse_max_label`. -/
theorem le_parse_max_label (labels : List Nat) (l : Nat) (h : l ∈ labels) :
    l ≤ parse_max_label labels :=
  le_foldl_max labels 0 l h

/-- The final label-index offset vector of the construction: entry `j`
is the total frequency of the labels below `j` (for `j ≤ label_count`). -/
theorem parse_label_index_offsets_getD (labels : List Nat) (j : Nat)
    (hj : j ≤ parse_label_count labels) :
    (parse_label_index labels).2.getD j 0 = ∑ k in Finset.range j, labels.count k := by
  unfold parse_label_index
  rw [label_index_fill_snd]
  have hfold : labels.enum.foldl
      (fun off p => off.set (p.2 + 1) (off.getD (p.2 + 1) 0 + 1))
      (label_index_offsets_init labels) =
      labels.foldl (fun off l => off.set (l + 1) (off.getD (l + 1) 0 + 1))
        (label_index_offsets_init labels) := by
    rw [← List.enum_map_snd labels, List.foldl_map]
    simp [List.enum_map_snd]
  rw [hfold]
  have hmem : ∀ l ∈ labels, l + 1 < (label_index_offsets_init labels).length := by
    intro l hl
    rw [label_index_offsets_init_length]
    have : l ≤ parse_max_label labels := le_parse_max_label labels l hl
    have : l < parse_label_count labels := by
      unfold parse_label_count
      split <;> omega
    omega
  cases j with
  | zero =>
    rw [fill_offsets_getD_zero]
    simp [label_index_offsets_init]
  | succ j =>
    rw [fill_offsets_getD_succ _ _ _ hmem]
    rw [label_index_offsets_init_getD labels j (by omega)]
    rw [Finset.sum_range_succ]

/-- Length of the final label-index offset vector. -/
theorem parse_label_index_offsets_length (labels : List Nat) :
    (parse_label_index labels).2.length = parse_label_count labels + 1 := by
  unfold parse_label_index
  rw [label_index_fill_snd]
  have : labels.enum.foldl
      (fun off p => off.set (p.2 + 1) (off.getD (p.2 + 1) 0 + 1))
      (label_index_offsets_init labels) =
      labels.foldl (fun off l => off.set (l + 1) (off.getD (l + 1) 0 + 1))
        (label_index_offsets_init labels) := by
    rw [← List.enum_map_snd labels, List.foldl_map]
    simp [List.enum_map_snd]
  rw [this, fill_offsets_length, label_index_offsets_init_length]

/-- **C9** (amended).  For every constructed graph and every label `l`
with no occurrences that satisfies `l < label_count`, `nodes_by_label`
returns the empty slice.  (The counterexample above shows the call
panics for absent labels `≥ label_count`.) -/
theorem c9_nodes_by_label_absent_label_empty (labels : List Nat) (rows : List (List Nat))
    (l : Nat) (hl : l < (Graph.fromParse labels rows).label_count)
    (habsent : labels.count l = 0) :
    (Graph.fromParse labels rows).nodes_by_label? l = some [] := by
  have hlc : l < parse_label_count labels := hl
  have hlen : (Graph.fromParse labels rows).label_index_offsets.length =
      parse_label_count labels + 1 := parse_label_index_offsets_length labels
  have hv1 : (Graph.fromParse labels rows).label_index_offsets.getD l 0 =
      ∑ k in Finset.range l, labels.count k :=
    parse_label_index_offsets_getD labels l (by omega)
  have hv2 : (Graph.fromParse labels rows).label_index_offsets.getD (l + 1) 0 =
      ∑ k in Finset.range (l + 1), labels.count k :=
    parse_label_index_offsets_getD labels (l + 1) (by omega)
  have heq : ∑ k in Finset.range (l + 1), labels.count k =
      ∑ k in Finset.range l, labels.count k := by
    rw [Finset.sum_range_succ, habsent]
    simp
  have hilen : (Graph.fromParse labels rows).label_index.length = labels.length := by
    show (parse_label_index labels).1.length = labels.length
    unfold parse_label_index
    rw [label_index_fill_fst_length]
    simp
  have hle : (∑ k in Finset.range l, labels.count k) ≤ labels.length :=
    sum_counts_le labels l
  unfold Graph.nodes_by_label?
  have h1 : (Graph.fromParse labels rows).label_index_offsets.get? l =
      some (∑ k in Finset.range l, labels.count k) := by
    rw [List.get?_eq_getElem?, List.getElem?_eq_getElem (by omega)]
    rw [← hv1]
    simp [List.getD_eq_getElem?_getD, List.getElem?_eq_getElem (by omega : l <
      (Graph.fromParse labels rows).label_index_offsets.length)]
  have h2 : (Graph.fromParse labels rows).label_index_offsets.get? (l + 1) =
      some (∑ k in Finset.range l, labels.count k) := by
    rw [List.get?_eq_getElem?, List.getElem?_eq_getElem (by omega)]
    rw [← heq, ← hv2]
    simp [List.getD_eq_getElem?_getD, List.getElem?_eq_getElem (by omega : l + 1 <
      (Graph.fromParse labels rows).label_index_offsets.length)]
  rw [h1, h2]
  show listSlice _ _ _ = some []
  unfold listSlice
  rw [if_pos ⟨le_refl _, by omega⟩]
  simp

/-- Witness for the amended C9: on the constructed graph with labels
`[0, 2]` the label 1 is absent and below `label_count = 3`, and the
lookup returns the empty slice. -/
theorem c9_nodes_by_label_absent_label_empty_witness :
    (Graph.fromParse [0, 2] [[1], [0]]).nodes_by_label? 1 = some [] :=
  c9_nodes_by_label_absent_label_empty [0, 2] [[1], [0]] 1 (by decide) (by decide)

/-- **C10** (confirmed).  Compiled without the
`neighbor-label-frequency` feature, `nlf_filter` is exactly
`ldf_filter`: the `cfg_if!` of `filter/nlf.rs` dispatches to
`super::ldf_filter`, so selecting the NLF filter behaves identically to
selecting LDF on every input. -/
theorem c10_nlf_filter_feature_off_eq_ldf (d q : Graph) :
    nlf_filter false d q = ldf_filter d q := by
  rfl

/-- `candidate_count?` succeeds exactly on existing rows. -/
theorem candidate_count?_eq (cands : Candidates) (u : Nat) (h : u < cands.length) :
    candidate_count? cands u = some (cntD cands u) := by
  unfold candidate_count? cntD
  rw [List.get?_eq_getElem?, List.getElem?_eq_getElem h]
  simp [List.getD_eq_getElem?_getD, List.getElem?_eq_getElem h]

/-- `degree?` succeeds when both offsets exist. -/
theorem degree?_eq (q : Graph) (u : Nat) (h : u + 1 < q.offsets.length) :
    q.degree? u = some (q.degreeD u) := by
  unfold Graph.degreeD Graph.degree?
  rw [List.get?_eq_getElem?, List.getElem?_eq_getElem (by omega : u < q.offsets.length),
    List.get?_eq_getElem?, List.getElem?_eq_getElem h]
  rfl

/-- The `gql_start_node` fold is panic-free under the row and offset
bounds and computes the pure fold of `gql_start_step`. -/
theorem gql_start_fold_total (q : Graph) (cands : Candidates) (ns : List Nat) (s : Nat)
    (hns : ∀ x ∈ ns, x < cands.length ∧ x + 1 < q.offsets.length)
    (hs : s < cands.length ∧ s + 1 < q.offsets.length) :
    ns.foldlM
      (fun start node => do
        let num_node_candidates ← candidate_count? cands node
        let num_start_candidates ← candidate_count? cands start
        if num_node_candidates < num_start_candidates then pure node
        else if num_node_candidates = num_start_candidates then do
          let dn ← q.degree? node
          let ds ← q.degree? start
          pure (if ds < dn then node else start)
        else pure start)
      s = some (ns.foldl (gql_start_step q cands) s) := by
  induction ns generalizing s with
  | nil => rfl
  | cons x ns ih =>
    have hx := hns x (List.mem_cons_self x ns)
    have hns' : ∀ y ∈ ns, y < cands.length ∧ y + 1 < q.offsets.length := by
      intro y hy; exact hns y (List.mem_cons_of_mem x hy)
    have hstep : gql_start_step q cands s x < cands.length ∧
        gql_start_step q cands s x + 1 < q.offsets.length := by
      unfold gql_start_step
      split
      · exact hx
      · split
        · split
          · exact hx
          · exact hs
        · exact hs
    simp only [List.foldlM_cons, candidate_count?_eq cands x hx.1,
      candidate_count?_eq cands s hs.1, degree?_eq q x hx.2, degree?_eq q s hs.2]
    simp only [Option.bind_eq_bind, Option.some_bind]
    have hif : (if cntD cands x < cntD cands s then pure x
        else if cntD cands x = cntD cands s then
          pure (if q.degreeD s < q.degreeD x then x else s)
        else pure s : Option Nat) = some (gql_start_step q cands s x) := by
      unfold gql_start_step
      split
      · rfl
      · split <;> rfl
    rw [hif]
    simp only [Option.some_bind]
    exact ih _ hns' hstep

/-- `start_pref` is total: one of `pref s u`, `pref u s` always holds. -/
theorem start_pref_total (q : Graph) (cands : Candidates) (s u : Nat) :
    start_pref q cands s u ∨ start_pref q cands u s := by
  unfold start_pref
  omega

/-- `start_pref` is transitive. -/
theorem start_pref_trans (q : Graph) (cands : Candidates) (a b c : Nat)
    (h1 : start_pref q cands a b) (h2 : start_pref q cands b c) :
    start_pref q cands a c := by
  unfold start_pref at h1 h2 ⊢
  omega

/-- The start-node fold returns a node preferred (in the sense of
`start_pref`) over its start and every processed node. -/
theorem gql_start_fold_spec (q : Graph) (cands : Candidates) (ns : List Nat) (s : Nat)
    (hsorted : ns.Pairwise (· < ·)) (hgt : ∀ x ∈ ns, s < x) :
    (ns.foldl (gql_start_step q cands) s = s ∨ ns.foldl (gql_start_step q cands) s ∈ ns) ∧
    start_pref q cands (ns.foldl (gql_start_step q cands) s) s ∧
    (∀ u ∈ ns, start_pref q cands (ns.foldl (gql_start_step q cands) s) u) := by
  induction ns generalizing s with
  | nil =>
    refine ⟨Or.inl rfl, ?_, by intro u hu; cases hu⟩
    unfold start_pref
    right; right; exact ⟨rfl, rfl, le_refl s⟩
  | cons x ns ih =>
    have hsorted' : ns.Pairwise (· < ·) := hsorted.of_cons
    have hx_lt : ∀ y ∈ ns, x < y := by
      intro y hy; exact List.rel_of_pairwise_cons hsorted hy
    have hs_lt_x : s < x := hgt x (List.mem_cons_self x ns)
    set s1 := gql_start_step q cands s x with hs1
    have hgt' : ∀ y ∈ ns, s1 < y := by
      intro y hy
      have hxy := hx_lt y hy
      have hsy := hgt y (List.mem_cons_of_mem x hy)
      unfold gql_start_step at hs1
      rcases Nat.lt_trichotomy (cntD cands x) (cntD cands s) with h | h | h <;>
        simp only [hs1] <;> split <;> try split <;> try split
      all_goals omega
    obtain ⟨hmem, hpref1, hprefall⟩ := ih s1 hsorted' hgt'
    have hstep_s : start_pref q cands s1 s ∧ start_pref q cands s1 x := by
      rw [hs1]
      unfold gql_start_step start_pref
      split_ifs with h1 h2 h3 <;> constructor <;> omega
    have hfold_cons : (x :: ns).foldl (gql_start_step q cands) s =
        ns.foldl (gql_start_step q cands) s1 := by
      simp [hs1]
    refine ⟨?_, ?_, ?_⟩
    · rw [hfold_cons]
      rcases hmem with h | h
      · rw [h]
        simp only [hs1]
        unfold gql_start_step
        split
        · right; exact List.mem_cons_self x ns
        · split
          · split
            · right; exact List.mem_cons_self x ns
            · left; rfl
          · left; rfl
      · right; exact List.mem_cons_of_mem x h
    · rw [hfold_cons]
      exact start_pref_trans q cands _ s1 s hpref1 hstep_s.1
    · rw [hfold_cons]
      intro u hu
      rcases List.mem_cons.mp hu with h | h
      · subst h
        exact start_pref_trans q cands _ s1 u hpref1 hstep_s.2
      · exact hprefall u h

/-- The order-selection fold of `gql_order` preserves the head of the
accumulated order. -/
theorem gql_order_fold_head {α : Type} (d q : Graph) (cands : Candidates) (l : List α)
    (st : List Nat × List Bool × List Bool) (res : List Nat × List Bool × List Bool)
    (hne : st.1 ≠ [])
    (h : l.foldlM
      (fun (st : List Nat × List Bool × List Bool) _ => do
        let next ← gql_select_fold d q cands st.2.1 st.2.2
        let va' ← update_valid_vertices q next.1 st.2.1 st.2.2
        pure (st.1 ++ [next.1], va'.1, va'.2))
      st = some res) :
    res.1.head? = st.1.head? ∧ res.1 ≠ [] := by
  induction l generalizing st with
  | nil =>
    simp only [List.foldlM_nil, Option.pure_def, Option.some.injEq] at h
    subst h; exact ⟨rfl, hne⟩
  | cons a l ih =>
    simp only [List.foldlM_cons] at h
    cases hsel : gql_select_fold d q cands st.2.1 st.2.2 with
    | none => rw [hsel] at h; simp at h
    | some next =>
      rw [hsel] at h
      simp only [Option.bind_eq_bind, Option.some_bind] at h
      cases huvv : update_valid_vertices q next.1 st.2.1 st.2.2 with
      | none => rw [huvv] at h; simp at h
      | some va' =>
        rw [huvv] at h
        simp only [Option.bind_eq_bind, Option.some_bind] at h
        have hne' : (st.1 ++ [next.1], va'.1, va'.2).1 ≠ [] := by
          simp
        obtain ⟨h1, h2⟩ := ih _ hne' h
        refine ⟨?_, h2⟩
        rw [h1]
        show (st.1 ++ [next.1]).head? = st.1.head?
        cases st1 : st.1 with
        | nil => exact absurd st1 hne
        | cons y ys => simp

/-- If `gql_order` succeeds, the start-node fold succeeded and its value
heads the order. -/
theorem gql_order_head (d q : Graph) (cands : Candidates) (π : List Nat)
    (h : gql_order d q cands = some π) :
    ∃ s, gql_start_node q cands = some s ∧ π.head? = some s := by
  unfold gql_order at h
  cases hs : gql_start_node q cands with
  | none => rw [hs] at h; simp at h
  | some s =>
    rw [hs] at h
    simp only [Option.bind_eq_bind, Option.some_bind] at h
    cases huvv : update_valid_vertices q s (List.replicate q.node_count false)
        (List.replicate q.node_count false) with
    | none => rw [huvv] at h; simp at h
    | some va =>
      rw [huvv] at h
      simp only [Option.bind_eq_bind, Option.some_bind] at h
      obtain ⟨r, hfold, hr⟩ := Option.bind_eq_some.mp h
      obtain ⟨hh, _⟩ := gql_order_fold_head d q cands
        (List.range (q.node_count - 1)) ([s], va.1, va.2) r (by simp) hfold
      simp only [Option.pure_def, Option.some.injEq] at hr
      refine ⟨s, rfl, ?_⟩
      rw [← hr, hh]
      rfl

/-- **C7** (confirmed).  Under the claim's hypotheses (one non-empty
candidate row per query node, well-formed query offsets), the first node
of the matching order returned by `gql_order` minimises the candidate
count; among such nodes it has the maximal query-graph degree, and among
nodes tied on both it is the smallest id. -/
theorem c7_start_node_rule (d q : Graph) (cands : Candidates) (π : List Nat)
    (hrows : cands.length = q.node_count)
    (hne : ∀ row ∈ cands, row ≠ [])
    (hoff : q.offsets.length = q.node_count + 1)
    (hres : gql_order d q cands = some π) :
    ∃ s, π.head? = some s ∧ s < q.node_count ∧
      ∀ u < q.node_count, start_pref q cands s u := by
  obtain ⟨s, hstart, hhead⟩ := gql_order_head d q cands π hres
  have hn : 0 < q.node_count := by
    by_contra h0
    have h0 : q.node_count = 0 := by omega
    unfold gql_order at hres
    rw [hstart] at hres
    simp only [Option.bind_eq_bind, Option.some_bind] at hres
    unfold update_valid_vertices at hres
    unfold setAt at hres
    rw [h0] at hres
    simp at hres
  have hbound : ∀ x ∈ List.range' 1 (q.node_count - 1), x < cands.length ∧
      x + 1 < q.offsets.length := by
    intro x hx
    have := List.mem_range'_1.mp hx
    constructor <;> omega
  have h0bound : (0 : Nat) < cands.length ∧ (0 : Nat) + 1 < q.offsets.length := by
    constructor <;> omega
  have htotal := gql_start_fold_total q cands (List.range' 1 (q.node_count - 1)) 0
    hbound h0bound
  unfold gql_start_node at hstart
  rw [htotal] at hstart
  have hs : s = (List.range' 1 (q.node_count - 1)).foldl (gql_start_step q cands) 0 := by
    exact (Option.some.injEq _ _ ▸ hstart).symm
  have hsorted : (List.range' 1 (q.node_count - 1)).Pairwise (· < ·) := by
    have := List.pairwise_lt_range' 1 (q.node_count - 1)
    exact this
  have hgt : ∀ x ∈ List.range' 1 (q.node_count - 1), 0 < x := by
    intro x hx
    have := List.mem_range'_1.mp hx
    omega
  obtain ⟨hmem, hpref0, hprefall⟩ := gql_start_fold_spec q cands
    (List.range' 1 (q.node_count - 1)) 0 hsorted hgt
  refine ⟨s, hhead, ?_, ?_⟩
  · rcases hmem with h | h
    · rw [hs, h]; exact hn
    · rw [hs] at *
      have := List.mem_range'_1.mp h
      omega
  · intro u hu
    rcases Nat.eq_zero_or_pos u with h0 | hpos
    · subst h0; rw [hs]; exact hpref0
    · have : u ∈ List.range' 1 (q.node_count - 1) := by
        rw [List.mem_range'_1]
        omega
      rw [hs]
      exact hprefall u this

/-- Witness for C7 at a concrete instance: on `exG` with the line query
`exQ2` and its LDF candidates, the returned order starts with query node
0 (one candidate, fewer than the others). -/
theorem c7_start_node_rule_witness :
    ∃ s, ([1, 0, 2] : List Nat).head? = some s ∧ s < exQ2.node_count ∧
      ∀ u < exQ2.node_count, start_pref exQ2 [[2, 4], [1, 3], [1, 3]] s u := by
  have h := c7_start_node_rule exG exQ2 [[2, 4], [1, 3], [1, 3]] [1, 0, 2]
    (by decide) (by decide) (by decide) (by decide)
  exact h

/-- Monotone offsets are monotone over any span. -/
theorem offsets_mono_le (g : Graph) (hwf : g.OffsetsWf) (i j : Nat)
    (hij : i ≤ j) (hj : j ≤ g.node_count) :
    g.offsets.getD i 0 ≤ g.offsets.getD j 0 := by
  obtain ⟨_, hmono, _⟩ := hwf
  induction j with
  | zero =>
    have : i = 0 := by omega
    subst this
    exact le_refl _
  | succ j ih =>
    rcases Nat.lt_or_ge i (j + 1) with h | h
    · have h1 : g.offsets.getD i 0 ≤ g.offsets.getD j 0 := ih (by omega) (by omega)
      have h2 : g.offsets.getD j 0 ≤ g.offsets.getD (j + 1) 0 := hmono j (by omega)
      omega
    · have : i = j + 1 := by omega
      subst this
      exact le_refl _

/-- Under well-formed offsets, `neighbors?` succeeds on every node. -/
theorem neighbors?_eq (g : Graph) (hwf : g.OffsetsWf) (u : Nat) (hu : u < g.node_count) :
    g.neighbors? u = some (g.neighborsD u) := by
  obtain ⟨hlen, hmono, hlast⟩ := hwf
  have h1 : u < g.offsets.length := by omega
  have h2 : u + 1 < g.offsets.length := by omega
  have hget1 : g.offsets.get? u = some (g.offsets.getD u 0) := by
    rw [List.get?_eq_getElem?, List.getElem?_eq_getElem h1]
    simp [List.getD_eq_getElem?_getD, List.getElem?_eq_getElem h1]
  have hget2 : g.offsets.get? (u + 1) = some (g.offsets.getD (u + 1) 0) := by
    rw [List.get?_eq_getElem?, List.getElem?_eq_getElem h2]
    simp [List.getD_eq_getElem?_getD, List.getElem?_eq_getElem h2]
  have hab : g.offsets.getD u 0 ≤ g.offsets.getD (u + 1) 0 := hmono u hu
  have hbl : g.offsets.getD (u + 1) 0 ≤ g.neighbors.length := by
    have := offsets_mono_le g ⟨hlen, hmono, hlast⟩ (u + 1) g.node_count (by omega) (le_refl _)
    omega
  unfold Graph.neighbors? at *
  rw [hget1, hget2]
  unfold Graph.neighborsD Graph.neighbors?
  rw [hget1, hget2]
  simp only [Option.bind_eq_bind, Option.some_bind]
  unfold listSlice
  rw [if_pos ⟨hab, hbl⟩]
  rfl

/-- Folding bounds-checked `true`-writes over a list of in-range
positions succeeds and sets exactly those positions. -/
theorem fold_setAt_true (ws : List Nat) (a : List Bool)
    (hws : ∀ w ∈ ws, w < a.length) :
    ∃ a', ws.foldlM (fun x w => setAt x w true) a = some a' ∧
      a'.length = a.length ∧
      ∀ v, a'.getD v false = (a.getD v false || decide (v ∈ ws)) := by
  induction ws generalizing a with
  | nil =>
    refine ⟨a, rfl, rfl, ?_⟩
    intro v; simp
  | cons w ws ih =>
    have hw : w < a.length := hws w (List.mem_cons_self w ws)
    have hset : setAt a w true = some (a.set w true) := by
      unfold setAt; rw [if_pos hw]
    have hws' : ∀ x ∈ ws, x < (a.set w true).length := by
      intro x hx; rw [List.length_set]; exact hws x (List.mem_cons_of_mem w hx)
    obtain ⟨a', hfold, hlen, hval⟩ := ih (a.set w true) hws'
    refine ⟨a', ?_, by rw [hlen, List.length_set], ?_⟩
    · simp only [List.foldlM_cons, hset, Option.bind_eq_bind, Option.some_bind]
      exact hfold
    · intro v
      rw [hval v]
      by_cases hvw : v = w
      · subst hvw
        simp [List.getD_eq_getElem?_getD, List.getElem?_set_eq_of_lt _ hw]
      · have : (a.set w true).getD v false = a.getD v false := by
          simp [List.getD_eq_getElem?_getD, List.getElem?_set_ne (fun h => hvw h.symm)]
        rw [this]
        simp [List.mem_cons, hvw]

/-- `update_valid_vertices` under the well-formedness hypotheses:
it succeeds, preserves the buffer lengths, marks exactly the selected
node visited and its neighbours adjacent. -/
theorem update_valid_vertices_spec (q : Graph) (u : Nat) (visited adjacent : List Bool)
    (hwf : q.OffsetsWf) (hu : u < q.node_count)
    (hvl : visited.length = q.node_count) (hal : adjacent.length = q.node_count)
    (hnbr : ∀ w ∈ q.neighborsD u, w < q.node_count) :
    ∃ vis' adj', update_valid_vertices q u visited adjacent = some (vis', adj') ∧
      vis'.length = q.node_count ∧ adj'.length = q.node_count ∧
      (∀ v, vis'.getD v false = (visited.getD v false || decide (v = u))) ∧
      (∀ v, adj'.getD v false = (adjacent.getD v false || decide (v ∈ q.neighborsD u))) := by
  have hset : setAt visited u true = some (visited.set u true) := by
    unfold setAt; rw [if_pos (by omega)]
  obtain ⟨adj', hfold, hlen, hval⟩ := fold_setAt_true (q.neighborsD u) adjacent
    (by intro w hw; rw [hal]; exact hnbr w hw)
  refine ⟨visited.set u true, adj', ?_, ?_, by omega, ?_, hval⟩
  · unfold update_valid_vertices
    rw [hset]
    simp only [Option.bind_eq_bind, Option.some_bind]
    rw [neighbors?_eq q hwf u hu]
    simp only [Option.some_bind]
    rw [hfold]
    rfl
  · rw [List.length_set]; exact hvl
  · intro v
    by_cases hvu : v = u
    · subst hvu
      simp [List.getD_eq_getElem?_getD, List.getElem?_set_eq_of_lt _ (by omega : v < visited.length)]
    · simp [List.getD_eq_getElem?_getD, List.getElem?_set_ne (fun h => hvu h.symm), hvu]

/-- A duplicate-free row of node ids has at most `node_count` entries. -/
theorem row_length_le (row : List Nat) (m : Nat) (hnd : row.Nodup)
    (hlt : ∀ v ∈ row, v < m) : row.length ≤ m := by
  have hsub : row.toFinset ⊆ Finset.range m := by
    intro v hv
    rw [Finset.mem_range]
    exact hlt v (List.mem_toFinset.mp hv)
  have := Finset.card_le_card hsub
  rw [List.toFinset_card_of_nodup hnd] at this
  simpa using this

/-- The inner scan of the `gql_order` selection loop: panic-free under
the hypotheses, and its result is either `NOT_FOUND` with no eligible
node scanned, or an eligible node with its candidate count. -/
theorem gql_select_fold_spec (d q : Graph) (cands : Candidates)
    (visited adjacent : List Bool)
    (hn : q.node_count ≤ cands.length)
    (hoff : q.offsets.length = q.node_count + 1)
    (hsmall : q.node_count ≤ NOT_FOUND)
    (hnodup : ∀ row ∈ cands, row.Nodup)
    (hvals : ∀ row ∈ cands, ∀ v ∈ row, v < d.node_count) :
    ∃ p, gql_select_fold d q cands visited adjacent = some p ∧
      ((p.1 = NOT_FOUND) ∨
        (p.1 < q.node_count ∧ visited.getD p.1 false = false ∧
          adjacent.getD p.1 false = true)) ∧
      ((∃ x < q.node_count, visited.getD x false = false ∧
          adjacent.getD x false = true) → p.1 ≠ NOT_FOUND) := by
  have hcnt : ∀ u < q.node_count, cntD cands u ≤ d.node_count := by
    intro u hu
    have hrow : cands.getD u [] ∈ cands ∨ cands.getD u [] = [] := by
      rcases Nat.lt_or_ge u cands.length with h | h
      · left
        have : cands.getD u [] = cands.get ⟨u, h⟩ := by
          simp [List.getD_eq_getElem?_getD, List.getElem?_eq_getElem h, List.get_eq_getElem]
        rw [this]
        exact List.get_mem cands u h
      · right
        rw [List.getD_eq_getElem?_getD, List.getElem?_eq_none_iff.mpr (by omega)]
        rfl
    rcases hrow with h | h
    · exact row_length_le _ _ (hnodup _ h) (hvals _ h)
    · unfold cntD; rw [h]; simp
  -- generalised fold over an arbitrary prefix of query nodes
  suffices hgen : ∀ ns : List Nat, (∀ x ∈ ns, x < q.node_count) →
      ∀ p : Nat × Nat,
      ((p = (NOT_FOUND, d.node_count + 1)) ∨
        (p.1 < q.node_count ∧ visited.getD p.1 false = false ∧
          adjacent.getD p.1 false = true ∧ p.2 = cntD cands p.1 ∧ p.2 ≤ d.node_count)) →
      ∃ p', ns.foldlM
        (fun p curr =>
          if visited.getD curr false = false ∧ adjacent.getD curr false = true then do
            let num_candidates ← candidate_count? cands curr
            if num_candidates < p.2 then pure (curr, num_candidates)
            else if num_candidates = p.2 then do
              let dc ← q.degree? curr
              let dn ← q.degree? p.1
              pure (if dn < dc then (curr, p.2) else p)
            else pure p
          else pure p)
        p = some p' ∧
        ((p' = (NOT_FOUND, d.node_count + 1)) ∨
          (p'.1 < q.node_count ∧ visited.getD p'.1 false = false ∧
            adjacent.getD p'.1 false = true ∧ p'.2 = cntD cands p'.1 ∧ p'.2 ≤ d.node_count)) ∧
        ((∃ x ∈ ns, visited.getD x false = false ∧ adjacent.getD x false = true) →
          p'.1 ≠ NOT_FOUND) ∧
        (p.1 ≠ NOT_FOUND → p'.1 ≠ NOT_FOUND) by
    obtain ⟨p', hfold, hdisj, helig, _⟩ := hgen (List.range q.node_count)
      (by intro x hx; exact List.mem_range.mp hx) (NOT_FOUND, d.node_count + 1) (Or.inl rfl)
    refine ⟨p', hfold, ?_, ?_⟩
    · rcases hdisj with h | h
      · left; rw [h]
      · right; exact ⟨h.1, h.2.1, h.2.2.1⟩
    · intro ⟨x, hx, hvis, hadj⟩
      exact helig ⟨x, List.mem_range.mpr hx, hvis, hadj⟩
  intro ns
  induction ns with
  | nil =>
    intro _ p hp
    refine ⟨p, rfl, hp, ?_, fun h => h⟩
    intro ⟨x, hx, _⟩
    cases hx
  | cons curr ns ih =>
    intro hns p hp
    have hcurr : curr < q.node_count := hns curr (List.mem_cons_self curr ns)
    have hns' : ∀ x ∈ ns, x < q.node_count := fun x hx => hns x (List.mem_cons_of_mem curr hx)
    by_cases helig : visited.getD curr false = false ∧ adjacent.getD curr false = true
    · -- eligible node: the new accumulator is eligible in all cases
      have hcc : candidate_count? cands curr = some (cntD cands curr) :=
        candidate_count?_eq cands curr (by omega)
      have hcle : cntD cands curr ≤ d.node_count := hcnt curr hcurr
      -- the step result
      have hstep : ∃ pnew, (if visited.getD curr false = false ∧ adjacent.getD curr false = true then do
            let num_candidates ← candidate_count? cands curr
            if num_candidates < p.2 then pure (curr, num_candidates)
            else if num_candidates = p.2 then do
              let dc ← q.degree? curr
              let dn ← q.degree? p.1
              pure (if dn < dc then (curr, p.2) else p)
            else pure p
          else pure p) = some pnew ∧
          (pnew.1 < q.node_count ∧ visited.getD pnew.1 false = false ∧
            adjacent.getD pnew.1 false = true ∧ pnew.2 = cntD cands pnew.1 ∧
            pnew.2 ≤ d.node_count) := by
        rw [if_pos helig]
        simp only [hcc, Option.bind_eq_bind, Option.some_bind]
        rcases hp with hp | hp
        · have hlt : cntD cands curr < p.2 := by rw [hp]; omega
          rw [if_pos hlt]
          exact ⟨(curr, cntD cands curr), rfl, hcurr, helig.1, helig.2, rfl, hcle⟩
        · by_cases hlt : cntD cands curr < p.2
          · rw [if_pos hlt]
            exact ⟨(curr, cntD cands curr), rfl, hcurr, helig.1, helig.2, rfl, hcle⟩
          · rw [if_neg hlt]
            by_cases heq : cntD cands curr = p.2
            · rw [if_pos heq]
              have hdc : q.degree? curr = some (q.degreeD curr) :=
                degree?_eq q curr (by omega)
              have hdn : q.degree? p.1 = some (q.degreeD p.1) :=
                degree?_eq q p.1 (by omega)
              simp only [hdc, hdn, Option.bind_eq_bind, Option.some_bind]
              by_cases hdeg : q.degreeD p.1 < q.degreeD curr
              · rw [if_pos hdeg]
                exact ⟨(curr, p.2), rfl, hcurr, helig.1, helig.2, by simp [← heq], by simp [hp.2.2.2.2]⟩
              · rw [if_neg hdeg]
                exact ⟨p, rfl, hp⟩
            · rw [if_neg heq]
              exact ⟨p, rfl, hp⟩
      obtain ⟨pnew, hstepeq, hpnew⟩ := hstep
      obtain ⟨p', hfold, hdisj, helig', hne⟩ := ih hns' pnew (Or.inr hpnew)
      refine ⟨p', ?_, hdisj, ?_, ?_⟩
      · simp only [Option.bind_eq_bind] at hstepeq
        simp only [List.foldlM_cons, Option.bind_eq_bind, hstepeq, Option.some_bind]
        exact hfold
      · intro _
        apply hne
        intro hnf
        rw [hnf] at hpnew
        have := hpnew.1
        unfold NOT_FOUND at this
        unfold NOT_FOUND at hsmall
        omega
      · intro _
        apply hne
        intro hnf
        rw [hnf] at hpnew
        have := hpnew.1
        unfold NOT_FOUND at this
        unfold NOT_FOUND at hsmall
        omega
    · -- not eligible: accumulator unchanged
      obtain ⟨p', hfold, hdisj, helig', hne⟩ := ih hns' p hp
      refine ⟨p', ?_, hdisj, ?_, hne⟩
      · simp only [List.foldlM_cons, if_neg helig, Option.some_bind]
        exact hfold
      · intro ⟨x, hx, hex⟩
        rcases List.mem_cons.mp hx with h | h
        · subst h
          exact absurd ⟨hex.1, hex.2⟩ helig
        · exact helig' ⟨x, h, hex.1, hex.2⟩

/-- `getD` of a `false`-replicate is `false`. -/
theorem getD_replicate_false (n v : Nat) : (List.replicate n false).getD v false = false := by
  rw [List.getD_eq_getElem?_getD, List.getElem?_replicate]
  split <;> rfl

/-- `getD` on the left part of an append. -/
theorem getD_append_lt {α : Type} (l l' : List α) (i : Nat) (d : α) (h : i < l.length) :
    (l ++ l').getD i d = l.getD i d := by
  rw [List.getD_eq_getElem?_getD, List.getD_eq_getElem?_getD,
    List.getElem?_append_left h]

/-- `getD` at the appended last element. -/
theorem getD_append_length {α : Type} (l : List α) (x : α) (d : α) :
    (l ++ [x]).getD l.length d = x := by
  rw [List.getD_eq_getElem?_getD, List.getElem?_append_right (le_refl _)]
  simp

/-- A duplicate-free list of `n` naturals below `n` is a permutation of
`range n`. -/
theorem perm_range_of_nodup_lt (l : List Nat) (n : Nat) (hnd : l.Nodup)
    (hlt : ∀ x ∈ l, x < n) (hlen : l.length = n) : l.Perm (List.range n) := by
  apply List.perm_of_nodup_nodup_toFinset_eq hnd (List.nodup_range n)
  have hsub : l.toFinset ⊆ Finset.range n := by
    intro v hv
    rw [Finset.mem_range]
    exact hlt v (List.mem_toFinset.mp hv)
  have hcard : l.toFinset.card = n := by
    rw [List.toFinset_card_of_nodup hnd, hlen]
  have heq := Finset.eq_of_subset_of_card_le hsub (by rw [hcard]; simp)
  have hrange : (List.range n).toFinset = Finset.range n := by
    ext x
    simp
  rw [hrange]
  exact heq

/-- The `gql_order` selection loop: under the well-formedness and
connectivity hypotheses, it is panic-free, preserves the invariant and
grows the order to cover all query nodes. -/
theorem gql_order_loop_spec (d q : Graph) (cands : Candidates)
    (hwf : q.OffsetsWf) (hnbr : q.NbrsInRange) (hsym : q.Symm) (hconn : q.CutConnected)
    (hsmall : q.node_count ≤ NOT_FOUND)
    (hrows : cands.length = q.node_count)
    (hnodup : ∀ row ∈ cands, row.Nodup)
    (hvals : ∀ row ∈ cands, ∀ v ∈ row, v < d.node_count) :
    ∀ (l : List Nat) (st : List Nat × List Bool × List Bool),
      order_inv q st → st.1.length + l.length = q.node_count →
      ∃ res, l.foldlM
        (fun (st : List Nat × List Bool × List Bool) _ => do
          let next ← gql_select_fold d q cands st.2.1 st.2.2
          let va' ← update_valid_vertices q next.1 st.2.1 st.2.2
          pure (st.1 ++ [next.1], va'.1, va'.2))
        st = some res ∧ order_inv q res ∧ res.1.length = q.node_count := by
  intro l
  induction l with
  | nil =>
    intro st hinv hlen
    refine ⟨st, rfl, hinv, ?_⟩
    simpa using hlen
  | cons x l ih =>
    intro st hinv hlen
    obtain ⟨hne, hnd, hlt, hvl, hal, hvis, hadj, hconn'⟩ := hinv
    have hlen1 : st.1.length < q.node_count := by
      simp only [List.length_cons] at hlen
      omega
    -- an eligible (unvisited, adjacent) node exists, by connectivity
    have hmap : ∀ m ∈ st.1.toFinset, m < q.node_count := by
      intro m hm
      exact hlt m (List.mem_toFinset.mp hm)
    have hexist : ∃ v, v < q.node_count ∧ st.2.1.getD v false = false ∧
        st.2.2.getD v false = true := by
      have hSne : (Finset.attachFin st.1.toFinset hmap).Nonempty := by
        obtain ⟨y, hy⟩ := List.exists_mem_of_ne_nil st.1 hne
        refine ⟨⟨y, hlt y hy⟩, ?_⟩
        rw [Finset.mem_attachFin, List.mem_toFinset]
        exact hy
      have hSneq : Finset.attachFin st.1.toFinset hmap ≠ Finset.univ := by
        intro hequ
        have h1 : (Finset.attachFin st.1.toFinset hmap).card = st.1.toFinset.card :=
          Finset.card_attachFin _ _
        have h2 : st.1.toFinset.card = st.1.length := List.toFinset_card_of_nodup hnd
        have h3 : (Finset.univ : Finset (Fin q.node_count)).card = q.node_count := by
          simp
        rw [hequ, h3] at h1
        omega
      obtain ⟨a, haS, b, hbS, hbN⟩ := hconn _ hSne hSneq
      have haOrd : (a : Nat) ∈ st.1 := by
        rw [Finset.mem_attachFin, List.mem_toFinset] at haS
        exact haS
      have hbOrd : (b : Nat) ∉ st.1 := by
        intro hmem
        apply hbS
        rw [Finset.mem_attachFin, List.mem_toFinset]
        exact hmem
      refine ⟨b, b.isLt, ?_, ?_⟩
      · by_cases hb : st.2.1.getD (b : Nat) false = true
        · exact absurd ((hvis b b.isLt).mp hb) hbOrd
        · simpa using hb
      · exact (hadj b b.isLt).mpr ⟨a, haOrd, hbN⟩
    obtain ⟨p, hsel, hdisj, heligimp⟩ := gql_select_fold_spec d q cands st.2.1 st.2.2
      (le_of_eq hrows.symm) hwf.1 hsmall hnodup hvals
    have hpne : p.1 ≠ NOT_FOUND := by
      obtain ⟨v, hv, h1, h2⟩ := hexist
      exact heligimp ⟨v, hv, h1, h2⟩
    have hp : p.1 < q.node_count ∧ st.2.1.getD p.1 false = false ∧
        st.2.2.getD p.1 false = true := by
      rcases hdisj with h | h
      · exact absurd h hpne
      · exact h
    have hp1mem : p.1 ∉ st.1 := by
      intro hmem
      have := (hvis p.1 hp.1).mpr hmem
      rw [hp.2.1] at this
      cases this
    obtain ⟨vis', adj', huvv, hvl', hal', hvisf, hadjf⟩ :=
      update_valid_vertices_spec q p.1 st.2.1 st.2.2 hwf hp.1 hvl hal
        (fun w hw => hnbr p.1 hp.1 w hw)
    have hinv' : order_inv q (st.1 ++ [p.1], vis', adj') := by
      refine ⟨by simp, ?_, ?_, hvl', hal', ?_, ?_, ?_⟩
      · rw [List.nodup_append]
        exact ⟨hnd, List.nodup_singleton _, by
          intro y hy hy'
          rw [List.mem_singleton] at hy'
          subst hy'
          exact hp1mem hy⟩
      · intro y hy
        rcases List.mem_append.mp hy with h | h
        · exact hlt y h
        · rw [List.mem_singleton] at h
          subst h
          exact hp.1
      · intro v hv
        rw [hvisf v]
        constructor
        · intro h
          rcases Bool.or_eq_true_iff.mp h with h | h
          · exact List.mem_append.mpr (Or.inl ((hvis v hv).mp h))
          · rw [decide_eq_true_eq] at h
            subst h
            exact List.mem_append.mpr (Or.inr (List.mem_singleton_self _))
        · intro h
          rcases List.mem_append.mp h with h | h
          · rw [(hvis v hv).mpr h]
            simp
          · rw [List.mem_singleton] at h
            subst h
            simp
      · intro v hv
        rw [hadjf v]
        constructor
        · intro h
          rcases Bool.or_eq_true_iff.mp h with h | h
          · obtain ⟨a, ha, hav⟩ := (hadj v hv).mp h
            exact ⟨a, List.mem_append.mpr (Or.inl ha), hav⟩
          · rw [decide_eq_true_eq] at h
            exact ⟨p.1, List.mem_append.mpr (Or.inr (List.mem_singleton_self _)), h⟩
        · intro ⟨a, ha, hav⟩
          rcases List.mem_append.mp ha with h | h
          · rw [(hadj v hv).mpr ⟨a, h, hav⟩]
            simp
          · rw [List.mem_singleton] at h
            subst h
            simp [hav]
      · intro i hi hilen
        dsimp only at hilen ⊢
        simp only [List.length_append, List.length_singleton] at hilen
        rcases Nat.lt_or_ge i st.1.length with h | h
        · obtain ⟨j, hj, hjmem⟩ := hconn' i hi h
          refine ⟨j, hj, ?_⟩
          rw [getD_append_lt _ _ i _ h, getD_append_lt _ _ j _ (by omega)]
          exact hjmem
        · have hieq : i = st.1.length := by omega
          subst hieq
          obtain ⟨a, ha, hav⟩ := (hadj p.1 hp.1).mp hp.2.2
          obtain ⟨j, hjlen, hjval⟩ := List.mem_iff_getElem.mp ha
          refine ⟨j, hjlen, ?_⟩
          rw [getD_append_lt _ _ _ _ hjlen, getD_append_length]
          have hjgetD : st.1.getD j 0 = a := by
            rw [List.getD_eq_getElem?_getD, List.getElem?_eq_getElem hjlen, hjval]
            rfl
          rw [hjgetD]
          exact (hsym a (hlt a ha) p.1 hp.1).mpr hav
    have hlen' : (st.1 ++ [p.1], vis', adj').1.length + l.length = q.node_count := by
      dsimp only
      simp only [List.length_cons] at hlen
      simp only [List.length_append, List.length_singleton]
      omega
    obtain ⟨res, hfold, hres, hreslen⟩ := ih (st.1 ++ [p.1], vis', adj') hinv' hlen'
    refine ⟨res, ?_, hres, hreslen⟩
    simp only [List.foldlM_cons, hsel, Option.bind_eq_bind, Option.some_bind, huvv]
    exact hfold

/-- **C8** (counterexample).  The claim fails as stated: on the
disconnected two-node query `qdisc` with one candidate row per query
node, `gql_order` returns no order at all — the selection loop finds no
unvisited adjacent node, leaves `next_node = usize::MAX` and panics in
`update_valid_vertices`. -/
theorem c8_gql_order_panics_on_disconnected_query :
    gql_order exG qdisc [[0], [0]] = none := by
  decide

/-- **C8** (amended).  For a *connected* query graph (with well-formed,
in-range, symmetric adjacency) and a candidate structure with one
duplicate-free row of data nodes per query node, `gql_order` returns an
order that is a permutation of the query nodes in which every node
after the first is adjacent in `Q` to some earlier node. -/
theorem c8_order_connected_permutation (d q : Graph) (cands : Candidates)
    (hwf : q.OffsetsWf) (hnbr : q.NbrsInRange) (hsym : q.Symm) (hconn : q.CutConnected)
    (hn : 0 < q.node_count) (hsmall : q.node_count ≤ NOT_FOUND)
    (hrows : cands.length = q.node_count)
    (hnodup : ∀ row ∈ cands, row.Nodup)
    (hvals : ∀ row ∈ cands, ∀ v ∈ row, v < d.node_count) :
    ∃ π, gql_order d q cands = some π ∧ π.Perm (List.range q.node_count) ∧
      ∀ i, 0 < i → i < π.length →
        ∃ j < i, π.getD j 0 ∈ q.neighborsD (π.getD i 0) := by
  -- the start node is in range
  have hbound : ∀ x ∈ List.range' 1 (q.node_count - 1), x < cands.length ∧
      x + 1 < q.offsets.length := by
    intro x hx
    have := List.mem_range'_1.mp hx
    have hoff := hwf.1
    constructor <;> omega
  have h0bound : (0 : Nat) < cands.length ∧ (0 : Nat) + 1 < q.offsets.length := by
    have hoff := hwf.1
    constructor <;> omega
  have htotal := gql_start_fold_total q cands (List.range' 1 (q.node_count - 1)) 0
    hbound h0bound
  set s := (List.range' 1 (q.node_count - 1)).foldl (gql_start_step q cands) 0 with hs
  have hstart : gql_start_node q cands = some s := htotal
  have hslt : s < q.node_count := by
    obtain ⟨hmem, _, _⟩ := gql_start_fold_spec q cands
      (List.range' 1 (q.node_count - 1)) 0
      (List.pairwise_lt_range' 1 (q.node_count - 1))
      (by intro x hx; have := List.mem_range'_1.mp hx; omega)
    rw [← hs] at hmem
    rcases hmem with h | h
    · omega
    · have := List.mem_range'_1.mp h
      omega
  -- the initial update succeeds
  obtain ⟨vis0, adj0, huvv0, hvl0, hal0, hvisf0, hadjf0⟩ :=
    update_valid_vertices_spec q s (List.replicate q.node_count false)
      (List.replicate q.node_count false) hwf hslt
      (by simp) (by simp) (fun w hw => hnbr s hslt w hw)
  have hinv0 : order_inv q ([s], vis0, adj0) := by
    refine ⟨by simp, List.nodup_singleton s, ?_, hvl0, hal0, ?_, ?_, ?_⟩
    · intro x hx
      rw [List.mem_singleton] at hx
      subst hx
      exact hslt
    · intro v hv
      rw [hvisf0 v, getD_replicate_false]
      simp [List.mem_singleton, eq_comm]
    · intro v hv
      rw [hadjf0 v, getD_replicate_false]
      constructor
      · intro h
        simp only [Bool.false_or, decide_eq_true_eq] at h
        exact ⟨s, List.mem_singleton_self s, h⟩
      · intro ⟨a, ha, hav⟩
        rw [List.mem_singleton] at ha
        subst ha
        simp [hav]
    · intro i hi hilen
      simp only [List.length_singleton] at hilen
      omega
  have hlen0 : ([s], vis0, adj0).1.length + (List.range (q.node_count - 1)).length =
      q.node_count := by
    simp
    omega
  obtain ⟨res, hfold, hresinv, hreslen⟩ := gql_order_loop_spec d q cands hwf hnbr hsym
    hconn hsmall hrows hnodup hvals (List.range (q.node_count - 1)) ([s], vis0, adj0)
    hinv0 hlen0
  obtain ⟨_, hresnd, hreslt, _, _, _, _, hresconn⟩ := hresinv
  refine ⟨res.1, ?_, ?_, ?_⟩
  · unfold gql_order
    rw [hstart]
    simp only [Option.bind_eq_bind, Option.some_bind]
    rw [huvv0]
    simp only [Option.some_bind]
    exact Option.bind_eq_some.mpr ⟨res, hfold, rfl⟩
  · exact perm_range_of_nodup_lt res.1 q.node_count hresnd hreslt hreslen
  · intro i hi hilen
    exact hresconn i hi hilen

/-- Witness for the amended C8: the connected line query `exQ2` on
`exG` with its sorted LDF candidates yields an order that is a
permutation with the connectivity property. -/
theorem c8_order_connected_permutation_witness :
    ∃ π, gql_order exG exQ2 [[2, 4], [1, 3], [1, 3]] = some π ∧
      π.Perm (List.range exQ2.node_count) ∧
      ∀ i, 0 < i → i < π.length →
        ∃ j < i, π.getD j 0 ∈ exQ2.neighborsD (π.getD i 0) :=
  c8_order_connected_permutation exG exQ2 [[2, 4], [1, 3], [1, 3]]
    (by unfold Graph.OffsetsWf; decide) (by unfold Graph.NbrsInRange; decide)
    (by unfold Graph.Symm; decide) (by unfold Graph.CutConnected; decide)
    (by decide) (by decide) (by decide) (by decide) (by decide)

/-- Strictly sorted lists have monotone entries. -/
theorem sorted_getD_lt (xs : List Nat) (hs : xs.Pairwise (· < ·)) (i j : Nat)
    (hij : i < j) (hj : j < xs.length) :
    xs.getD i 0 < xs.getD j 0 := by
  have hi : i < xs.length := by omega
  have := List.pairwise_iff_getElem.mp hs i j hi hj hij
  rw [List.getD_eq_getElem?_getD, List.getElem?_eq_getElem hi,
    List.getD_eq_getElem?_getD, List.getElem?_eq_getElem hj]
  exact this

/-- Rust's binary search is correct on strictly sorted slices: the
halving loop finds `t` iff it occurs in the window. -/
theorem binary_search_go_correct (xs : List Nat) (t : Nat) (hs : xs.Pairwise (· < ·)) :
    ∀ (fuel left right : Nat), right ≤ xs.length → right - left < fuel →
      (binary_search_go xs t fuel left right = true ↔
        ∃ i, left ≤ i ∧ i < right ∧ xs.getD i 0 = t) := by
  intro fuel
  induction fuel with
  | zero =>
    intro left right _ hfuel
    omega
  | succ fuel ih =>
    intro left right hright hfuel
    unfold binary_search_go
    by_cases hlr : left < right
    · rw [if_pos hlr]
      set mid := left + (right - left) / 2 with hmid
      have hmlt : left ≤ mid ∧ mid < right := by omega
      by_cases h1 : xs.getD mid 0 < t
      · rw [if_pos h1]
        rw [ih (mid + 1) right hright (by omega)]
        constructor
        · intro ⟨i, h2, h3, h4⟩
          exact ⟨i, by omega, h3, h4⟩
        · intro ⟨i, h2, h3, h4⟩
          refine ⟨i, ?_, h3, h4⟩
          by_contra hcon
          have hile : i ≤ mid := by omega
          rcases Nat.eq_or_lt_of_le hile with h | h
          · subst h; omega
          · have := sorted_getD_lt xs hs i mid h (by omega)
            omega
      · rw [if_neg h1]
        by_cases h2 : t < xs.getD mid 0
        · rw [if_pos h2]
          rw [ih left mid (by omega) (by omega)]
          constructor
          · intro ⟨i, h3, h4, h5⟩
            exact ⟨i, h3, by omega, h5⟩
          · intro ⟨i, h3, h4, h5⟩
            refine ⟨i, h3, ?_, h5⟩
            by_contra hcon
            rcases Nat.eq_or_lt_of_le (by omega : mid ≤ i) with h | h
            · subst h; omega
            · have := sorted_getD_lt xs hs mid i h (by omega)
              omega
        · rw [if_neg h2]
          constructor
          · intro _
            exact ⟨mid, hmlt.1, hmlt.2, by omega⟩
          · intro _
            rfl
    · rw [if_neg hlr]
      constructor
      · intro h
        cases h
      · intro ⟨i, h2, h3, _⟩
        omega

/-- `Graph.existsD` decides adjacency on strictly sorted rows. -/
theorem existsD_iff_mem (d : Graph) (v t : Nat)
    (hs : (d.neighborsD v).Pairwise (· < ·)) :
    d.existsD v t = true ↔ t ∈ d.neighborsD v := by
  unfold Graph.existsD binary_search
  rw [binary_search_go_correct (d.neighborsD v) t hs _ 0 (d.neighborsD v).length
    (le_refl _) (by omega)]
  constructor
  · intro ⟨i, _, hlt, hval⟩
    rw [List.getD_eq_getElem?_getD, List.getElem?_eq_getElem hlt] at hval
    rw [← hval]
    exact List.getElem_mem hlt
  · intro hmem
    obtain ⟨i, hlt, hval⟩ := List.mem_iff_getElem.mp hmem
    refine ⟨i, by omega, hlt, ?_⟩
    rw [List.getD_eq_getElem?_getD, List.getElem?_eq_getElem hlt]
    exact hval

/-- `upd` reads back the written value at the written index. -/
theorem upd_self {α : Type} (f : Nat → α) (i : Nat) (x : α) : upd f i x i = x := by
  unfold upd
  rw [if_pos rfl]

/-- `upd` leaves every other index unchanged. -/
theorem upd_ne {α : Type} (f : Nat → α) (i j : Nat) (x : α) (h : j ≠ i) :
    upd f i x j = f j := by
  unfold upd
  rw [if_neg h]

/-- Distinct positions of a duplicate-free list hold distinct values. -/
theorem nodup_getD_ne (l : List Nat) (h : l.Nodup) (i j : Nat) (hi : i < l.length)
    (hj : j < l.length) (hij : i ≠ j) : l.getD i 0 ≠ l.getD j 0 := by
  rw [List.getD_eq_getElem?_getD, List.getElem?_eq_getElem hi,
    List.getD_eq_getElem?_getD, List.getElem?_eq_getElem hj]
  simp only [Option.getD_some]
  intro he
  rcases Nat.lt_or_ge i j with hlt | hge
  · exact List.pairwise_iff_getElem.mp h i j hi hj hlt he
  · have hlt : j < i := by omega
    exact List.pairwise_iff_getElem.mp h j i hj hi hlt he.symm

/-- Reading a mapped range at an in-range index. -/
theorem getD_map_range (f : Nat → Nat) (n u : Nat) (hu : u < n) :
    ((List.range n).map f).getD u 0 = f u := by
  rw [List.getD_eq_getElem?_getD, List.getElem?_map, List.getElem?_range hu]
  rfl

/-- Every node id below `n` occurs at some position of a permutation of
`range n`. -/
theorem order_pos_exists (order : List Nat) (n : Nat)
    (h : order.Perm (List.range n)) (u : Nat) (hu : u < n) :
    ∃ p, p < n ∧ order.getD p 0 = u := by
  have hlen : order.length = n := by rw [h.length_eq, List.length_range]
  have hmem : u ∈ order := h.mem_iff.mpr (List.mem_range.mpr hu)
  obtain ⟨i, hi, he⟩ := List.getElem_of_mem hmem
  refine ⟨i, by omega, ?_⟩
  rw [List.getD_eq_getElem?_getD, List.getElem?_eq_getElem hi]
  exact he

/-- Every entry of a permutation of `range n` read in range is below
`n`. -/
theorem order_getD_lt (order : List Nat) (n : Nat)
    (h : order.Perm (List.range n)) (p : Nat) (hp : p < n) :
    order.getD p 0 < n := by
  have hlen : order.length = n := by rw [h.length_eq, List.length_range]
  have hp' : p < order.length := by omega
  have hmem : order.getD p 0 ∈ order := by
    rw [List.getD_eq_getElem?_getD, List.getElem?_eq_getElem hp']
    exact List.getElem_mem hp'
  exact List.mem_range.mp (h.mem_iff.mp hmem)

/-- Invariant of the `visited_neighbors` fold: after `k` iterations the
rows list has `k + 1` entries, the marker function marks exactly the
order entries at positions `≤ k`, and row `p` holds the neighbours of
`order[p]` that occur earlier in the order. -/
theorem vn_go_spec (q : Graph) (order : List Nat) :
    ∀ k, (vn_go q order k).1.length = k + 1 ∧
      (∀ x, (vn_go q order k).2 x = true ↔ ∃ j, j ≤ k ∧ order.getD j 0 = x) ∧
      (∀ p, p ≤ k → (vn_go q order k).1.getD p [] =
        (q.neighborsD (order.getD p 0)).filter
          (fun w => decide (∃ j, j < p ∧ order.getD j 0 = w))) := by
  intro k
  induction k with
  | zero =>
    refine ⟨rfl, ?_, ?_⟩
    · intro x
      show upd (fun _ => false) (order.getD 0 0) true x = true ↔ _
      constructor
      · intro h
        by_cases hx : x = order.getD 0 0
        · exact ⟨0, le_refl 0, hx.symm⟩
        · rw [upd_ne _ _ _ _ hx] at h
          exact absurd h (by simp)
      · intro ⟨j, hj, he⟩
        have hj0 : j = 0 := Nat.le_zero.mp hj
        subst hj0
        rw [← he]
        exact upd_self _ _ _
    · intro p hp
      have hp0 : p = 0 := Nat.le_zero.mp hp
      subst hp0
      show ([] : List Nat) = _
      symm
      rw [List.filter_eq_nil]
      intro a _
      simp
  | succ k ih =>
    obtain ⟨ihlen, ihmark, ihrow⟩ := ih
    have hstep : vn_go q order (k + 1) = vn_step q order (vn_go q order k) (1 + k) := by
      unfold vn_go
      rw [List.range'_1_concat, List.foldl_append, List.foldl_cons, List.foldl_nil]
    rw [hstep]
    unfold vn_step
    refine ⟨?_, ?_, ?_⟩
    · simp [ihlen]
    · intro x
      show upd (vn_go q order k).2 (order.getD (1 + k) 0) true x = true ↔ _
      by_cases hx : x = order.getD (1 + k) 0
      · rw [hx, upd_self]
        refine ⟨fun _ => ⟨k + 1, le_refl _, ?_⟩, fun _ => rfl⟩
        rw [Nat.add_comm 1 k]
      · rw [upd_ne _ _ _ _ hx, ihmark x]
        constructor
        · intro ⟨j, hj, he⟩
          exact ⟨j, by omega, he⟩
        · intro ⟨j, hj, he⟩
          refine ⟨j, ?_, he⟩
          rcases Nat.lt_or_ge j (k + 1) with h | h
          · omega
          · exfalso
            have hj1 : j = k + 1 := by omega
            subst hj1
            rw [Nat.add_comm 1 k] at hx
            exact hx he.symm
    · intro p hp
      rcases Nat.lt_or_ge p (k + 1) with hpk | hpk
      · show ((vn_go q order k).1 ++ [_]).getD p [] = _
        rw [getD_append_lt _ _ _ _ (by rw [ihlen]; omega)]
        exact ihrow p (by omega)
      · have hpe : p = k + 1 := by omega
        subst hpe
        show ((vn_go q order k).1 ++
          [(q.neighborsD (order.getD (1 + k) 0)).filter
            (fun nbr => (vn_go q order k).2 nbr)]).getD (k + 1) [] = _
        have hgd := getD_append_length (vn_go q order k).1
          ((q.neighborsD (order.getD (1 + k) 0)).filter
            (fun nbr => (vn_go q order k).2 nbr)) []
        rw [ihlen] at hgd
        rw [hgd, Nat.add_comm 1 k]
        apply List.filter_congr
        intro a _
        rcases hb : (vn_go q order k).2 a with _ | _
        · symm
          rw [decide_eq_false_iff_not]
          intro ⟨j, hj, he⟩
          have hmk : (vn_go q order k).2 a = true := (ihmark a).mpr ⟨j, by omega, he⟩
          rw [hb] at hmk
          exact Bool.false_ne_true hmk
        · symm
          rw [decide_eq_true_eq]
          obtain ⟨j, hj, he⟩ := (ihmark a).mp hb
          exact ⟨j, by omega, he⟩

/-- Characterisation of a `visited_neighbors` row: the neighbours of the
query node at position `p` of the order that were placed earlier. -/
theorem visited_neighbors_char (q : Graph) (order : List Nat) (p : Nat)
    (hp : p < q.node_count) (w : Nat) :
    w ∈ (visited_neighbors_def q order).getD p [] ↔
      w ∈ q.neighborsD (order.getD p 0) ∧ ∃ j, j < p ∧ order.getD j 0 = w := by
  have h := (vn_go_spec q order (q.node_count - 1)).2.2 p (by omega)
  unfold visited_neighbors_def
  rw [h, List.mem_filter, decide_eq_true_eq]

/-- Membership in the generated candidate list of a depth: a member of
the row that is unvisited and adjacent to the image of every visited
neighbour. -/
theorem mem_generate_valid_candidates (d : Graph) (emb : Nat → Nat)
    (visited : Nat → Bool) (vnbrs crow : List Nat) (v : Nat) :
    v ∈ generate_valid_candidates d emb visited vnbrs crow ↔
      v ∈ crow ∧ visited v = false ∧ ∀ w ∈ vnbrs, d.existsD v (emb w) = true := by
  unfold generate_valid_candidates
  rw [List.mem_filter]
  simp [List.all_eq_true]

/-- Placing candidate `v` at position `depth` preserves the embedding on
the placed prefix and re-establishes the DFS state invariant one depth
further down. -/
theorem dfs_place (d q : Graph) (order : List Nat) (depth v : Nat) (cl : List Nat)
    (vis : Nat → Bool) (emb : Nat → Nat)
    (horder : order.Perm (List.range q.node_count))
    (hdlt : depth < q.node_count)
    (hcore : DfsInvCore d q order depth vis emb)
    (hcl : DfsClOk d q order depth (v :: cl) vis emb) :
    (∀ p, p < depth →
        upd emb (order.getD depth 0) v (order.getD p 0) = emb (order.getD p 0)) ∧
      DfsInvCore d q order (depth + 1) (upd vis v true)
        (upd emb (order.getD depth 0) v) := by
  obtain ⟨hvis_char, hinj, hedge, hbnd⟩ := hcore
  obtain ⟨hvv, hvd, hvadj⟩ := hcl v (List.mem_cons_self v cl)
  have hlen : order.length = q.node_count := by
    rw [horder.length_eq, List.length_range]
  have hnd : order.Nodup := horder.nodup_iff.mpr (List.nodup_range q.node_count)
  have hne_u : ∀ p, p < depth → order.getD p 0 ≠ order.getD depth 0 :=
    fun p hp => nodup_getD_ne order hnd p depth (by omega) (by omega) (by omega)
  have agree : ∀ p, p < depth →
      upd emb (order.getD depth 0) v (order.getD p 0) = emb (order.getD p 0) :=
    fun p hp => upd_ne _ _ _ _ (hne_u p hp)
  have embv : upd emb (order.getD depth 0) v (order.getD depth 0) = v :=
    upd_self _ _ _
  refine ⟨agree, ?_, ?_, ?_, ?_⟩
  · intro x
    constructor
    · intro hx
      by_cases hxv : x = v
      · exact ⟨depth, by omega, by rw [embv, hxv]⟩
      · have hvx : vis x = true := by rwa [upd_ne vis v x true hxv] at hx
        obtain ⟨p, hp, he⟩ := (hvis_char x).mp hvx
        exact ⟨p, by omega, by rw [agree p hp]; exact he⟩
    · intro ⟨p, hp, he⟩
      by_cases hxv : x = v
      · rw [hxv, upd_self]
      · rw [upd_ne vis v x true hxv]
        rcases Nat.lt_or_ge p depth with hpd | hpd
        · rw [agree p hpd] at he
          exact (hvis_char x).mpr ⟨p, hpd, he⟩
        · exfalso
          have hpd' : p = depth := by omega
          subst hpd'
          rw [embv] at he
          exact hxv he.symm
  · intro p1 p2 hp1 hp2 hne
    rcases Nat.lt_or_ge p1 depth with h1 | h1 <;> rcases Nat.lt_or_ge p2 depth with h2 | h2
    · rw [agree p1 h1, agree p2 h2]
      exact hinj p1 p2 h1 h2 hne
    · have h2' : p2 = depth := by omega
      subst h2'
      rw [agree p1 h1, embv]
      intro he
      have hvt : vis v = true := (hvis_char v).mpr ⟨p1, h1, he⟩
      rw [hvv] at hvt
      exact Bool.false_ne_true hvt
    · have h1' : p1 = depth := by omega
      subst h1'
      rw [agree p2 h2, embv]
      intro he
      have hvt : vis v = true := (hvis_char v).mpr ⟨p2, h2, he.symm⟩
      rw [hvv] at hvt
      exact Bool.false_ne_true hvt
    · exact absurd (by omega : p1 = p2) hne
  · intro p hp w hw
    have hpn : p < q.node_count := by omega
    obtain ⟨hwnbr, j, hj, hje⟩ := (visited_neighbors_char q order p hpn w).mp hw
    have hwemb : upd emb (order.getD depth 0) v w = emb w := by
      rw [← hje]
      exact agree j (by omega)
    rcases Nat.lt_or_ge p depth with hpd | hpd
    · rw [hwemb, agree p hpd]
      exact hedge p hpd w hw
    · have hpd' : p = depth := by omega
      subst hpd'
      rw [hwemb, embv]
      exact hvadj w hw
  · intro p hp
    rcases Nat.lt_or_ge p depth with hpd | hpd
    · rw [agree p hpd]
      exact hbnd p hpd
    · have hpd' : p = depth := by omega
      subst hpd'
      rw [embv]
      exact hvd

/-- The DFS state invariant only depends on the `visited` buffer
pointwise and on the embedding at the placed positions. -/
theorem DfsInvCore_transfer (d q : Graph) (order : List Nat) (depth : Nat)
    (vis vis' : Nat → Bool) (emb emb' : Nat → Nat)
    (hdepth : depth ≤ q.node_count)
    (hv : ∀ x, vis' x = vis x)
    (he : ∀ p, p < depth → emb' (order.getD p 0) = emb (order.getD p 0))
    (hc : DfsInvCore d q order depth vis emb) :
    DfsInvCore d q order depth vis' emb' := by
  obtain ⟨h1, h2, h3, h4⟩ := hc
  refine ⟨?_, ?_, ?_, ?_⟩
  · intro x
    rw [hv x, h1 x]
    constructor
    · intro ⟨p, hp, hpe⟩
      exact ⟨p, hp, by rw [he p hp]; exact hpe⟩
    · intro ⟨p, hp, hpe⟩
      exact ⟨p, hp, by rw [← he p hp]; exact hpe⟩
  · intro p1 p2 hp1 hp2 hne
    rw [he p1 hp1, he p2 hp2]
    exact h2 p1 p2 hp1 hp2 hne
  · intro p hp w hw
    have hpn : p < q.node_count := by omega
    obtain ⟨_, j, hj, hje⟩ := (visited_neighbors_char q order p hpn w).mp hw
    have hwe : emb' w = emb w := by
      rw [← hje]
      exact he j (by omega)
    rw [hwe, he p hp]
    exact h3 p hp w hw
  · intro p hp
    rw [he p hp]
    exact h4 p hp

/-- The candidate-list invariant only depends on the `visited` buffer
pointwise and on the embedding at the placed positions. -/
theorem DfsClOk_transfer (d q : Graph) (order : List Nat) (depth : Nat) (cl : List Nat)
    (vis vis' : Nat → Bool) (emb emb' : Nat → Nat)
    (hdepth : depth < q.node_count)
    (hv : ∀ x, vis' x = vis x)
    (he : ∀ p, p < depth → emb' (order.getD p 0) = emb (order.getD p 0))
    (hc : DfsClOk d q order depth cl vis emb) :
    DfsClOk d q order depth cl vis' emb' := by
  unfold DfsClOk at hc ⊢
  intro v hvmem
  obtain ⟨h1, h2, h3⟩ := hc v hvmem
  refine ⟨by rw [hv v]; exact h1, h2, ?_⟩
  intro w hw
  obtain ⟨_, j, hj, hje⟩ := (visited_neighbors_char q order depth hdepth w).mp hw
  have hwe : emb' w = emb w := by
    rw [← hje]
    exact he j hj
  rw [hwe]
  exact h3 w hw

/-- The candidate list generated for the next depth satisfies the
candidate-list invariant there. -/
theorem dfs_nrow_ok (d q : Graph) (cands : Candidates) (order : List Nat) (depth : Nat)
    (vis1 : Nat → Bool) (emb1 : Nat → Nat)
    (hdsorted : ∀ v < d.node_count, (d.neighborsD v).Pairwise (· < ·))
    (hrow : ∀ v ∈ cands.getD (order.getD (depth + 1) 0) [], v < d.node_count) :
    DfsClOk d q order (depth + 1)
      (generate_valid_candidates d emb1 vis1
        ((visited_neighbors_def q order).getD (depth + 1) [])
        (cands.getD (order.getD (depth + 1) 0) []))
      vis1 emb1 := by
  unfold DfsClOk
  intro v hv
  rw [mem_generate_valid_candidates] at hv
  obtain ⟨hcrow, hvis, hadj⟩ := hv
  have hvd : v < d.node_count := hrow v hcrow
  exact ⟨hvis, hvd, fun w hw =>
    (existsD_iff_mem d v (emb1 w) (hdsorted v hvd)).mp (hadj w hw)⟩

/-- An embedding placed at every position of the order with the full DFS
invariants is sound: injectivity comes from the invariant directly, and
every query edge was checked at the later endpoint (in one direction via
the visited-neighbour rows, in the other via the symmetry of both
graphs). -/
theorem leaf_emission_sound (d q : Graph) (order : List Nat) (emb1 : Nat → Nat)
    (hdsym : d.Symm) (hqnbr : q.NbrsInRange) (hqsym : q.Symm)
    (hqirr : ∀ u < q.node_count, u ∉ q.neighborsD u)
    (horder : order.Perm (List.range q.node_count))
    (hinj : ∀ p1 p2, p1 < q.node_count → p2 < q.node_count → p1 ≠ p2 →
      emb1 (order.getD p1 0) ≠ emb1 (order.getD p2 0))
    (hedge : ∀ p, p < q.node_count → ∀ w ∈ (visited_neighbors_def q order).getD p [],
      emb1 w ∈ d.neighborsD (emb1 (order.getD p 0)))
    (hbnd : ∀ p, p < q.node_count → emb1 (order.getD p 0) < d.node_count) :
    SoundEmb d q ((List.range q.node_count).map emb1) := by
  unfold SoundEmb
  refine ⟨by simp, ?_, ?_⟩
  · intro u1 hu1 u2 hu2 hne
    obtain ⟨p1, hp1, he1⟩ := order_pos_exists order q.node_count horder u1 hu1
    obtain ⟨p2, hp2, he2⟩ := order_pos_exists order q.node_count horder u2 hu2
    rw [getD_map_range emb1 _ u1 hu1, getD_map_range emb1 _ u2 hu2, ← he1, ← he2]
    exact hinj p1 p2 hp1 hp2 (fun hpe => hne (by rw [← he1, ← he2, hpe]))
  · intro u hu w hw
    have hwlt : w < q.node_count := hqnbr u hu w hw
    have hne : u ≠ w := by
      intro h
      subst h
      exact hqirr u hu hw
    obtain ⟨pu, hpu, heu⟩ := order_pos_exists order q.node_count horder u hu
    obtain ⟨pw, hpw, hew⟩ := order_pos_exists order q.node_count horder w hwlt
    rw [getD_map_range emb1 _ w hwlt, getD_map_range emb1 _ u hu]
    rcases Nat.lt_or_ge pw pu with hlt | hge
    · have hmem : w ∈ (visited_neighbors_def q order).getD pu [] :=
        (visited_neighbors_char q order pu hpu w).mpr
          ⟨by rw [heu]; exact hw, pw, hlt, hew⟩
      have h1 := hedge pu hpu w hmem
      rwa [heu] at h1
    · have hpne : pu ≠ pw := by
        intro h
        subst h
        exact hne (by rw [← heu, ← hew])
      have hlt : pu < pw := by omega
      have humem : u ∈ (visited_neighbors_def q order).getD pw [] :=
        (visited_neighbors_char q order pw hpw u).mpr
          ⟨by rw [hew]; exact (hqsym u hu w hwlt).mpr hw, pu, hlt, heu⟩
      have h1 := hedge pw hpw u humem
      rw [hew] at h1
      have hu_bnd : emb1 u < d.node_count := by
        have hb := hbnd pu hpu
        rwa [heu] at hb
      have hw_bnd : emb1 w < d.node_count := by
        have hb := hbnd pw hpw
        rwa [hew] at hb
      exact (hdsym (emb1 w) hw_bnd (emb1 u) hu_bnd).mpr h1

/-- Soundness of the backtracking DFS: from a state satisfying the
invariants, every call restores `visited`, preserves the embedding on
the placed prefix, and emits only sound embeddings. -/
theorem gql_dfs_sound (d q : Graph) (cands : Candidates) (order : List Nat)
    (hdsorted : ∀ v < d.node_count, (d.neighborsD v).Pairwise (· < ·))
    (hdsym : d.Symm) (hqnbr : q.NbrsInRange) (hqsym : q.Symm)
    (hqirr : ∀ u < q.node_count, u ∉ q.neighborsD u)
    (horder : order.Perm (List.range q.node_count))
    (hcands : ∀ u < q.node_count, ∀ v ∈ cands.getD u [], v < d.node_count) :
    ∀ rem depth cl (vis : Nat → Bool) (emb : Nat → Nat),
      depth + rem + 1 = q.node_count →
      DfsInvCore d q order depth vis emb →
      DfsClOk d q order depth cl vis emb →
      DfsOk d q order depth vis emb
        (gql_dfs d q.node_count cands order (visited_neighbors_def q order)
          rem depth cl vis emb) := by
  intro rem
  induction rem with
  | zero =>
    intro depth cl
    induction cl with
    | nil =>
      intro vis emb hdep hcore hcl
      exact ⟨fun x => rfl, fun p hp => rfl, fun e he => absurd he (List.not_mem_nil e)⟩
    | cons v rest ih =>
      intro vis emb hdep hcore hcl
      have hdlt : depth < q.node_count := by omega
      obtain ⟨agree, hcore'⟩ := dfs_place d q order depth v rest vis emb horder hdlt
        hcore hcl
      have hvinfo := hcl v (List.mem_cons_self v rest)
      have hvis1 : ∀ x, upd (upd vis v true) v false x = vis x := by
        intro x
        by_cases hx : x = v
        · rw [hx, upd_self, hvinfo.1]
        · rw [upd_ne _ _ _ _ hx, upd_ne _ _ _ _ hx]
      have hcoreR : DfsInvCore d q order depth (upd (upd vis v true) v false)
          (upd emb (order.getD depth 0) v) :=
        DfsInvCore_transfer d q order depth vis _ emb _ (by omega) hvis1 agree hcore
      have hclR : DfsClOk d q order depth rest (upd (upd vis v true) v false)
          (upd emb (order.getD depth 0) v) :=
        DfsClOk_transfer d q order depth rest vis _ emb _ hdlt hvis1 agree
          (fun v' hv' => hcl v' (List.mem_cons_of_mem v hv'))
      have ihR : DfsOk d q order depth (upd (upd vis v true) v false)
          (upd emb (order.getD depth 0) v)
          (dfs_leaf q.node_count order depth rest (upd (upd vis v true) v false)
            (upd emb (order.getD depth 0) v)) :=
        ih (upd (upd vis v true) v false) (upd emb (order.getD depth 0) v)
          hdep hcoreR hclR
      show DfsOk d q order depth vis emb
        (dfs_leaf q.node_count order depth (v :: rest) vis emb)
      refine ⟨?_, ?_, ?_⟩
      · intro x
        exact (ihR.1 x).trans (hvis1 x)
      · intro p hp
        exact (ihR.2.1 p hp).trans (agree p hp)
      · intro e he
        rcases List.mem_cons.mp he with hel | hmem
        · subst hel
          have hn : depth + 1 = q.node_count := by omega
          rw [hn] at hcore'
          obtain ⟨_, hinj, hedge, hbnd⟩ := hcore'
          exact leaf_emission_sound d q order (upd emb (order.getD depth 0) v)
            hdsym hqnbr hqsym hqirr horder hinj hedge hbnd
        · exact ihR.2.2 e hmem
  | succ k ihk =>
    intro depth cl
    induction cl with
    | nil =>
      intro vis emb hdep hcore hcl
      exact ⟨fun x => rfl, fun p hp => rfl, fun e he => absurd he (List.not_mem_nil e)⟩
    | cons v rest ih =>
      intro vis emb hdep hcore hcl
      have hdlt : depth < q.node_count := by omega
      have hd1lt : depth + 1 < q.node_count := by omega
      obtain ⟨agree, hcore'⟩ := dfs_place d q order depth v rest vis emb horder hdlt
        hcore hcl
      have hvinfo := hcl v (List.mem_cons_self v rest)
      have huo : order.getD (depth + 1) 0 < q.node_count :=
        order_getD_lt order q.node_count horder (depth + 1) hd1lt
      have hclD : DfsClOk d q order (depth + 1)
          (generate_valid_candidates d (upd emb (order.getD depth 0) v) (upd vis v true)
            ((visited_neighbors_def q order).getD (depth + 1) [])
            (cands.getD (order.getD (depth + 1) 0) []))
          (upd vis v true) (upd emb (order.getD depth 0) v) :=
        dfs_nrow_ok d q cands order depth (upd vis v true)
          (upd emb (order.getD depth 0) v) hdsorted (hcands _ huo)
      have pdownOk : DfsOk d q order (depth + 1) (upd vis v true)
          (upd emb (order.getD depth 0) v)
          (gql_dfs d q.node_count cands order (visited_neighbors_def q order) k
            (depth + 1)
            (generate_valid_candidates d (upd emb (order.getD depth 0) v)
              (upd vis v true)
              ((visited_neighbors_def q order).getD (depth + 1) [])
              (cands.getD (order.getD (depth + 1) 0) []))
            (upd vis v true) (upd emb (order.getD depth 0) v)) :=
        ihk (depth + 1)
          (generate_valid_candidates d (upd emb (order.getD depth 0) v) (upd vis v true)
            ((visited_neighbors_def q order).getD (depth + 1) [])
            (cands.getD (order.getD (depth + 1) 0) []))
          (upd vis v true) (upd emb (order.getD depth 0) v)
          (by omega) hcore' hclD
      set pdown := gql_dfs d q.node_count cands order (visited_neighbors_def q order) k
        (depth + 1)
        (generate_valid_candidates d (upd emb (order.getD depth 0) v) (upd vis v true)
          ((visited_neighbors_def q order).getD (depth + 1) [])
          (cands.getD (order.getD (depth + 1) 0) []))
        (upd vis v true) (upd emb (order.getD depth 0) v) with hpdown
      have embv : upd emb (order.getD depth 0) v (order.getD depth 0) = v :=
        upd_self _ _ _
      have hpd_at_u : pdown.2.1 (order.getD depth 0) = v := by
        have hh := pdownOk.2.1 depth (by omega)
        rw [embv] at hh
        exact hh
      have hvisB : ∀ x, upd pdown.1 (pdown.2.1 (order.getD depth 0)) false x = vis x := by
        intro x
        rw [hpd_at_u]
        by_cases hx : x = v
        · rw [hx, upd_self, hvinfo.1]
        · rw [upd_ne _ _ _ _ hx, pdownOk.1 x, upd_ne _ _ _ _ hx]
      have agree' : ∀ p, p < depth →
          pdown.2.1 (order.getD p 0) = emb (order.getD p 0) := by
        intro p hp
        exact (pdownOk.2.1 p (by omega)).trans (agree p hp)
      have hcoreR : DfsInvCore d q order depth
          (upd pdown.1 (pdown.2.1 (order.getD depth 0)) false) pdown.2.1 :=
        DfsInvCore_transfer d q order depth vis _ emb _ (by omega) hvisB agree' hcore
      have hclR : DfsClOk d q order depth rest
          (upd pdown.1 (pdown.2.1 (order.getD depth 0)) false) pdown.2.1 :=
        DfsClOk_transfer d q order depth rest vis _ emb _ hdlt hvisB agree'
          (fun v' hv' => hcl v' (List.mem_cons_of_mem v hv'))
      have ihR : DfsOk d q order depth
          (upd pdown.1 (pdown.2.1 (order.getD depth 0)) false) pdown.2.1
          (gql_dfs d q.node_count cands order (visited_neighbors_def q order) (k + 1)
            depth rest (upd pdown.1 (pdown.2.1 (order.getD depth 0)) false)
            pdown.2.1) :=
        ih (upd pdown.1 (pdown.2.1 (order.getD depth 0)) false) pdown.2.1
          hdep hcoreR hclR
      show DfsOk d q order depth vis emb
        ((gql_dfs d q.node_count cands order (visited_neighbors_def q order) (k + 1)
            depth rest (upd pdown.1 (pdown.2.1 (order.getD depth 0)) false)
            pdown.2.1).1,
         (gql_dfs d q.node_count cands order (visited_neighbors_def q order) (k + 1)
            depth rest (upd pdown.1 (pdown.2.1 (order.getD depth 0)) false)
            pdown.2.1).2.1,
         pdown.2.2 ++
           (gql_dfs d q.node_count cands order (visited_neighbors_def q order) (k + 1)
              depth rest (upd pdown.1 (pdown.2.1 (order.getD depth 0)) false)
              pdown.2.1).2.2)
      refine ⟨?_, ?_, ?_⟩
      · intro x
        exact (ihR.1 x).trans (hvisB x)
      · intro p hp
        exact (ihR.2.1 p hp).trans (agree' p hp)
      · intro e he
        rcases List.mem_append.mp he with hel | hmem
        · exact pdownOk.2.2 e hel
        · exact ihR.2.2 e hmem

/-- **C4** (counterexample to the claim as stated).  The claim
quantifies over *every* query graph while constraining only the data
graph; for the one-node query with a self-loop (`qLoop`) on the one-node
edgeless data graph (`dLoop`) — sorted and symmetric adjacency, one
candidate row per query node, order a permutation of `V(Q)` — the
enumeration emits `[0]`, which does not preserve the self-loop edge:
`generate_valid_candidates` only checks edges to *previously placed*
neighbours, so a self-loop is never checked. -/
theorem c4_self_loop_embedding_not_sound :
    (∀ v < dLoop.node_count, (dLoop.neighborsD v).Pairwise (· < ·)) ∧
      dLoop.Symm ∧
      ([[0]] : Candidates).length = qLoop.node_count ∧
      ([0] : List Nat).Perm (List.range qLoop.node_count) ∧
      gql_with dLoop qLoop [[0]] [0] = some (1, [[0]]) ∧
      ¬ SoundEmb dLoop qLoop [0] := by
  refine ⟨?_, ?_, ?_, ?_, ?_, ?_⟩
  · decide
  · unfold Graph.Symm
    decide
  · decide
  · decide
  · decide
  · unfold SoundEmb
    decide

/-- **C4** (amended: the query graph, too, must be a simple undirected
graph — in-range, symmetric, loop-free adjacency).  Whenever `gql_with`
returns, the reported count equals the number of emitted embeddings and
every emitted embedding is sound: injective on the query nodes and
preserving every query edge. -/
theorem c4_gql_enumeration_sound (d q : Graph) (cands : Candidates) (order : List Nat)
    (cnt : Nat) (embs : List (List Nat))
    (hdsorted : ∀ v < d.node_count, (d.neighborsD v).Pairwise (· < ·))
    (hdsym : d.Symm) (hqnbr : q.NbrsInRange) (hqsym : q.Symm)
    (hqirr : ∀ u < q.node_count, u ∉ q.neighborsD u)
    (horder : order.Perm (List.range q.node_count))
    (hcands : ∀ u < q.node_count, ∀ v ∈ cands.getD u [], v < d.node_count)
    (hrun : gql_with d q cands order = some (cnt, embs)) :
    cnt = embs.length ∧ ∀ e ∈ embs, SoundEmb d q e := by
  unfold gql_with at hrun
  cases h0 : order.get? 0 with
  | none =>
    rw [h0] at hrun
    simp at hrun
  | some start =>
    rw [h0] at hrun
    simp only [Option.bind_eq_bind, Option.some_bind] at hrun
    by_cases hn : q.node_count = 0
    · rw [if_pos hn] at hrun
      simp at hrun
    · rw [if_neg hn] at hrun
      cases h1 : cands.get? start with
      | none =>
        rw [h1] at hrun
        simp at hrun
      | some cl0 =>
        rw [h1] at hrun
        simp only [Option.some_bind, Option.some.injEq, Prod.mk.injEq] at hrun
        have hgd0 : order.getD 0 0 = start := by
          rw [List.getD_eq_getElem?_getD, ← List.get?_eq_getElem?, h0]
          rfl
        have hstart_lt : start < q.node_count := by
          have hh := order_getD_lt order q.node_count horder 0 (by omega)
          rwa [hgd0] at hh
        have hcl0 : cands.getD start [] = cl0 := by
          rw [List.getD_eq_getElem?_getD, ← List.get?_eq_getElem?, h1]
          rfl
        have hcore0 : DfsInvCore d q order 0 (fun _ => false) (fun _ => 0) := by
          unfold DfsInvCore
          refine ⟨?_, ?_, ?_, ?_⟩
          · intro x
            constructor
            · intro h
              exact absurd h (by simp)
            · intro ⟨p, hp, _⟩
              omega
          · intro p1 p2 h1' h2' _
            omega
          · intro p hp
            omega
          · intro p hp
            omega
        have hclok0 : DfsClOk d q order 0 cl0 (fun _ => false) (fun _ => 0) := by
          unfold DfsClOk
          intro v hv
          refine ⟨rfl, ?_, ?_⟩
          · rw [← hcl0] at hv
            exact hcands start hstart_lt v hv
          · intro w hw
            obtain ⟨_, j, hj, _⟩ :=
              (visited_neighbors_char q order 0 (by omega) w).mp hw
            omega
        have hmain := gql_dfs_sound d q cands order hdsorted hdsym hqnbr hqsym hqirr
          horder hcands (q.node_count - 1) 0 cl0 (fun _ => false) (fun _ => 0)
          (by omega) hcore0 hclok0
        obtain ⟨hcnt, hembs⟩ := hrun
        exact ⟨rfl, hmain.2.2⟩

/-- **C4** witness: on the running example (`exG`, line query `exQ2`,
GQL candidates, order `[1, 0, 2]`) the two emitted embeddings are
sound. -/
theorem c4_gql_enumeration_sound_witness :
    2 = ([[2, 1, 3], [4, 3, 1]] : List (List Nat)).length ∧
      ∀ e ∈ ([[2, 1, 3], [4, 3, 1]] : List (List Nat)), SoundEmb exG exQ2 e :=
  c4_gql_enumeration_sound exG exQ2 [[2, 4], [1, 3], [1, 3]] [1, 0, 2] 2
    [[2, 1, 3], [4, 3, 1]] (by decide) (by unfold Graph.Symm; decide)
    (by unfold Graph.NbrsInRange; decide) (by unfold Graph.Symm; decide) (by decide)
    (by decide) (by decide) (by decide)

/-- `augment_loop` is the identity once the walk reaches `NOT_FOUND`. -/
theorem augment_loop_nf (fuel : Nat) (st : MState) :
    augment_loop fuel NOT_FOUND st = st := by
  cases fuel with
  | zero => rfl
  | succ f => simp [augment_loop]

/-- Correctness of the augmenting-path walk-back: flipping along a
predecessor chain that strictly descends the BFS queue restores a
coherent matching, matches the root, and keeps every previously matched
left vertex matched.  `lm0` is the frozen left mapping of the BFS and
`pr` its predecessor buffer. -/
theorem augment_ok (rows : List (List Nat)) (queue : List Nat) (lm0 pr : Nat → Nat)
    (hq_ne : ∀ i, i < queue.length → queue.getD i 0 ≠ NOT_FOUND)
    (hq_nd : queue.Nodup)
    (h_root : lm0 (queue.getD 0 0) = NOT_FOUND)
    (h_chain : ∀ i, 1 ≤ i → i < queue.length →
      lm0 (queue.getD i 0) ≠ NOT_FOUND ∧
      ∃ j, j < i ∧ pr (lm0 (queue.getD i 0)) = queue.getD j 0 ∧
        lm0 (queue.getD i 0) ∈ rows.getD (queue.getD j 0) []) :
    ∀ bound : Nat, ∀ st target fuel,
      st.pred = pr →
      (∀ i, i ≤ bound → i < queue.length → st.lm (queue.getD i 0) = lm0 (queue.getD i 0)) →
      st.lm NOT_FOUND = NOT_FOUND →
      st.rm NOT_FOUND = NOT_FOUND →
      (∀ l, st.lm l ≠ NOT_FOUND → st.lm l ∈ rows.getD l [] ∧ st.rm (st.lm l) = l) →
      (∀ r, r ≠ target → st.rm r ≠ NOT_FOUND → st.lm (st.rm r) = r) →
      (st.rm target = NOT_FOUND ∨ st.lm (st.rm target) ≠ target) →
      target ≠ NOT_FOUND →
      bound < queue.length →
      pr target = queue.getD bound 0 →
      target ∈ rows.getD (queue.getD bound 0) [] →
      bound + 1 ≤ fuel →
      MCoh rows (augment_loop fuel target st) ∧
      (augment_loop fuel target st).lm (queue.getD 0 0) ≠ NOT_FOUND ∧
      (∀ l, st.lm l ≠ NOT_FOUND → (augment_loop fuel target st).lm l ≠ NOT_FOUND) ∧
      (augment_loop fuel target st).vis = st.vis ∧
      (augment_loop fuel target st).pred = st.pred ∧
      (augment_loop fuel target st).augId = st.augId ∧
      (∀ r, (augment_loop fuel target st).rm r ≠ st.rm r →
        r = target ∨ ∃ i, 1 ≤ i ∧ i ≤ bound ∧ r = lm0 (queue.getD i 0)) ∧
      (∀ r, (augment_loop fuel target st).rm r ≠ st.rm r →
        ∃ i, i ≤ bound ∧ (augment_loop fuel target st).rm r = queue.getD i 0) ∧
      (∀ l, (augment_loop fuel target st).lm l ≠ st.lm l →
        ∃ i, i ≤ bound ∧ l = queue.getD i 0) := by
  intro bound
  induction bound using Nat.strong_induction_on with
  | _ bound IH =>
    intro st target fuel hpred hagree hlmnf hrmnf hcl2 hcl3 hdangle htne hblt hprt hedge hfuel
    obtain ⟨f, rfl⟩ : ∃ f, fuel = f + 1 := ⟨fuel - 1, by omega⟩
    have hnotim : ∀ l, st.lm l ≠ target := by
      intro l hlm_eq
      have h2 := hcl2 l (by rw [hlm_eq]; exact htne)
      rw [hlm_eq] at h2
      rcases hdangle with hnf | hne
      · rw [h2.2] at hnf
        subst hnf
        rw [hlmnf] at hlm_eq
        exact htne hlm_eq.symm
      · rw [h2.2, hlm_eq] at hne
        exact hne rfl
    have hcol : st.pred target = queue.getD bound 0 := by rw [hpred]; exact hprt
    simp only [augment_loop, if_neg htne, hcol]
    have hbq := hq_ne bound hblt
    have htemp : st.lm (queue.getD bound 0) = lm0 (queue.getD bound 0) :=
      hagree bound (le_refl _) hblt
    rcases Nat.eq_zero_or_pos bound with hb0 | hbpos
    · subst hb0
      rw [htemp, h_root, augment_loop_nf]
      unfold MCoh
      dsimp only
      refine ⟨⟨?_, ?_, ?_, ?_⟩, ?_, ?_, rfl, rfl, rfl, ?_, ?_, ?_⟩
      · rw [upd_ne _ _ _ _ (fun h => hbq h.symm)]
        exact hlmnf
      · rw [upd_ne _ _ _ _ (fun h => htne h.symm)]
        exact hrmnf
      · intro l hl
        by_cases hlq : l = queue.getD 0 0
        · subst hlq
          rw [upd_self, upd_self]
          exact ⟨hedge, rfl⟩
        · rw [upd_ne _ _ _ _ hlq] at hl ⊢
          obtain ⟨he, hr⟩ := hcl2 l hl
          rw [upd_ne _ _ _ _ (hnotim l)]
          exact ⟨he, hr⟩
      · intro r hr
        by_cases hrt : r = target
        · subst hrt
          rw [upd_self, upd_self]
        · rw [upd_ne _ _ _ _ hrt] at hr ⊢
          have hlr := hcl3 r hrt hr
          have hrq : st.rm r ≠ queue.getD 0 0 := by
            intro hq
            rw [hq, htemp, h_root] at hlr
            rw [← hlr] at hr
            exact hr hrmnf
          rw [upd_ne _ _ _ _ hrq]
          exact hlr
      · rw [upd_self]
        exact htne
      · intro l hl
        by_cases hlq : l = queue.getD 0 0
        · subst hlq
          rw [upd_self]
          exact htne
        · rw [upd_ne _ _ _ _ hlq]
          exact hl
      · intro r hr
        by_cases hrt : r = target
        · exact Or.inl hrt
        · rw [upd_ne _ _ _ _ hrt] at hr
          exact absurd rfl hr
      · intro r hr
        by_cases hrt : r = target
        · subst hrt
          rw [upd_self]
          exact ⟨0, le_refl _, rfl⟩
        · rw [upd_ne _ _ _ _ hrt] at hr
          exact absurd rfl hr
      · intro l hl
        by_cases hlq : l = queue.getD 0 0
        · exact ⟨0, le_refl _, hlq⟩
        · rw [upd_ne _ _ _ _ hlq] at hl
          exact absurd rfl hl
    · obtain ⟨htne', j, hj, hpj, hej⟩ := h_chain bound hbpos hblt
      rw [htemp]
      have hIH := IH j hj
        { st with lm := upd st.lm (queue.getD bound 0) target,
                  rm := upd st.rm target (queue.getD bound 0) }
        (lm0 (queue.getD bound 0)) f
        hpred
        (by
          intro i hi hilen
          dsimp only
          have hne : queue.getD i 0 ≠ queue.getD bound 0 :=
            nodup_getD_ne queue hq_nd i bound hilen hblt (by omega)
          rw [upd_ne _ _ _ _ hne]
          exact hagree i (by omega) hilen)
        (by
          dsimp only
          rw [upd_ne _ _ _ _ (fun h => hbq h.symm)]
          exact hlmnf)
        (by
          dsimp only
          rw [upd_ne _ _ _ _ (fun h => htne h.symm)]
          exact hrmnf)
        (by
          intro l hl
          dsimp only at hl ⊢
          by_cases hlq : l = queue.getD bound 0
          · subst hlq
            rw [upd_self, upd_self]
            exact ⟨hedge, rfl⟩
          · rw [upd_ne _ _ _ _ hlq] at hl ⊢
            obtain ⟨he, hr⟩ := hcl2 l hl
            rw [upd_ne _ _ _ _ (hnotim l)]
            exact ⟨he, hr⟩)
        (by
          intro r hrtemp hr
          dsimp only at hr ⊢
          by_cases hrt : r = target
          · subst hrt
            rw [upd_self, upd_self]
          · rw [upd_ne _ _ _ _ hrt] at hr ⊢
            have hlr := hcl3 r hrt hr
            have hrq : st.rm r ≠ queue.getD bound 0 := by
              intro hq
              rw [hq, htemp] at hlr
              exact hrtemp hlr.symm
            rw [upd_ne _ _ _ _ hrq]
            exact hlr)
        (by
          right
          dsimp only
          have hrmtemp : st.rm (lm0 (queue.getD bound 0)) = queue.getD bound 0 := by
            have h2 := hcl2 (queue.getD bound 0) (by rw [htemp]; exact htne')
            rw [htemp] at h2
            exact h2.2
          have hlt : lm0 (queue.getD bound 0) ≠ target := by
            rw [← htemp]
            exact hnotim _
          rw [upd_ne _ _ _ _ hlt, hrmtemp, upd_self]
          rw [← htemp]
          exact fun h => (hnotim _) h.symm)
        htne'
        (by omega)
        hpj
        hej
        (by omega)
      obtain ⟨hm, hroot, hpres, hvis, hpd, hai, hc7, hc8, hc9⟩ := hIH
      refine ⟨hm, hroot, ?_, hvis, hpd, hai, ?_, ?_, ?_⟩
      · intro l hl
        apply hpres
        dsimp only
        by_cases hlq : l = queue.getD bound 0
        · subst hlq
          rw [upd_self]
          exact htne
        · rw [upd_ne _ _ _ _ hlq]
          exact hl
      · intro r hr
        by_cases hfe : (augment_loop f (lm0 (queue.getD bound 0))
            { st with lm := upd st.lm (queue.getD bound 0) target,
                      rm := upd st.rm target (queue.getD bound 0) }).rm r =
            upd st.rm target (queue.getD bound 0) r
        · rw [hfe] at hr
          by_cases hrt : r = target
          · exact Or.inl hrt
          · rw [upd_ne _ _ _ _ hrt] at hr
            exact absurd rfl hr
        · rcases hc7 r hfe with heq | ⟨i, h1, h2, h3⟩
          · exact Or.inr ⟨bound, hbpos, le_refl _, heq⟩
          · exact Or.inr ⟨i, h1, by omega, h3⟩
      · intro r hr
        by_cases hfe : (augment_loop f (lm0 (queue.getD bound 0))
            { st with lm := upd st.lm (queue.getD bound 0) target,
                      rm := upd st.rm target (queue.getD bound 0) }).rm r =
            upd st.rm target (queue.getD bound 0) r
        · rw [hfe] at hr ⊢
          by_cases hrt : r = target
          · subst hrt
            rw [upd_self]
            exact ⟨bound, le_refl _, rfl⟩
          · rw [upd_ne _ _ _ _ hrt] at hr
            exact absurd rfl hr
        · obtain ⟨i, h1, h2⟩ := hc8 r hfe
          exact ⟨i, by omega, h2⟩
      · intro l hl
        by_cases hfe : (augment_loop f (lm0 (queue.getD bound 0))
            { st with lm := upd st.lm (queue.getD bound 0) target,
                      rm := upd st.rm target (queue.getD bound 0) }).lm l =
            upd st.lm (queue.getD bound 0) target l
        · rw [hfe] at hl
          by_cases hlq : l = queue.getD bound 0
          · exact ⟨bound, le_refl _, hlq⟩
          · rw [upd_ne _ _ _ _ hlq] at hl
            exact absurd rfl hl
        · obtain ⟨i, h1, h2⟩ := hc9 l hfe
          exact ⟨i, by omega, h2⟩

/-- Scanning the bigraph row of a dequeued left vertex preserves
matching coherence; if no augmenting path is found the mappings are
untouched and the queue invariant holds for the grown queue, and if one
is found the root becomes matched and no left vertex loses its
partner. -/
theorem scan_row_ok (rows : List (List Nat))
    (hrows : ∀ l, ∀ r ∈ rows.getD l [], r ≠ NOT_FOUND) (next : Nat) :
    ∀ (row : List Nat) (st : MState) (queue : List Nat) (i0 : Nat),
      MCoh rows st →
      BInv rows st queue →
      i0 < queue.length →
      queue.getD i0 0 = next →
      (∀ t ∈ row, t ∈ rows.getD next []) →
      MCoh rows (scan_row next row st queue).1 ∧
      ((scan_row next row st queue).2.2 = true →
        (scan_row next row st queue).1.lm (queue.getD 0 0) ≠ NOT_FOUND ∧
        (∀ l, st.lm l ≠ NOT_FOUND → (scan_row next row st queue).1.lm l ≠ NOT_FOUND)) ∧
      ((scan_row next row st queue).2.2 = false →
        (scan_row next row st queue).1.lm = st.lm ∧
        (scan_row next row st queue).1.rm = st.rm ∧
        (scan_row next row st queue).1.augId = st.augId ∧
        BInv rows (scan_row next row st queue).1 (scan_row next row st queue).2.1 ∧
        queue.length ≤ (scan_row next row st queue).2.1.length ∧
        (∀ i, i < queue.length →
          (scan_row next row st queue).2.1.getD i 0 = queue.getD i 0)) := by
  intro row
  induction row with
  | nil =>
    intro st queue i0 hmc hbinv hi0 hqi0 hsub
    refine ⟨hmc, ?_, ?_⟩
    · intro h
      exact absurd h (by simp [scan_row])
    · intro _
      exact ⟨rfl, rfl, rfl, hbinv, le_refl _, fun i hi => rfl⟩
  | cons target rest ihr =>
    intro st queue i0 hmc hbinv hi0 hqi0 hsub
    obtain ⟨hqne, hqnd, hqnf, hroot, hchain⟩ := hbinv
    obtain ⟨hlmnf, hrmnf, hcl2, hcl3⟩ := hmc
    have htmem : target ∈ rows.getD next [] := hsub target (List.mem_cons_self _ _)
    have htne : target ≠ NOT_FOUND := hrows next target htmem
    have hq0 : 0 < queue.length := List.length_pos.mpr hqne
    by_cases hg : st.vis target ≠ st.augId ∧ st.vis target ≠ NOT_FOUND
    · have hlm_ne_t : ∀ i, 1 ≤ i → i < queue.length → st.lm (queue.getD i 0) ≠ target := by
        intro i h1 hi heq
        have hc := (hchain i h1 hi).2.1
        rw [heq] at hc
        exact hg.1 hc
      by_cases hcolnf : st.rm target = NOT_FOUND
      · simp only [scan_row, if_pos hg]
        rw [if_pos hcolnf]
        have haug := augment_ok rows queue st.lm (upd st.pred target next)
          hqnf hqnd hroot
          (by
            intro i h1 hi
            obtain ⟨ha, hb, j, hj, hc, hd⟩ := hchain i h1 hi
            exact ⟨ha, j, hj, by rw [upd_ne _ _ _ _ (hlm_ne_t i h1 hi)]; exact hc, hd⟩)
          i0
          { st with pred := upd st.pred target next, vis := upd st.vis target st.augId }
          target (queue.length + 1)
          rfl (fun i _ _ => rfl) hlmnf hrmnf hcl2 (fun r _ hr => hcl3 r hr)
          (Or.inl hcolnf) htne hi0
          (by rw [upd_self]; exact hqi0.symm)
          (by rw [hqi0]; exact htmem)
          (by omega)
        obtain ⟨hm, hrootm, hpres, _, _, _, _, _, _⟩ := haug
        refine ⟨hm, ?_, ?_⟩
        · intro _
          exact ⟨hrootm, hpres⟩
        · intro h
          exact absurd h (by simp)
      · simp only [scan_row, if_pos hg]
        rw [if_neg hcolnf]
        have hlmcol : st.lm (st.rm target) = target := hcl3 target hcolnf
        have hcol_notin : st.rm target ∉ queue := by
          intro hmem
          obtain ⟨i, hi, hqi⟩ := List.getElem_of_mem hmem
          have hgd : queue.getD i 0 = st.rm target := by
            rw [List.getD_eq_getElem?_getD, List.getElem?_eq_getElem hi]
            exact hqi
          rcases Nat.eq_zero_or_pos i with h0 | hpos
          · subst h0
            rw [hgd, hlmcol] at hroot
            exact htne hroot
          · have := hlm_ne_t i hpos hi
            rw [hgd, hlmcol] at this
            exact this rfl
        have hbinv1 : BInv rows
            { st with pred := upd st.pred target next, vis := upd st.vis target st.augId }
            (queue ++ [st.rm target]) := by
          refine ⟨by simp, ?_, ?_, ?_, ?_⟩
          · rw [List.nodup_append]
            exact ⟨hqnd, List.nodup_singleton _,
              fun a ha hb => hcol_notin (by
                have : a = st.rm target := by simpa using hb
                rwa [← this])⟩
          · intro i hi
            rw [List.length_append, List.length_singleton] at hi
            rcases Nat.lt_or_ge i queue.length with hlt | hge
            · rw [getD_append_lt _ _ _ _ hlt]
              exact hqnf i hlt
            · have hieq : i = queue.length := by omega
              subst hieq
              rw [getD_append_length]
              exact hcolnf
          · show st.lm ((queue ++ [st.rm target]).getD 0 0) = NOT_FOUND
            rw [getD_append_lt _ _ _ _ hq0]
            exact hroot
          · intro i h1 hi
            rw [List.length_append, List.length_singleton] at hi
            rcases Nat.lt_or_ge i queue.length with hlt | hge
            · rw [getD_append_lt _ _ _ _ hlt]
              obtain ⟨ha, hb, j, hj, hc, hd⟩ := hchain i h1 hlt
              refine ⟨ha, ?_, j, hj, ?_, ?_⟩
              · show upd st.vis target st.augId (st.lm (queue.getD i 0)) = st.augId
                rw [upd_ne _ _ _ _ (hlm_ne_t i h1 hlt)]
                exact hb
              · show upd st.pred target next (st.lm (queue.getD i 0)) =
                  (queue ++ [st.rm target]).getD j 0
                rw [upd_ne _ _ _ _ (hlm_ne_t i h1 hlt),
                  getD_append_lt _ _ _ _ (by omega)]
                exact hc
              · rw [getD_append_lt _ _ _ _ (by omega)]
                exact hd
            · have hieq : i = queue.length := by omega
              subst hieq
              rw [getD_append_length]
              refine ⟨by rw [hlmcol]; exact htne, ?_, i0, by omega, ?_, ?_⟩
              · show upd st.vis target st.augId (st.lm (st.rm target)) = st.augId
                rw [hlmcol, upd_self]
              · show upd st.pred target next (st.lm (st.rm target)) =
                  (queue ++ [st.rm target]).getD i0 0
                rw [hlmcol, upd_self, getD_append_lt _ _ _ _ hi0]
                exact hqi0.symm
              · rw [hlmcol, getD_append_lt _ _ _ _ hi0, hqi0]
                exact htmem
        have hih := ihr
          { st with pred := upd st.pred target next, vis := upd st.vis target st.augId }
          (queue ++ [st.rm target]) i0
          ⟨hlmnf, hrmnf, hcl2, hcl3⟩ hbinv1
          (by rw [List.length_append, List.length_singleton]; omega)
          (by rw [getD_append_lt _ _ _ _ hi0]; exact hqi0)
          (fun t ht => hsub t (List.mem_cons_of_mem _ ht))
        obtain ⟨hm, hfound, hnf⟩ := hih
        refine ⟨hm, ?_, ?_⟩
        · intro h
          obtain ⟨hr1, hr2⟩ := hfound h
          rw [getD_append_lt _ _ _ _ hq0] at hr1
          exact ⟨hr1, hr2⟩
        · intro h
          obtain ⟨h1, h2, h3, h4, h5, h6⟩ := hnf h
          refine ⟨h1, h2, h3, h4, ?_, ?_⟩
          · rw [List.length_append, List.length_singleton] at h5
            omega
          · intro i hi
            rw [h6 i (by rw [List.length_append, List.length_singleton]; omega),
              getD_append_lt _ _ _ _ hi]
    · simp only [scan_row, if_neg hg]
      exact ihr st queue i0 ⟨hlmnf, hrmnf, hcl2, hcl3⟩ ⟨hqne, hqnd, hqnf, hroot, hchain⟩
        hi0 hqi0 (fun t ht => hsub t (List.mem_cons_of_mem _ ht))

/-- The BFS loop of `match_bfs` preserves matching coherence; on
success the root is matched and no left vertex loses its partner, on
failure the mappings are untouched. -/
theorem bfs_loop_ok (rows : List (List Nat))
    (hrows : ∀ l, ∀ r ∈ rows.getD l [], r ≠ NOT_FOUND) :
    ∀ (fuel : Nat) (queue : List Nat) (qptr : Nat) (st : MState),
      MCoh rows st →
      BInv rows st queue →
      MCoh rows (bfs_loop rows fuel queue qptr st).1 ∧
      ((bfs_loop rows fuel queue qptr st).2.2 = true →
        (bfs_loop rows fuel queue qptr st).1.lm (queue.getD 0 0) ≠ NOT_FOUND ∧
        (∀ l, st.lm l ≠ NOT_FOUND →
          (bfs_loop rows fuel queue qptr st).1.lm l ≠ NOT_FOUND)) ∧
      ((bfs_loop rows fuel queue qptr st).2.2 = false →
        (bfs_loop rows fuel queue qptr st).1.lm = st.lm ∧
        (bfs_loop rows fuel queue qptr st).1.rm = st.rm) := by
  intro fuel
  induction fuel with
  | zero =>
    intro queue qptr st hmc hbinv
    exact ⟨hmc, fun h => absurd h (by simp [bfs_loop]), fun _ => ⟨rfl, rfl⟩⟩
  | succ f ihf =>
    intro queue qptr st hmc hbinv
    by_cases hql : qptr < queue.length
    · have hsc := scan_row_ok rows hrows (queue.getD qptr 0)
        (rows.getD (queue.getD qptr 0) []) st queue qptr hmc hbinv hql rfl
        (fun t ht => ht)
      rcases hscan : scan_row (queue.getD qptr 0) (rows.getD (queue.getD qptr 0) [])
        st queue with ⟨st1, q1, found⟩
      rw [hscan] at hsc
      obtain ⟨hm1, hfound, hnotf⟩ := hsc
      have hq0 : 0 < queue.length := List.length_pos.mpr hbinv.1
      cases found with
      | true =>
        have hbl : bfs_loop rows (f + 1) queue qptr st = (st1, q1, true) := by
          simp only [bfs_loop, if_pos hql, hscan]
        rw [hbl]
        obtain ⟨hr1, hr2⟩ := hfound rfl
        exact ⟨hm1, fun _ => ⟨hr1, hr2⟩, fun h => absurd h (by simp)⟩
      | false =>
        obtain ⟨hlm1, hrm1, _, hbinv1, _, hpre1⟩ := hnotf rfl
        have hbl : bfs_loop rows (f + 1) queue qptr st =
            bfs_loop rows f q1 (qptr + 1) st1 := by
          simp only [bfs_loop, if_pos hql, hscan]
        rw [hbl]
        obtain ⟨hm2, hf2, hnf2⟩ := ihf q1 (qptr + 1) st1 hm1 hbinv1
        refine ⟨hm2, ?_, ?_⟩
        · intro h
          obtain ⟨ha, hb⟩ := hf2 h
          rw [hpre1 0 hq0] at ha
          exact ⟨ha, fun l hl => hb l (by rw [hlm1]; exact hl)⟩
        · intro h
          obtain ⟨ha, hb⟩ := hnf2 h
          rw [ha, hb, hlm1, hrm1]
          exact ⟨rfl, rfl⟩
    · have hbl : bfs_loop rows (f + 1) queue qptr st = (st, queue, false) := by
        simp only [bfs_loop, if_neg hql]
      rw [hbl]
      exact ⟨hmc, fun h => absurd h (by simp), fun _ => ⟨rfl, rfl⟩⟩

/-- The failure-marking fold of `process_root` only writes `visited`,
so it preserves matching coherence. -/
theorem mark_fold_mcoh (rows : List (List Nat)) :
    ∀ (L : List Nat) (s : MState), MCoh rows s →
      MCoh rows (L.foldl
        (fun s qj => { s with vis := upd s.vis (s.lm qj) NOT_FOUND }) s) := by
  intro L
  induction L with
  | nil => intro s hmc; exact hmc
  | cons x xs ih =>
    intro s hmc
    exact ih _ hmc

/-- One root-processing step of `match_bfs` preserves matching
coherence. -/
theorem process_root_mcoh (rows : List (List Nat))
    (hrows : ∀ l, ∀ r ∈ rows.getD l [], r ≠ NOT_FOUND)
    (hlen : rows.length ≤ NOT_FOUND) (st : MState) (root : Nat)
    (hroot : root < rows.length) (hmc : MCoh rows st) :
    MCoh rows (process_root rows st root) := by
  by_cases hc : st.lm root = NOT_FOUND ∧ rows.getD root [] ≠ []
  · have hbinv : BInv rows st [root] := by
      refine ⟨by simp, List.nodup_singleton _, ?_, hc.1, ?_⟩
      · intro i hi
        have hieq : i = 0 := by simpa using hi
        subst hieq
        exact Nat.ne_of_lt (lt_of_lt_of_le hroot hlen)
      · intro i h1 hi
        simp at hi
        omega
    obtain ⟨hm, _, _⟩ := bfs_loop_ok rows hrows (rows.length + 1) [root] 0 st hmc hbinv
    simp only [process_root, if_pos hc]
    by_cases hfail : (bfs_loop rows (rows.length + 1) [root] 0 st).1.lm root = NOT_FOUND
    · rw [if_pos hfail]
      exact mark_fold_mcoh rows _ _ hm
    · rw [if_neg hfail]
      exact hm
  · simp only [process_root, if_neg hc]
    exact hmc

/-- `match_bfs` preserves matching coherence. -/
theorem match_bfs_mcoh (rows : List (List Nat))
    (hrows : ∀ l, ∀ r ∈ rows.getD l [], r ≠ NOT_FOUND)
    (hlen : rows.length ≤ NOT_FOUND) (st : MState) (hmc : MCoh rows st) :
    MCoh rows (match_bfs rows st) := by
  unfold match_bfs
  have haux : ∀ (us : List Nat) (s : MState), (∀ u ∈ us, u < rows.length) →
      MCoh rows s → MCoh rows (us.foldl (process_root rows) s) := by
    intro us
    induction us with
    | nil => intro s _ hmc'; exact hmc'
    | cons x xs ih =>
      intro s hus hmc'
      exact ih _ (fun u hu => hus u (List.mem_cons_of_mem _ hu))
        (process_root_mcoh rows hrows hlen s x (hus x (List.mem_cons_self _ _)) hmc')
  exact haux _ _ (fun u hu => List.mem_range.mp hu) hmc

/-- `match_cheap` from an all-unmatched left side produces a coherent
matching. -/
theorem match_cheap_mcoh (rows : List (List Nat))
    (hrows : ∀ l, ∀ r ∈ rows.getD l [], r ≠ NOT_FOUND)
    (hlen : rows.length ≤ NOT_FOUND) (st : MState) (hmc : MCoh rows st)
    (hunm : ∀ l < rows.length, st.lm l = NOT_FOUND) :
    MCoh rows (match_cheap rows st) := by
  unfold match_cheap
  have haux : ∀ (us : List Nat) (s : MState),
      (∀ l ∈ us, l < rows.length) → us.Nodup →
      MCoh rows s → (∀ l ∈ us, s.lm l = NOT_FOUND) →
      MCoh rows (us.foldl
        (fun s l =>
          match (rows.getD l []).find? (fun r => s.rm r == NOT_FOUND) with
          | some r => { s with lm := upd s.lm l r, rm := upd s.rm r l }
          | none => s) s) := by
    intro us
    induction us with
    | nil => intro s _ _ hmc' _; exact hmc'
    | cons l rest ih =>
      intro s hbnd hnd hmc' hunm'
      obtain ⟨hlmnf, hrmnf, hcl2, hcl3⟩ := hmc'
      have hlne : l ≠ NOT_FOUND :=
        Nat.ne_of_lt (lt_of_lt_of_le (hbnd l (List.mem_cons_self _ _)) hlen)
      have hlm_l : s.lm l = NOT_FOUND := hunm' l (List.mem_cons_self _ _)
      cases hf : (rows.getD l []).find? (fun r => s.rm r == NOT_FOUND) with
      | none =>
        simp only [List.foldl_cons, hf]
        exact ih s (fun x hx => hbnd x (List.mem_cons_of_mem _ hx))
          (List.Nodup.of_cons hnd) ⟨hlmnf, hrmnf, hcl2, hcl3⟩
          (fun x hx => hunm' x (List.mem_cons_of_mem _ hx))
      | some r =>
        have hrrow : r ∈ rows.getD l [] := List.mem_of_find?_eq_some hf
        have hrm_r : s.rm r = NOT_FOUND := by
          have := List.find?_some hf
          simpa using this
        have hrne : r ≠ NOT_FOUND := hrows l r hrrow
        simp only [List.foldl_cons, hf]
        apply ih
        · intro x hx
          exact hbnd x (List.mem_cons_of_mem _ hx)
        · exact List.Nodup.of_cons hnd
        · refine ⟨?_, ?_, ?_, ?_⟩
          · show upd s.lm l r NOT_FOUND = NOT_FOUND
            rw [upd_ne _ _ _ _ (fun h => hlne h.symm)]
            exact hlmnf
          · show upd s.rm r l NOT_FOUND = NOT_FOUND
            rw [upd_ne _ _ _ _ (fun h => hrne h.symm)]
            exact hrmnf
          · intro l' hl'
            by_cases hll : l' = l
            · subst hll
              show upd s.lm l' r l' ∈ _ ∧ upd s.rm r l' (upd s.lm l' r l') = l'
              rw [upd_self, upd_self]
              exact ⟨hrrow, rfl⟩
            · show upd s.lm l r l' ∈ _ ∧ upd s.rm r l (upd s.lm l r l') = l'
              dsimp only at hl'
              rw [upd_ne _ _ _ _ hll] at hl' ⊢
              obtain ⟨he, hcoh⟩ := hcl2 l' hl'
              have hlr : s.lm l' ≠ r := by
                intro heq
                rw [heq] at hcoh
                rw [hrm_r] at hcoh
                subst hcoh
                rw [hlmnf] at hl'
                exact hl' rfl
              rw [upd_ne _ _ _ _ hlr]
              exact ⟨he, hcoh⟩
          · intro r' hr'
            by_cases hrr : r' = r
            · subst hrr
              show upd s.lm l r' (upd s.rm r' l r') = r'
              rw [upd_self, upd_self]
            · show upd s.lm l r (upd s.rm r l r') = r'
              dsimp only at hr'
              rw [upd_ne _ _ _ _ hrr] at hr' ⊢
              have hcoh := hcl3 r' hr'
              have hne_l : s.rm r' ≠ l := by
                intro heq
                rw [heq, hlm_l] at hcoh
                subst hcoh
                rw [hrmnf] at hr'
                exact hr' rfl
              rw [upd_ne _ _ _ _ hne_l]
              exact hcoh
        · intro x hx
          have hxl : x ≠ l := by
            intro heq
            subst heq
            exact (List.nodup_cons.mp hnd).1 hx
          show upd s.lm l r x = NOT_FOUND
          rw [upd_ne _ _ _ _ hxl]
          exact hunm' x (List.mem_cons_of_mem _ hx)
  exact haux _ _ (fun x hx => List.mem_range.mp hx) (List.nodup_range _) hmc
    (fun x hx => hunm x (List.mem_range.mp hx))

/-- `matchInit` is a coherent (empty) matching. -/
theorem matchInit_mcoh (rows : List (List Nat)) : MCoh rows matchInit :=
  ⟨rfl, rfl, fun l hl => absurd rfl hl, fun r hr => absurd rfl hr⟩

/-- `getD` after `set` at the written index. -/
theorem getD_set_self {α : Type} (l : List α) (i : Nat) (x d : α) (h : i < l.length) :
    (l.set i x).getD i d = x := by
  rw [List.getD_eq_getElem?_getD, List.getElem?_set_self (by omega)]
  rfl

/-- `getD` after `set` at another index. -/
theorem getD_set_ne {α : Type} (l : List α) (i j : Nat) (x d : α) (h : j ≠ i) :
    (l.set i x).getD j d = l.getD j d := by
  rw [List.getD_eq_getElem?_getD, List.getElem?_set_ne (fun he => h he.symm),
    List.getD_eq_getElem?_getD]

/-- A successful `lookup` names a pair of the association list. -/
theorem lookup_some_mem (l : List (Nat × Nat)) (a b : Nat)
    (h : l.lookup a = some b) : (a, b) ∈ l := by
  induction l with
  | nil => exact absurd h (by simp)
  | cons p rest ih =>
    cases hab : (a == p.1) with
    | true =>
      have ha : a = p.1 := beq_iff_eq.mp hab
      have hb : p.2 = b := by
        have h' := h
        rw [List.lookup, hab] at h'
        simpa using h'
      have hp : (a, b) = p := by
        cases p
        simp only [Prod.mk.injEq]
        simp only at ha hb
        exact ⟨ha, hb.symm⟩
      rw [hp]
      exact List.mem_cons_self _ _
    | false =>
      have h' : rest.lookup a = some b := by
        have h'' := h
        rw [List.lookup, hab] at h''
        exact h''
      exact List.mem_cons_of_mem _ (ih h')

/-- With duplicate-free keys, membership determines `lookup`. -/
theorem mem_lookup_of_nodup (l : List (Nat × Nat)) (a b : Nat)
    (hnd : (l.map Prod.fst).Nodup) (h : (a, b) ∈ l) : l.lookup a = some b := by
  induction l with
  | nil => exact absurd h (by simp)
  | cons p rest ih =>
    rw [List.map_cons] at hnd
    have hnd1 : p.1 ∉ rest.map Prod.fst := (List.nodup_cons.mp hnd).1
    have hnd2 : (rest.map Prod.fst).Nodup := (List.nodup_cons.mp hnd).2
    rcases List.mem_cons.mp h with heq | htail
    · have ha : a = p.1 := by rw [← heq]
      have hb : b = p.2 := by rw [← heq]
      rw [List.lookup, show (a == p.1) = true from beq_iff_eq.mpr ha]
      simp [hb]
    · have hkey : a ∈ rest.map Prod.fst := List.mem_map.mpr ⟨(a, b), htail, rfl⟩
      have hne : a ≠ p.1 := fun hc => hnd1 (hc ▸ hkey)
      rw [List.lookup, show (a == p.1) = false from beq_eq_false_iff_ne.mpr hne]
      exact ih hnd2 htail

/-- A fold that overwrites its accumulator with the current test returns
`true` when every test passes (the `is_valid` overwrite can only hide
failures, never successes). -/
theorem foldl_overwrite_true {α : Type} (f : α → Bool) :
    ∀ (l : List α) (b : Bool), b = true → (∀ p ∈ l, f p = true) →
      l.foldl (fun _ p => f p) b = true := by
  intro l
  induction l with
  | nil => intro b hb _; exact hb
  | cons p rest ih =>
    intro b _ hall
    exact ih (f p) (hall p (List.mem_cons_self _ _))
      (fun x hx => hall x (List.mem_cons_of_mem _ hx))

/-- A duplicate-free key list that embeds into another key list is no
longer than it. -/
theorem keys_len_le (ql dl : List (Nat × Nat))
    (hnd : (ql.map Prod.fst).Nodup)
    (hsub : ∀ a ∈ ql.map Prod.fst, a ∈ dl.map Prod.fst) :
    ql.length ≤ dl.length := by
  have h1 : ql.length = (ql.map Prod.fst).toFinset.card := by
    rw [List.toFinset_card_of_nodup hnd, List.length_map]
  have h2 : (ql.map Prod.fst).toFinset ⊆ (dl.map Prod.fst).toFinset := by
    intro a ha
    exact List.mem_toFinset.mpr (hsub a (List.mem_toFinset.mp ha))
  have h3 : (dl.map Prod.fst).toFinset.card ≤ dl.length := by
    calc (dl.map Prod.fst).toFinset.card ≤ (dl.map Prod.fst).length :=
          List.toFinset_card_le _
      _ = dl.length := List.length_map _ _
  exact le_trans (h1 ▸ Finset.card_le_card h2) h3

/-- The count of a value in a mapped list as the cardinality of the
index set hitting it. -/
theorem count_map_eq_card (f : Nat → Nat) :
    ∀ (xs : List Nat) (lab : Nat),
      (xs.map f).count lab =
        ((Finset.range xs.length).filter (fun i => f (xs.getD i 0) = lab)).card := by
  intro xs
  induction xs with
  | nil => intro lab; simp
  | cons x rest ih =>
    intro lab
    rw [List.map_cons, List.count_cons, ih lab, Finset.card_filter, Finset.card_filter,
      List.length_cons, Finset.sum_range_succ']
    have h0 : ∀ i : Nat, ((x :: rest).getD (i + 1) 0) = rest.getD i 0 := fun i => rfl
    simp only [h0, List.getD_cons_zero, beq_iff_eq]

/-- An injective, label-preserving assignment of positions dominates the
per-label counts. -/
theorem count_le_of_inj (f g : Nat → Nat) (xs ys : List Nat) (m : Nat → Nat)
    (hm : ∀ l, l < xs.length → m l < ys.length)
    (hinj : ∀ l1 l2, l1 < xs.length → l2 < xs.length → m l1 = m l2 → l1 = l2)
    (hlab : ∀ l, l < xs.length → g (ys.getD (m l) 0) = f (xs.getD l 0)) :
    ∀ lab, (xs.map f).count lab ≤ (ys.map g).count lab := by
  intro lab
  rw [count_map_eq_card, count_map_eq_card]
  apply Finset.card_le_card_of_injOn m
  · intro i hi
    rw [Finset.mem_filter, Finset.mem_range] at hi
    rw [Finset.mem_filter, Finset.mem_range]
    exact ⟨hm i hi.1, by rw [hlab i hi.1]; exact hi.2⟩
  · intro i hi j hj hij
    rw [Finset.mem_coe, Finset.mem_filter, Finset.mem_range] at hi hj
    exact hinj i j hi.1 hj.1 hij

/-- Characterisation of `enum` members: position and value. -/
theorem mem_enum_spec (l : List Nat) (p : Nat × Nat) (h : p ∈ l.enum) :
    p.1 < l.length ∧ p.2 = l.getD p.1 0 := by
  obtain ⟨i, hi, he⟩ := List.getElem_of_mem h
  rw [List.enum_length] at hi
  rw [List.getElem_enum] at he
  have h1 : p.1 = i := by rw [← he]
  have h2 : p.2 = l[i] := by rw [← he]
  subst h1
  refine ⟨hi, ?_⟩
  rw [h2, List.getD_eq_getElem?_getD, List.getElem?_eq_getElem hi]
  rfl

/-- `getD` on `range`. -/
theorem range_getD (n j : Nat) (h : j < n) : (List.range n).getD j 0 = j := by
  rw [List.getD_eq_getElem?_getD, List.getElem?_range h]
  rfl

/-- A `getD` at an in-range index is a member. -/
theorem getD_mem_of_lt {α : Type} (l : List α) (i : Nat) (d : α) (h : i < l.length) :
    l.getD i d ∈ l := by
  rw [List.getD_eq_getElem?_getD, List.getElem?_eq_getElem h]
  exact List.getElem_mem h

/-- The LDF per-node row fold: the candidates are the label-indexed
nodes passing the degree test, in order. -/
theorem ldf_row_fold_spec (d : Graph) (deg : Nat) :
    ∀ (nbl : List Nat) (acc out : List Nat),
      nbl.foldlM (fun r v => do
        let dd ← d.degree? v
        pure (if deg ≤ dd then r ++ [v] else r)) acc = some out →
      out = acc ++ nbl.filter (fun v => decide (deg ≤ d.degreeD v)) := by
  intro nbl
  induction nbl with
  | nil =>
    intro acc out h
    simp only [List.foldlM_nil] at h
    have : acc = out := by simpa using h
    simp [← this]
  | cons v rest ih =>
    intro acc out h
    rw [List.foldlM_cons] at h
    cases hd : d.degree? v with
    | none =>
      rw [hd] at h
      simp at h
    | some dd =>
      rw [hd] at h
      simp only [Option.bind_eq_bind, Option.some_bind, Option.pure_def] at h
      have hdd : d.degreeD v = dd := by
        unfold Graph.degreeD
        rw [hd]
        rfl
      by_cases hle : deg ≤ dd
      · rw [if_pos hle] at h
        rw [ih _ _ h, List.filter_cons, if_pos (by rw [hdd]; exact decide_eq_true hle)]
        simp
      · rw [if_neg hle] at h
        rw [ih _ _ h, List.filter_cons, if_neg (by rw [hdd]; simpa using hle)]

/-- The NLF per-node row fold: the candidates are the label-indexed
nodes passing the degree test, the map-size test, and the (buggy)
`is_valid` check. -/
theorem nlf_row_fold_spec (d : Graph) (deg : Nat) (qnlf : List (Nat × Nat)) :
    ∀ (nbl : List Nat) (acc out : List Nat),
      nbl.foldlM (fun r v => do
        let dd ← d.degree? v
        if deg ≤ dd then do
          let data_nlf ← d.neighbor_label_frequency? v
          if qnlf.length ≤ data_nlf.length then
            pure (if nlf_is_valid qnlf data_nlf then r ++ [v] else r)
          else pure r
        else pure r) acc = some out →
      out = acc ++ nbl.filter (fun v =>
        decide (deg ≤ d.degreeD v) &&
        (decide (qnlf.length ≤ ((d.neighbor_label_frequency? v).getD []).length) &&
          nlf_is_valid qnlf ((d.neighbor_label_frequency? v).getD []))) := by
  intro nbl
  induction nbl with
  | nil =>
    intro acc out h
    simp only [List.foldlM_nil] at h
    have : acc = out := by simpa using h
    simp [← this]
  | cons v rest ih =>
    intro acc out h
    rw [List.foldlM_cons] at h
    cases hd : d.degree? v with
    | none =>
      rw [hd] at h
      simp at h
    | some dd =>
      rw [hd] at h
      simp only [Option.bind_eq_bind, Option.some_bind, Option.pure_def] at h
      have hdd : d.degreeD v = dd := by
        unfold Graph.degreeD
        rw [hd]
        rfl
      by_cases hle : deg ≤ dd
      · rw [if_pos hle] at h
        cases hn : d.neighbor_label_frequency? v with
        | none =>
          rw [hn] at h
          simp at h
        | some dnlf =>
          rw [hn] at h
          simp only [Option.bind_eq_bind, Option.some_bind] at h
          have hget : (d.neighbor_label_frequency? v).getD [] = dnlf := by
            rw [hn]
            rfl
          by_cases hql : qnlf.length ≤ dnlf.length
          · rw [if_pos hql] at h
            by_cases hv : nlf_is_valid qnlf dnlf = true
            · rw [if_pos hv] at h
              rw [ih _ _ h, List.filter_cons, if_pos (by
                rw [hdd, hget]
                simp [hle, hql, hv])]
              simp
            · rw [if_neg hv] at h
              rw [ih _ _ h, List.filter_cons, if_neg (by
                rw [hdd, hget]
                simp [hle, hql]
                exact Bool.not_eq_true _ ▸ hv)]
          · rw [if_neg hql] at h
            rw [ih _ _ h, List.filter_cons, if_neg (by
              rw [hdd, hget]
              simp [hle]
              intro hc
              exact absurd hc hql)]
      · rw [if_neg hle] at h
        rw [ih _ _ h, List.filter_cons, if_neg (by
          rw [hdd]
          simp [hle])]

/-- Characterisation of a completed `ldf_filter` loop: one row per
processed node, each the degree-filtered label-indexed list. -/
theorem ldf_filter_go_spec (d q : Graph) :
    ∀ (us : List Nat) (acc out : Candidates),
      ldf_filter_go d q us acc = some (some out) →
      out.length = acc.length + us.length ∧
      (∀ i, i < acc.length → out.getD i [] = acc.getD i []) ∧
      (∀ j, j < us.length →
        ∃ lbl deg nbl, q.label? (us.getD j 0) = some lbl ∧
          q.degree? (us.getD j 0) = some deg ∧
          d.nodes_by_label? lbl = some nbl ∧
          out.getD (acc.length + j) [] =
            nbl.filter (fun v => decide (deg ≤ d.degreeD v))) := by
  intro us
  induction us with
  | nil =>
    intro acc out h
    have hae : acc = out := by
      rw [ldf_filter_go] at h
      simpa using h
    subst hae
    exact ⟨by simp, fun i _ => rfl, fun j hj => absurd hj (by simp)⟩
  | cons u rest ih =>
    intro acc out h
    rw [ldf_filter_go] at h
    cases hl : q.label? u with
    | none => rw [hl] at h; simp at h
    | some lbl =>
      rw [hl] at h
      simp only [Option.bind_eq_bind, Option.some_bind] at h
      cases hdg : q.degree? u with
      | none => rw [hdg] at h; simp at h
      | some deg =>
        rw [hdg] at h
        simp only [Option.some_bind] at h
        cases hnb : d.nodes_by_label? lbl with
        | none => rw [hnb] at h; simp at h
        | some nbl =>
          rw [hnb] at h
          simp only [Option.some_bind] at h
          cases hrow : nbl.foldlM (fun r v =>
              (d.degree? v).bind fun dd =>
                pure (if deg ≤ dd then r ++ [v] else r)) ([] : List Nat) with
          | none => rw [hrow] at h; simp at h
          | some row =>
            rw [hrow] at h
            simp only [Option.some_bind] at h
            have hrowf : row = nbl.filter (fun v => decide (deg ≤ d.degreeD v)) :=
              ldf_row_fold_spec d deg nbl [] row hrow
            by_cases hz : row.length = 0
            · rw [if_pos hz] at h
              simp at h
            · rw [if_neg hz] at h
              obtain ⟨hlen, hpre, hrows⟩ := ih (acc ++ [row]) out h
              rw [List.length_append, List.length_singleton] at hlen hpre
              refine ⟨by simpa using by omega, ?_, ?_⟩
              · intro i hi
                rw [hpre i (by omega), getD_append_lt _ _ _ _ hi]
              · intro j hj
                cases j with
                | zero =>
                  refine ⟨lbl, deg, nbl, hl, hdg, hnb, ?_⟩
                  rw [Nat.add_zero, hpre acc.length (by omega), getD_append_length]
                  exact hrowf
                | succ j' =>
                  rw [List.length_cons] at hj
                  obtain ⟨l2, d2, n2, ha, hb, hc, hd⟩ := hrows j' (by omega)
                  refine ⟨l2, d2, n2, ha, hb, hc, ?_⟩
                  rw [List.length_append, List.length_singleton] at hd
                  rw [show acc.length + (j' + 1) = acc.length + 1 + j' by omega]
                  exact hd

/-- Characterisation of a completed `nlf_filter_` loop. -/
theorem nlf_filter_go_spec (d q : Graph) :
    ∀ (us : List Nat) (acc out : Candidates),
      nlf_filter_go d q us acc = some (some out) →
      out.length = acc.length + us.length ∧
      (∀ i, i < acc.length → out.getD i [] = acc.getD i []) ∧
      (∀ j, j < us.length →
        ∃ lbl deg qnlf nbl, q.label? (us.getD j 0) = some lbl ∧
          q.degree? (us.getD j 0) = some deg ∧
          q.neighbor_label_frequency? (us.getD j 0) = some qnlf ∧
          d.nodes_by_label? lbl = some nbl ∧
          out.getD (acc.length + j) [] =
            nbl.filter (fun v =>
              decide (deg ≤ d.degreeD v) &&
              (decide (qnlf.length ≤ ((d.neighbor_label_frequency? v).getD []).length) &&
                nlf_is_valid qnlf ((d.neighbor_label_frequency? v).getD [])))) := by
  intro us
  induction us with
  | nil =>
    intro acc out h
    have hae : acc = out := by
      rw [nlf_filter_go] at h
      simpa using h
    subst hae
    exact ⟨by simp, fun i _ => rfl, fun j hj => absurd hj (by simp)⟩
  | cons u rest ih =>
    intro acc out h
    rw [nlf_filter_go] at h
    cases hl : q.label? u with
    | none => rw [hl] at h; simp at h
    | some lbl =>
      rw [hl] at h
      simp only [Option.bind_eq_bind, Option.some_bind] at h
      cases hdg : q.degree? u with
      | none => rw [hdg] at h; simp at h
      | some deg =>
        rw [hdg] at h
        simp only [Option.some_bind] at h
        cases hqn : q.neighbor_label_frequency? u with
        | none => rw [hqn] at h; simp at h
        | some qnlf =>
          rw [hqn] at h
          simp only [Option.some_bind] at h
          cases hnb : d.nodes_by_label? lbl with
          | none => rw [hnb] at h; simp at h
          | some nbl =>
            rw [hnb] at h
            simp only [Option.some_bind] at h
            cases hrow : nbl.foldlM (fun r v =>
                (d.degree? v).bind fun dd =>
                  if deg ≤ dd then
                    (d.neighbor_label_frequency? v).bind fun data_nlf =>
                      if qnlf.length ≤ data_nlf.length then
                        pure (if nlf_is_valid qnlf data_nlf then r ++ [v] else r)
                      else pure r
                  else pure r) ([] : List Nat) with
            | none => rw [hrow] at h; simp at h
            | some row =>
              rw [hrow] at h
              simp only [Option.some_bind] at h
              have hrowf := nlf_row_fold_spec d deg qnlf nbl [] row hrow
              by_cases hz : row.length = 0
              · rw [if_pos hz] at h
                simp at h
              · rw [if_neg hz] at h
                obtain ⟨hlen, hpre, hrows⟩ := ih (acc ++ [row]) out h
                rw [List.length_append, List.length_singleton] at hlen hpre
                refine ⟨by simpa using by omega, ?_, ?_⟩
                · intro i hi
                  rw [hpre i (by omega), getD_append_lt _ _ _ _ hi]
                · intro j hj
                  cases j with
                  | zero =>
                    refine ⟨lbl, deg, qnlf, nbl, hl, hdg, hqn, hnb, ?_⟩
                    rw [Nat.add_zero, hpre acc.length (by omega), getD_append_length]
                    simpa using hrowf
                  | succ j' =>
                    rw [List.length_cons] at hj
                    obtain ⟨l2, d2, q2, n2, ha, hb, hc, hd, he⟩ := hrows j' (by omega)
                    refine ⟨l2, d2, q2, n2, ha, hb, hc, hd, ?_⟩
                    rw [List.length_append, List.length_singleton] at he
                    rw [show acc.length + (j' + 1) = acc.length + 1 + j' by omega]
                    exact he

/-- `getD` past the end is the default. -/
theorem getD_default {α : Type} (l : List α) (i : Nat) (d : α) (h : l.length ≤ i) :
    l.getD i d = d := by
  rw [List.getD_eq_getElem?_getD, List.getElem?_eq_none h]
  rfl

/-- Pointwise characterisation of a successful `mapM`. -/
theorem mapM_spec {α β : Type} (f : α → Option β) (da : α) (db : β) :
    ∀ (xs : List α) (ys : List β), xs.mapM f = some ys →
      ys.length = xs.length ∧
      ∀ i, i < xs.length → f (xs.getD i da) = some (ys.getD i db) := by
  intro xs
  induction xs with
  | nil =>
    intro ys h
    have : ys = [] := by
      rw [List.mapM_nil] at h
      simpa using h.symm
    subst this
    exact ⟨rfl, fun i hi => absurd hi (by simp)⟩
  | cons x rest ih =>
    intro ys h
    rw [List.mapM_cons] at h
    cases hx : f x with
    | none => rw [hx] at h; simp at h
    | some y =>
      rw [hx] at h
      simp only [Option.bind_eq_bind, Option.some_bind] at h
      cases hrest : rest.mapM f with
      | none => rw [hrest] at h; simp at h
      | some ys' =>
        rw [hrest] at h
        simp only [Option.some_bind, Option.pure_def, Option.some.injEq] at h
        subst h
        obtain ⟨hlen, hpt⟩ := ih ys' hrest
        refine ⟨by simp [hlen], ?_⟩
        intro i hi
        cases i with
        | zero => simpa using hx
        | succ i' =>
          rw [List.length_cons] at hi
          simpa using hpt i' (by omega)

/-- Entries of a bigraph row produced by the inner fold of
`compute_bipartite_graph` are positions validated by the bitmap. -/
theorem bg_row_fold_spec (vrow : List Bool) :
    ∀ (ps : List (Nat × Nat)) (acc out : List Nat),
      ps.foldlM (fun acc p =>
        (vrow.get? p.2).bind fun b =>
          pure (if b then acc ++ [p.1] else acc)) acc = some out →
      ∀ r ∈ out, r ∈ acc ∨ ∃ p ∈ ps, p.1 = r ∧ vrow.getD p.2 false = true := by
  intro ps
  induction ps with
  | nil =>
    intro acc out h r hr
    have : acc = out := by simpa using h
    subst this
    exact Or.inl hr
  | cons p rest ih =>
    intro acc out h r hr
    rw [List.foldlM_cons] at h
    cases hb : vrow.get? p.2 with
    | none => rw [hb] at h; simp at h
    | some b =>
      rw [hb] at h
      simp only [Option.bind_eq_bind, Option.some_bind] at h
      have hbd : vrow.getD p.2 false = b := by
        rw [List.getD_eq_getElem?_getD, ← List.get?_eq_getElem?, hb]
        rfl
      cases b with
      | false =>
        rw [if_neg (by simp)] at h
        rcases ih acc out h r hr with hacc | ⟨pw, hpw, hr1, hr2⟩
        · exact Or.inl hacc
        · exact Or.inr ⟨pw, List.mem_cons_of_mem _ hpw, hr1, hr2⟩
      | true =>
        rw [if_pos rfl] at h
        rcases ih _ out h r hr with hacc | ⟨pw, hpw, hr1, hr2⟩
        · rcases List.mem_append.mp hacc with h1 | h2
          · exact Or.inl h1
          · have : r = p.1 := by simpa using h2
            exact Or.inr ⟨p, List.mem_cons_self _ _, this.symm, hbd⟩
        · exact Or.inr ⟨pw, List.mem_cons_of_mem _ hpw, hr1, hr2⟩

/-- Characterisation of `compute_bipartite_graph`: one row per left
vertex; entries are in-range right positions validated by the bitmap. -/
theorem compute_bipartite_graph_spec (qnbrs dnbrs : List Nat) (valid : List (List Bool))
    (bg : List (List Nat)) (h : compute_bipartite_graph qnbrs dnbrs valid = some bg) :
    bg.length = qnbrs.length ∧
    ∀ i, i < qnbrs.length → ∀ r ∈ bg.getD i [],
      r < dnbrs.length ∧
      (valid.getD (qnbrs.getD i 0) []).getD (dnbrs.getD r 0) false = true := by
  unfold compute_bipartite_graph at h
  obtain ⟨hlen, hpt⟩ := mapM_spec _ 0 [] qnbrs bg h
  refine ⟨hlen, ?_⟩
  intro i hi r hr
  have hfi := hpt i hi
  simp only at hfi
  cases hv : valid.get? (qnbrs.getD i 0) with
  | none => rw [hv] at hfi; simp at hfi
  | some vrow =>
    rw [hv] at hfi
    simp only [Option.bind_eq_bind, Option.some_bind] at hfi
    have hvd : valid.getD (qnbrs.getD i 0) [] = vrow := by
      rw [List.getD_eq_getElem?_getD, ← List.get?_eq_getElem?, hv]
      rfl
    rcases bg_row_fold_spec vrow dnbrs.enum [] (bg.getD i []) hfi r hr with h0 | hmem
    · exact absurd h0 (by simp)
    · obtain ⟨p, hpe, hp1, hp2⟩ := hmem
      obtain ⟨hplt, hpv⟩ := mem_enum_spec dnbrs p hpe
      subst hp1
      rw [hvd]
      rw [hpv] at hp2
      exact ⟨hplt, hp2⟩

/-- `build_valid` only sets bits at candidate pairs. -/
theorem build_valid_sub (n : Nat) (cands : Candidates) (valid : List (List Bool))
    (h : build_valid n cands = some valid) : ValidSub cands valid := by
  have hfold : ∀ (row : List Nat) (acc out : List Bool),
      row.foldlM (fun vr v => setAt vr v true) acc = some out →
      ∀ b, out.getD b false = true → b ∈ row ∨ acc.getD b false = true := by
    intro row
    induction row with
    | nil =>
      intro acc out h' b hb
      have : acc = out := by simpa using h'
      subst this
      exact Or.inr hb
    | cons v rest ih =>
      intro acc out h' b hb
      rw [List.foldlM_cons] at h'
      cases hs : setAt acc v true with
      | none => rw [hs] at h'; simp at h'
      | some acc' =>
        rw [hs] at h'
        simp only [Option.bind_eq_bind, Option.some_bind] at h'
        unfold setAt at hs
        by_cases hvl : v < acc.length
        · rw [if_pos hvl] at hs
          have hacc' : acc' = acc.set v true := by
            have := hs
            simp at this
            exact this.symm
          rcases ih acc' out h' b hb with hrest | hacc
          · exact Or.inl (List.mem_cons_of_mem _ hrest)
          · by_cases hbv : b = v
            · exact Or.inl (hbv ▸ List.mem_cons_self _ _)
            · rw [hacc', getD_set_ne _ _ _ _ _ hbv] at hacc
              exact Or.inr hacc
        · rw [if_neg hvl] at hs
          exact absurd hs (by simp)
  unfold build_valid at h
  obtain ⟨hlen, hpt⟩ := mapM_spec _ [] [] cands valid h
  intro a b hb
  by_cases ha : a < cands.length
  · have hfa := hpt a ha
    rcases hfold (cands.getD a []) (List.replicate n false) (valid.getD a []) hfa b hb
      with hm | hrep
    · exact hm
    · rw [getD_replicate_false] at hrep
      exact absurd hrep (by simp)
  · rw [getD_default valid a [] (by omega)] at hb
    exact absurd hb (by simp)

/-- `invalidate` only clears bits. -/
theorem invalidate_desc (valid valid' : List (List Bool)) (u v : Nat)
    (h : invalidate valid u v = some valid') : ValidDesc valid valid' := by
  unfold invalidate at h
  cases hr : valid.get? u with
  | none => rw [hr] at h; simp at h
  | some row =>
    rw [hr] at h
    simp only [Option.bind_eq_bind, Option.some_bind] at h
    cases hs : setAt row v false with
    | none => rw [hs] at h; simp at h
    | some row' =>
      rw [hs] at h
      simp only [Option.some_bind] at h
      unfold setAt at hs h
      by_cases hvl : v < row.length
      · rw [if_pos hvl] at hs
        have hrow' : row' = row.set v false := by
          have := hs
          simp at this
          exact this.symm
        by_cases hul : u < valid.length
        · rw [if_pos hul] at h
          have hvalid' : valid' = valid.set u row' := by
            have := h
            simp at this
            exact this.symm
          have hrowd : valid.getD u [] = row := by
            rw [List.getD_eq_getElem?_getD, ← List.get?_eq_getElem?, hr]
            rfl
          intro a b hb
          subst hvalid'
          by_cases hau : a = u
          · subst hau
            rw [getD_set_self _ _ _ _ hul] at hb
            subst hrow'
            by_cases hbv : b = v
            · subst hbv
              rw [getD_set_self _ _ _ _ hvl] at hb
              exact absurd hb (by simp)
            · rw [getD_set_ne _ _ _ _ _ hbv] at hb
              rw [hrowd]
              exact hb
          · rw [getD_set_ne _ _ _ _ _ hau] at hb
            exact hb
        · rw [if_neg hul] at h
          exact absurd h (by simp)
      · rw [if_neg hvl] at hs
        exact absurd hs (by simp)

/-- `ValidDesc` is reflexive. -/
theorem ValidDesc_refl (v : List (List Bool)) : ValidDesc v v :=
  fun a b hb => hb

/-- `ValidDesc` is transitive. -/
theorem ValidDesc_trans (v1 v2 v3 : List (List Bool))
    (h12 : ValidDesc v1 v2) (h23 : ValidDesc v2 v3) : ValidDesc v1 v3 :=
  fun a b hb => h12 a b (h23 a b hb)

/-- Characterisation of one refined row: same length, entries either
kept or overwritten with the sentinel, the bitmap only loses bits, and
every kept entry passed the per-pair test against some intermediate
bitmap below the row-entry one. -/
theorem gql_refine_row_spec
    (test : Graph → Graph → List (List Bool) → Nat → Nat → Option Bool)
    (d q : Graph) (u : Nat) :
    ∀ (row : List Nat) (valid : List (List Bool)) (out : List Nat × List (List Bool)),
      gql_refine_row test d q u row valid = some out →
      out.1.length = row.length ∧
      ValidDesc valid out.2 ∧
      (∀ i, i < row.length → out.1.getD i 0 ≠ INVALID_NODE_ID →
        out.1.getD i 0 = row.getD i 0 ∧
        ∃ vt, ValidDesc valid vt ∧ test d q vt u (row.getD i 0) = some true) := by
  intro row
  induction row with
  | nil =>
    intro valid out h
    have : out = ([], valid) := by
      rw [gql_refine_row] at h
      simpa using h.symm
    subst this
    exact ⟨rfl, ValidDesc_refl _, fun i hi => absurd hi (by simp)⟩
  | cons v rest ih =>
    intro valid out h
    rw [gql_refine_row] at h
    by_cases hv : v = INVALID_NODE_ID
    · rw [if_pos hv] at h
      cases hp : gql_refine_row test d q u rest valid with
      | none => rw [hp] at h; simp at h
      | some p =>
        rw [hp] at h
        simp only [Option.bind_eq_bind, Option.some_bind, Option.pure_def,
          Option.some.injEq] at h
        subst h
        obtain ⟨hlen, hdesc, hkeep⟩ := ih valid p hp
        refine ⟨by simp [hlen], hdesc, ?_⟩
        intro i hi hne
        cases i with
        | zero =>
          rw [List.getD_cons_zero] at hne
          exact absurd hv hne
        | succ i' =>
          rw [List.length_cons] at hi
          rw [List.getD_cons_succ] at hne ⊢
          rw [List.getD_cons_succ]
          exact hkeep i' (by omega) hne
    · rw [if_neg hv] at h
      cases hok : test d q valid u v with
      | none => rw [hok] at h; simp at h
      | some ok =>
        rw [hok] at h
        simp only [Option.bind_eq_bind, Option.some_bind] at h
        cases ok with
        | true =>
          rw [if_pos rfl] at h
          cases hp : gql_refine_row test d q u rest valid with
          | none => rw [hp] at h; simp at h
          | some p =>
            rw [hp] at h
            simp only [Option.some_bind, Option.pure_def, Option.some.injEq] at h
            subst h
            obtain ⟨hlen, hdesc, hkeep⟩ := ih valid p hp
            refine ⟨by simp [hlen], hdesc, ?_⟩
            intro i hi hne
            cases i with
            | zero =>
              refine ⟨rfl, valid, ValidDesc_refl _, ?_⟩
              rw [List.getD_cons_zero]
              exact hok
            | succ i' =>
              rw [List.length_cons] at hi
              rw [List.getD_cons_succ] at hne ⊢
              rw [List.getD_cons_succ]
              exact hkeep i' (by omega) hne
        | false =>
          rw [if_neg (by simp)] at h
          cases hinv : invalidate valid u v with
          | none => rw [hinv] at h; simp at h
          | some valid' =>
            rw [hinv] at h
            simp only [Option.some_bind] at h
            cases hp : gql_refine_row test d q u rest valid' with
            | none => rw [hp] at h; simp at h
            | some p =>
              rw [hp] at h
              simp only [Option.some_bind, Option.pure_def, Option.some.injEq] at h
              subst h
              obtain ⟨hlen, hdesc, hkeep⟩ := ih valid' p hp
              have hd1 : ValidDesc valid valid' := invalidate_desc valid valid' u v hinv
              refine ⟨by simp [hlen], ValidDesc_trans _ _ _ hd1 hdesc, ?_⟩
              intro i hi hne
              cases i with
              | zero =>
                rw [List.getD_cons_zero] at hne
                exact absurd rfl hne
              | succ i' =>
                rw [List.length_cons] at hi
                rw [List.getD_cons_succ] at hne ⊢
                rw [List.getD_cons_succ]
                obtain ⟨hk1, vt, hvt1, hvt2⟩ := hkeep i' (by omega) hne
                exact ⟨hk1, vt, ValidDesc_trans _ _ _ hd1 hvt1, hvt2⟩

/-- Characterisation of one refinement pass over a duplicate-free node
list: row lengths are preserved, the bitmap only loses bits, untouched
rows are unchanged, and every processed row is the refined original
row. -/
theorem gql_pass_spec
    (test : Graph → Graph → List (List Bool) → Nat → Nat → Option Bool)
    (d q : Graph) :
    ∀ (us : List Nat) (cands : Candidates) (valid : List (List Bool))
      (out : Candidates × List (List Bool)),
      us.Nodup →
      gql_pass test d q us cands valid = some out →
      out.1.length = cands.length ∧
      ValidDesc valid out.2 ∧
      (∀ u, u ∉ us → out.1.getD u [] = cands.getD u []) ∧
      (∀ u ∈ us, ∃ vin p, ValidDesc valid vin ∧
        gql_refine_row test d q u (cands.getD u []) vin = some p ∧
        out.1.getD u [] = p.1) := by
  intro us
  induction us with
  | nil =>
    intro cands valid out _ h
    have : out = (cands, valid) := by
      rw [gql_pass] at h
      simpa using h.symm
    subst this
    exact ⟨rfl, ValidDesc_refl _, fun u _ => rfl, fun u hu => absurd hu (by simp)⟩
  | cons u rest ih =>
    intro cands valid out hnd h
    rw [gql_pass] at h
    cases hr : cands.get? u with
    | none => rw [hr] at h; simp at h
    | some row =>
      rw [hr] at h
      simp only [Option.bind_eq_bind, Option.some_bind] at h
      cases hp : gql_refine_row test d q u row valid with
      | none => rw [hp] at h; simp at h
      | some p =>
        rw [hp] at h
        simp only [Option.some_bind] at h
        have hul : u < cands.length := by
          by_contra hc
          rw [List.get?_eq_getElem?, List.getElem?_eq_none (by omega)] at hr
          exact absurd hr (by simp)
        have hrowd : cands.getD u [] = row := by
          rw [List.getD_eq_getElem?_getD, ← List.get?_eq_getElem?, hr]
          rfl
        obtain ⟨hrl, hrdesc, hrkeep⟩ := gql_refine_row_spec test d q u row valid p hp
        obtain ⟨hlen, hdesc, huntouched, hproc⟩ :=
          ih (cands.set u p.1) p.2 out (List.Nodup.of_cons hnd) h
        have hu_nin : u ∉ rest := (List.nodup_cons.mp hnd).1
        refine ⟨by rw [hlen, List.length_set], ValidDesc_trans _ _ _ hrdesc hdesc, ?_, ?_⟩
        · intro u' hu'
          have hne : u' ≠ u := fun hc => hu' (hc ▸ List.mem_cons_self _ _)
          rw [huntouched u' (fun hc => hu' (List.mem_cons_of_mem _ hc)),
            getD_set_ne _ _ _ _ _ hne]
        · intro u' hu'
          rcases List.mem_cons.mp hu' with heq | htail
          · subst heq
            refine ⟨valid, p, ValidDesc_refl _, by rw [hrowd]; exact hp, ?_⟩
            rw [huntouched u' hu_nin, getD_set_self _ _ _ _ hul]
          · obtain ⟨vin, p', hv1, hv2, hv3⟩ := hproc u' htail
            have hne : u' ≠ u := fun hc => hu_nin (hc ▸ htail)
            rw [getD_set_ne _ _ _ _ _ hne] at hv2
            exact ⟨vin, p', ValidDesc_trans _ _ _ hrdesc hv1, hv2, hv3⟩

/-- A neighbour slice is no longer than the full neighbour array. -/
theorem neighbors?_length_le (g : Graph) (u : Nat) (nb : List Nat)
    (h : g.neighbors? u = some nb) : nb.length ≤ g.neighbors.length := by
  unfold Graph.neighbors? at h
  cases ha : g.offsets.get? u with
  | none => rw [ha] at h; simp at h
  | some a =>
    rw [ha] at h
    simp only [Option.bind_eq_bind, Option.some_bind] at h
    cases hb : g.offsets.get? (u + 1) with
    | none => rw [hb] at h; simp at h
    | some b =>
      rw [hb] at h
      simp only [Option.some_bind] at h
      unfold listSlice at h
      by_cases hc : a ≤ b ∧ b ≤ g.neighbors.length
      · rw [if_pos hc] at h
        have : (g.neighbors.drop a).take (b - a) = nb := by simpa using h
        rw [← this]
        calc ((g.neighbors.drop a).take (b - a)).length
            ≤ (g.neighbors.drop a).length := by
              rw [List.length_take]
              omega
          _ ≤ g.neighbors.length := by
              rw [List.length_drop]
              omega
      · rw [if_neg hc] at h
        exact absurd h (by simp)

/-- A successful `nodes_by_label` lookup bounds the label against the
offset array. -/
theorem nodes_by_label?_succ_lt (g : Graph) (l : Nat) (row : List Nat)
    (h : g.nodes_by_label? l = some row) : l + 1 < g.label_index_offsets.length := by
  unfold Graph.nodes_by_label? at h
  cases ha : g.label_index_offsets.get? l with
  | none => rw [ha] at h; simp at h
  | some a =>
    rw [ha] at h
    simp only [Option.bind_eq_bind, Option.some_bind] at h
    cases hb : g.label_index_offsets.get? (l + 1) with
    | none => rw [hb] at h; simp at h
    | some b =>
      rw [List.get?_eq_getElem?] at hb
      by_contra hc
      rw [List.getElem?_eq_none (by omega)] at hb
      exact absurd hb (by simp)

/-- An in-range member has an index reachable by `getD`. -/
theorem mem_index_getD (l : List Nat) (v : Nat) (h : v ∈ l) :
    ∃ i, i < l.length ∧ l.getD i 0 = v := by
  obtain ⟨i, hi, he⟩ := List.getElem_of_mem h
  refine ⟨i, hi, ?_⟩
  rw [List.getD_eq_getElem?_getD, List.getElem?_eq_getElem hi]
  exact he

/-- `get?` success read back through `getD`. -/
theorem get?_some_getD {α : Type} (l : List α) (i : Nat) (x d : α)
    (h : l.get? i = some x) : l.getD i d = x := by
  rw [List.getD_eq_getElem?_getD, ← List.get?_eq_getElem?, h]
  rfl

/-- A passed `gql_test` yields an injective choice of one bigraph-row
entry per left vertex: the computed matching, read off `left_mapping`. -/
theorem gql_test_matching (d q : Graph) (valid : List (List Bool)) (u v : Nat)
    (qnbrs dnbrs : List Nat) (bg : List (List Nat))
    (hqn : q.neighbors? u = some qnbrs) (hdn : d.neighbors? v = some dnbrs)
    (hbg : compute_bipartite_graph qnbrs dnbrs valid = some bg)
    (hqk : qnbrs.length ≤ NOT_FOUND) (hdk : dnbrs.length ≤ NOT_FOUND)
    (htest : gql_test d q valid u v = some true) :
    ∃ m : Nat → Nat, (∀ l, l < qnbrs.length → m l ∈ bg.getD l []) ∧
      (∀ l1 l2, l1 < qnbrs.length → l2 < qnbrs.length → m l1 = m l2 → l1 = l2) := by
  unfold gql_test at htest
  rw [hqn] at htest
  simp only [Option.bind_eq_bind, Option.some_bind] at htest
  rw [hdn] at htest
  simp only [Option.some_bind] at htest
  rw [hbg] at htest
  simp only [Option.some_bind, Option.pure_def, Option.some.injEq] at htest
  obtain ⟨hbglen, hbgrows⟩ := compute_bipartite_graph_spec qnbrs dnbrs valid bg hbg
  have hrows : ∀ l, ∀ r ∈ bg.getD l [], r ≠ NOT_FOUND := by
    intro l r hr
    by_cases hl : l < bg.length
    · obtain ⟨hlt, _⟩ := hbgrows l (by omega) r hr
      exact Nat.ne_of_lt (lt_of_lt_of_le hlt hdk)
    · rw [getD_default bg l [] (by omega)] at hr
      exact absurd hr (by simp)
  have hlenNF : bg.length ≤ NOT_FOUND := by rw [hbglen]; exact hqk
  have hmc : MCoh bg (match_bfs bg (match_cheap bg matchInit)) :=
    match_bfs_mcoh bg hrows hlenNF _
      (match_cheap_mcoh bg hrows hlenNF matchInit (matchInit_mcoh bg) (fun l _ => rfl))
  have hsemi : ∀ l, l < qnbrs.length →
      (match_bfs bg (match_cheap bg matchInit)).lm l ≠ NOT_FOUND := by
    intro l hl
    unfold is_semi_perfect_matching at htest
    rw [List.all_eq_true] at htest
    have h2 := htest l (List.mem_range.mpr hl)
    simpa using h2
  obtain ⟨_, _, hcl2, _⟩ := hmc
  refine ⟨(match_bfs bg (match_cheap bg matchInit)).lm, ?_, ?_⟩
  · intro l hl
    exact (hcl2 l (hsemi l hl)).1
  · intro l1 l2 h1 h2 heq
    have e1 := (hcl2 l1 (hsemi l1 h1)).2
    have e2 := (hcl2 l2 (hsemi l2 h2)).2
    rw [heq] at e1
    exact e1.symm.trans e2

/-- A row of `compact()`. -/
theorem compact_row (c : Candidates) (u : Nat) (h : u < c.length) :
    (compactCands c).getD u [] =
      (c.getD u []).filter (fun v => v ≠ INVALID_NODE_ID) := by
  unfold compactCands
  rw [List.getD_eq_getElem?_getD, List.getElem?_map, List.getElem?_eq_getElem h,
    List.getD_eq_getElem?_getD, List.getElem?_eq_getElem h]
  rfl

/-- Every survivor of the GQL filter is an LDF candidate that passed the
`match_cheap`/`match_bfs` feasibility test against a bitmap dominated by
the LDF candidate structure. -/
theorem gql_survivor (d q : Graph) (L G : Candidates)
    (hldf : ldf_filter d q = some (some L))
    (hgql : gql_filter d q = some (some G)) :
    ∀ u v, v ∈ G.getD u [] →
      u < q.node_count ∧ v ∈ L.getD u [] ∧ v ≠ INVALID_NODE_ID ∧
      ∃ vt, ValidSub L vt ∧ gql_test d q vt u v = some true := by
  have hL : L.length = q.node_count := by
    obtain ⟨hlen, _, _⟩ := ldf_filter_go_spec d q (List.range q.node_count) [] L
      (by unfold ldf_filter at hldf; exact hldf)
    simpa using hlen
  unfold gql_filter at hgql
  rw [hldf] at hgql
  simp only [Option.bind_eq_bind, Option.some_bind] at hgql
  unfold gql_refine at hgql
  cases hv0 : build_valid d.node_count L with
  | none => rw [hv0] at hgql; simp at hgql
  | some valid0 =>
    rw [hv0] at hgql
    simp only [Option.bind_eq_bind, Option.some_bind] at hgql
    cases hp1 : gql_pass gql_test d q (List.range q.node_count) L valid0 with
    | none => rw [hp1] at hgql; simp at hgql
    | some p1 =>
      rw [hp1] at hgql
      simp only [Option.some_bind] at hgql
      cases hp2 : gql_pass gql_test d q (List.range q.node_count) p1.1 p1.2 with
      | none => rw [hp2] at hgql; simp at hgql
      | some p2 =>
        rw [hp2] at hgql
        simp only [Option.some_bind, Option.pure_def, Option.some.injEq] at hgql
        have hG : G = compactCands p2.1 := by
          by_cases hcv : candidatesValid (compactCands p2.1) = true
          · rw [if_pos hcv] at hgql
            exact (by simpa using hgql.symm)
          · rw [if_neg hcv] at hgql
            exact absurd hgql (by simp)
        obtain ⟨hlen1, hdesc1, hun1, hproc1⟩ :=
          gql_pass_spec gql_test d q (List.range q.node_count) L valid0 p1
            (List.nodup_range _) hp1
        obtain ⟨hlen2, hdesc2, hun2, hproc2⟩ :=
          gql_pass_spec gql_test d q (List.range q.node_count) p1.1 p1.2 p2
            (List.nodup_range _) hp2
        have hup2 : p2.1.length = q.node_count := by rw [hlen2, hlen1, hL]
        intro u v hvG
        have hu : u < q.node_count := by
          by_contra hc
          rw [hG] at hvG
          rw [getD_default (compactCands p2.1) u []
            (by unfold compactCands; rw [List.length_map]; omega)] at hvG
          exact absurd hvG (by simp)
        rw [hG, compact_row p2.1 u (by omega)] at hvG
        obtain ⟨hmem2, hpred⟩ := List.mem_filter.mp hvG
        have hne : v ≠ INVALID_NODE_ID := by simpa using hpred
        obtain ⟨vin2, q2, hv2desc, hq2ref, hq2row⟩ := hproc2 u (List.mem_range.mpr hu)
        rw [hq2row] at hmem2
        obtain ⟨i2, hi2, hgd2⟩ := mem_index_getD q2.1 v hmem2
        obtain ⟨hq2len, _, hq2keep⟩ :=
          gql_refine_row_spec gql_test d q u (p1.1.getD u []) vin2 q2 hq2ref
        obtain ⟨hkeq, vt, hvtdesc, hvttest⟩ := hq2keep i2 (by omega)
          (by rw [hgd2]; exact hne)
        have hveq : (p1.1.getD u []).getD i2 0 = v := by
          rw [← hkeq]
          exact hgd2
        have hv1 : v ∈ p1.1.getD u [] := by
          rw [← hveq]
          exact getD_mem_of_lt _ i2 0 (by omega)
        obtain ⟨vin1, q1, hv1desc, hq1ref, hq1row⟩ := hproc1 u (List.mem_range.mpr hu)
        rw [hq1row] at hv1
        obtain ⟨i1, hi1, hgd1⟩ := mem_index_getD q1.1 v hv1
        obtain ⟨hq1len, _, hq1keep⟩ :=
          gql_refine_row_spec gql_test d q u (L.getD u []) vin1 q1 hq1ref
        obtain ⟨hkeq1, _⟩ := hq1keep i1 (by omega) (by rw [hgd1]; exact hne)
        have hvL : v ∈ L.getD u [] := by
          rw [show v = (L.getD u []).getD i1 0 by rw [← hkeq1]; exact hgd1.symm]
          exact getD_mem_of_lt _ i1 0 (by omega)
        refine ⟨hu, hvL, hne, vt, ?_, ?_⟩
        · intro a b hb
          exact build_valid_sub d.node_count L valid0 hv0 a b
            (hdesc1 a b (hv2desc a b (hvtdesc a b hb)))
        · rw [hveq] at hvttest
          exact hvttest

/-- A passed GQL feasibility test forces the NLF conditions: the
saturating matching maps the neighbours of `u` injectively onto
same-labelled neighbours of `v`, so every per-label count of `N(u)` is
dominated and the label set of `N(u)` embeds into that of `N(v)`. -/
theorem gql_test_implies_nlf (d q : Graph) (L : Candidates) (u v : Nat)
    (hqnr : q.NbrsInRange) (hLBL : d.LabelIndexWf)
    (hNq : q.NlfWf) (hNd : d.NlfWf)
    (hqk : q.neighbors.length ≤ NOT_FOUND) (hdk : d.neighbors.length ≤ NOT_FOUND)
    (hu : u < q.node_count) (hvd : v < d.node_count)
    (hldfrows : ∀ a, a < q.node_count →
      ∃ lbl deg nbl, q.label? a = some lbl ∧ q.degree? a = some deg ∧
        d.nodes_by_label? lbl = some nbl ∧
        L.getD a [] = nbl.filter (fun w => decide (deg ≤ d.degreeD w)))
    (vt : List (List Bool)) (hsub : ValidSub L vt)
    (htest : gql_test d q vt u v = some true) :
    (q.nlf.getD u []).length ≤ (d.nlf.getD v []).length ∧
    nlf_is_valid (q.nlf.getD u []) (d.nlf.getD v []) = true := by
  have htest' := htest
  unfold gql_test at htest'
  cases hqn : q.neighbors? u with
  | none => rw [hqn] at htest'; simp at htest'
  | some qnbrs =>
  rw [hqn] at htest'
  simp only [Option.bind_eq_bind, Option.some_bind] at htest'
  cases hdn : d.neighbors? v with
  | none => rw [hdn] at htest'; simp at htest'
  | some dnbrs =>
  rw [hdn] at htest'
  simp only [Option.some_bind] at htest'
  cases hbg : compute_bipartite_graph qnbrs dnbrs vt with
  | none => rw [hbg] at htest'; simp at htest'
  | some bg =>
  have hqk' : qnbrs.length ≤ NOT_FOUND :=
    le_trans (neighbors?_length_le q u qnbrs hqn) hqk
  have hdk' : dnbrs.length ≤ NOT_FOUND :=
    le_trans (neighbors?_length_le d v dnbrs hdn) hdk
  obtain ⟨m, hm_edge, hm_inj⟩ :=
    gql_test_matching d q vt u v qnbrs dnbrs bg hqn hdn hbg hqk' hdk' htest
  obtain ⟨hbglen, hbgrows⟩ := compute_bipartite_graph_spec qnbrs dnbrs vt bg hbg
  have hqnbrsD : q.neighborsD u = qnbrs := by
    unfold Graph.neighborsD
    rw [hqn]
    rfl
  have hdnbrsD : d.neighborsD v = dnbrs := by
    unfold Graph.neighborsD
    rw [hdn]
    rfl
  have hm_lt : ∀ l, l < qnbrs.length → m l < dnbrs.length := by
    intro l hl
    exact (hbgrows l hl (m l) (hm_edge l hl)).1
  have hlabm : ∀ l, l < qnbrs.length →
      d.labels.getD (dnbrs.getD (m l) 0) 0 = q.labels.getD (qnbrs.getD l 0) 0 := by
    intro l hl
    obtain ⟨hmlt, hbit⟩ := hbgrows l hl (m l) (hm_edge l hl)
    have ha_lt : qnbrs.getD l 0 < q.node_count :=
      hqnr u hu (qnbrs.getD l 0) (by rw [hqnbrsD]; exact getD_mem_of_lt _ l 0 hl)
    obtain ⟨lbl, deg, nbl, hla, hda, hnba, hrowa⟩ := hldfrows (qnbrs.getD l 0) ha_lt
    have hwL : dnbrs.getD (m l) 0 ∈ L.getD (qnbrs.getD l 0) [] :=
      hsub (qnbrs.getD l 0) (dnbrs.getD (m l) 0) hbit
    rw [hrowa] at hwL
    have hwnbl : dnbrs.getD (m l) 0 ∈ nbl := (List.mem_filter.mp hwL).1
    have hnblD : (d.nodes_by_label? lbl).getD [] = nbl := by rw [hnba]; rfl
    obtain ⟨_, hwlab⟩ := hLBL lbl
      (by have := nodes_by_label?_succ_lt d lbl nbl hnba; omega)
      (dnbrs.getD (m l) 0) (by rw [hnblD]; exact hwnbl)
    rw [hwlab]
    unfold Graph.label? at hla
    rw [get?_some_getD _ _ _ 0 hla]
  have hcnt : ∀ lab,
      ((qnbrs.map (fun w => q.labels.getD w 0)).count lab) ≤
      ((dnbrs.map (fun w => d.labels.getD w 0)).count lab) :=
    count_le_of_inj _ _ qnbrs dnbrs m hm_lt hm_inj hlabm
  have hqcount : ∀ lab, nbr_label_count q u lab =
      (qnbrs.map (fun w => q.labels.getD w 0)).count lab := by
    intro lab
    unfold nbr_label_count
    rw [hqnbrsD]
  have hdcount : ∀ lab, nbr_label_count d v lab =
      (dnbrs.map (fun w => d.labels.getD w 0)).count lab := by
    intro lab
    unfold nbr_label_count
    rw [hdnbrsD]
  obtain ⟨hqkeys, hqentries, _⟩ := hNq.2 u hu
  obtain ⟨_, hdentries, hdcover⟩ := hNd.2 v hvd
  have hall : ∀ p ∈ q.nlf.getD u [],
      ∃ c2, (d.nlf.getD v []).lookup p.1 = some c2 ∧ p.2 ≤ c2 := by
    intro p hp
    obtain ⟨hc_eq, hc_pos⟩ := hqentries p hp
    have hdom : nbr_label_count q u p.1 ≤ nbr_label_count d v p.1 := by
      rw [hqcount, hdcount]
      exact hcnt p.1
    have hd_pos : 0 < (dnbrs.map (fun w => d.labels.getD w 0)).count p.1 := by
      rw [← hdcount]
      omega
    have hmem : p.1 ∈ dnbrs.map (fun w => d.labels.getD w 0) :=
      List.count_pos_iff_mem.mp hd_pos
    obtain ⟨w, hw_mem, hw_lab⟩ := List.mem_map.mp hmem
    have hcov := hdcover w (by rw [hdnbrsD]; exact hw_mem)
    rw [hw_lab] at hcov
    cases hlk : (d.nlf.getD v []).lookup p.1 with
    | none => exact absurd hlk hcov
    | some c2 =>
      obtain ⟨hc2_eq, _⟩ := hdentries (p.1, c2) (lookup_some_mem _ _ _ hlk)
      refine ⟨c2, rfl, ?_⟩
      simp only at hc2_eq
      omega
  constructor
  · apply keys_len_le _ _ hqkeys
    intro lab hlab
    obtain ⟨p, hp, hpl⟩ := List.mem_map.mp hlab
    obtain ⟨c2, hlk, _⟩ := hall p hp
    rw [← hpl]
    exact List.mem_map.mpr ⟨(p.1, c2), lookup_some_mem _ _ _ hlk, rfl⟩
  · unfold nlf_is_valid
    apply foldl_overwrite_true _ _ true rfl
    intro p hp
    obtain ⟨c2, hlk, hle⟩ := hall p hp
    rw [hlk]
    exact decide_eq_true hle

/-- **C5**.  The candidate sets of the three filters are nested for
every query node: NLF ⊆ LDF by construction (the NLF row filters the
same label-indexed list by strictly more conditions), and GQL ⊆ NLF
because a GQL survivor's saturating matching injects `N(u)` into
same-labelled neighbours of `v`, which forces every (even the buggy,
overwritten) per-label dominance check and the map-size check of the
NLF filter to pass.  The graph well-formedness hypotheses tie the
derived structures (label index, neighbour-label-frequency maps) to the
adjacency they cache, as the loader guarantees. -/
theorem c5_filter_nesting (d q : Graph) (L N G : Candidates)
    (hqnr : q.NbrsInRange) (hLBL : d.LabelIndexWf)
    (hNq : q.NlfWf) (hNd : d.NlfWf)
    (hqk : q.neighbors.length ≤ NOT_FOUND) (hdk : d.neighbors.length ≤ NOT_FOUND)
    (hldf : ldf_filter d q = some (some L))
    (hnlf : nlf_filter_ d q = some (some N))
    (hgql : gql_filter d q = some (some G)) :
    ∀ u, u < q.node_count →
      (∀ v ∈ N.getD u [], v ∈ L.getD u []) ∧
      (∀ v ∈ G.getD u [], v ∈ N.getD u []) := by
  obtain ⟨hLlen, _, hLrows⟩ := ldf_filter_go_spec d q (List.range q.node_count) [] L
    (by unfold ldf_filter at hldf; exact hldf)
  have hldfrows : ∀ a, a < q.node_count →
      ∃ lbl deg nbl, q.label? a = some lbl ∧ q.degree? a = some deg ∧
        d.nodes_by_label? lbl = some nbl ∧
        L.getD a [] = nbl.filter (fun w => decide (deg ≤ d.degreeD w)) := by
    intro a ha
    obtain ⟨lbl, deg, nbl, h1, h2, h3, h4⟩ := hLrows a (by simpa using ha)
    rw [range_getD _ _ ha] at h1 h2
    simp only [List.length_nil, Nat.zero_add] at h4
    exact ⟨lbl, deg, nbl, h1, h2, h3, h4⟩
  obtain ⟨hNlen, _, hNrows⟩ := nlf_filter_go_spec d q (List.range q.node_count) [] N
    (by unfold nlf_filter_ at hnlf; exact hnlf)
  intro u hu
  obtain ⟨lblL, degL, nblL, hlL, hdL, hnL, hrowL⟩ := hldfrows u hu
  obtain ⟨lblN, degN, qnlfN, nblN, hlN, hdN, hqN, hnN, hrowN⟩ := hNrows u
    (by simpa using hu)
  rw [range_getD _ _ hu] at hlN hdN hqN
  simp only [List.length_nil, Nat.zero_add] at hrowN
  have helbl : lblN = lblL := by
    rw [hlL] at hlN
    exact (Option.some.injEq _ _ |>.mp hlN).symm
  have hedeg : degN = degL := by
    rw [hdL] at hdN
    exact (Option.some.injEq _ _ |>.mp hdN).symm
  have henbl : nblN = nblL := by
    rw [helbl, hnL] at hnN
    exact (Option.some.injEq _ _ |>.mp hnN).symm
  constructor
  · intro v hv
    rw [hrowN] at hv
    obtain ⟨hmem, hpred⟩ := List.mem_filter.mp hv
    rw [hrowL]
    apply List.mem_filter.mpr
    refine ⟨by rw [← henbl]; exact hmem, ?_⟩
    have hdg := ((Bool.and_eq_true _ _).mp hpred).1
    rw [hedeg] at hdg
    exact hdg
  · intro v hvG
    obtain ⟨_, hvL, hne, vt, hsub, htest⟩ := gql_survivor d q L G hldf hgql u v hvG
    have hvL' := hvL
    rw [hrowL] at hvL'
    obtain ⟨hvnbl, hvdeg⟩ := List.mem_filter.mp hvL'
    have hnblD : (d.nodes_by_label? lblL).getD [] = nblL := by
      rw [hnL]
      rfl
    obtain ⟨hvd, _⟩ := hLBL lblL
      (by have := nodes_by_label?_succ_lt d lblL nblL hnL; omega)
      v (by rw [hnblD]; exact hvnbl)
    obtain ⟨hlen_cond, hvalid_cond⟩ := gql_test_implies_nlf d q L u v hqnr hLBL hNq hNd
      hqk hdk hu hvd hldfrows vt hsub htest
    have hq_nlf_eq : qnlfN = q.nlf.getD u [] := by
      unfold Graph.neighbor_label_frequency? at hqN
      exact (get?_some_getD _ _ _ [] hqN).symm
    have hd_nlf_eq : (d.neighbor_label_frequency? v).getD [] = d.nlf.getD v [] := by
      unfold Graph.neighbor_label_frequency?
      have hvn : v < d.nlf.length := by rw [hNd.1]; omega
      rw [List.get?_eq_getElem?, List.getElem?_eq_getElem hvn,
        List.getD_eq_getElem?_getD, List.getElem?_eq_getElem hvn]
    rw [hrowN]
    apply List.mem_filter.mpr
    refine ⟨by rw [henbl]; exact hvnbl, ?_⟩
    simp only [Bool.and_eq_true, decide_eq_true_eq]
    refine ⟨?_, ?_, ?_⟩
    · rw [hedeg]
      simpa using hvdeg
    · rw [hd_nlf_eq, hq_nlf_eq]
      exact hlen_cond
    · rw [hd_nlf_eq, hq_nlf_eq]
      exact hvalid_cond

/-- **C5** witness: on `exG` and the line query `exQ2` the three filters
return candidates and the nesting holds at every query node (here the
three sets coincide). -/
theorem c5_filter_nesting_witness :
    (0 : Nat) < exQ2.node_count ∧
    (2 : Nat) ∈ ([[2, 4], [1, 3], [1, 3]] : Candidates).getD 0 [] :=
  ⟨by decide,
    (c5_filter_nesting exG exQ2 [[2, 4], [1, 3], [1, 3]] [[2, 4], [1, 3], [1, 3]]
      [[2, 4], [1, 3], [1, 3]]
      (by unfold Graph.NbrsInRange; decide)
      (by unfold Graph.LabelIndexWf; decide)
      (by unfold Graph.NlfWf; decide)
      (by unfold Graph.NlfWf; decide)
      (by decide) (by decide) (by decide) (by decide) (by decide)
      0 (by decide)).1 2 (by decide)⟩

/-- Correctness of the brute-force saturating-matching check: it
succeeds exactly when one right vertex per row can be chosen injectively
avoiding the `used` list. -/
theorem sat_matchable_go_iff :
    ∀ (rows : List (List Nat)) (used : List Nat),
      sat_matchable_go rows used = true ↔
      ∃ f : Fin rows.length → Nat, Function.Injective f ∧
        (∀ i, f i ∈ rows.get i) ∧ (∀ i, f i ∉ used) := by
  intro rows
  induction rows with
  | nil =>
    intro used
    constructor
    · intro _
      exact ⟨fun i => 0, fun i => absurd i.isLt (Nat.not_lt_zero _),
        fun i => absurd i.isLt (Nat.not_lt_zero _),
        fun i => absurd i.isLt (Nat.not_lt_zero _)⟩
    · intro _
      rfl
  | cons row rest ih =>
    intro used
    simp only [sat_matchable_go, List.any_eq_true, Bool.and_eq_true, Bool.not_eq_true']
    constructor
    · intro ⟨r, hr_mem, hr_used, hr_go⟩
      obtain ⟨f', hinj', hmem', havoid'⟩ := (ih (r :: used)).mp hr_go
      refine ⟨Fin.cases r f', ?_, ?_, ?_⟩
      · intro i j
        refine Fin.cases ?_ ?_ i
        · refine Fin.cases ?_ ?_ j
          · intro _
            rfl
          · intro j' hj
            simp only [Fin.cases_zero, Fin.cases_succ] at hj
            exact absurd (by rw [← hj]; exact List.mem_cons_self r used) (havoid' j')
        · intro i'
          refine Fin.cases ?_ ?_ j
          · intro hj
            simp only [Fin.cases_succ, Fin.cases_zero] at hj
            exact absurd (by rw [hj]; exact List.mem_cons_self r used) (havoid' i')
          · intro j' hj
            simp only [Fin.cases_succ] at hj
            rw [hinj' hj]
      · intro i
        refine Fin.cases ?_ ?_ i <;> clear i
        · simp only [Fin.cases_zero]
          exact hr_mem
        · intro i
          simp only [Fin.cases_succ]
          exact hmem' i
      · intro i
        refine Fin.cases ?_ ?_ i <;> clear i
        · simp only [Fin.cases_zero]
          intro hc
          have hct : used.contains r = true := by simpa using hc
          rw [hct] at hr_used
          exact absurd hr_used (by simp)
        · intro i
          simp only [Fin.cases_succ]
          intro hc
          exact (havoid' i) (List.mem_cons_of_mem _ hc)
    · intro ⟨f, hinj, hmem, havoid⟩
      have hz : (0 : Nat) < (row :: rest).length := Nat.succ_pos _
      refine ⟨f ⟨0, hz⟩, hmem ⟨0, hz⟩, ?_, ?_⟩
      · simpa using havoid ⟨0, hz⟩
      · apply (ih (f ⟨0, hz⟩ :: used)).mpr
        refine ⟨fun i => f i.succ, ?_, ?_, ?_⟩
        · intro i j hij
          have := hinj hij
          exact Fin.succ_injective _ this
        · intro i
          exact hmem i.succ
        · intro i
          intro hc
          rcases List.mem_cons.mp hc with h0 | htail
          · have hv := congrArg Fin.val (hinj h0)
            simp at hv
          · exact (havoid i.succ) htail

/-- The executable check agrees with the specification predicate. -/
theorem sat_matchable_iff_SatM (rows : List (List Nat)) :
    sat_matchable rows = true ↔ SatM rows := by
  unfold sat_matchable SatM
  rw [sat_matchable_go_iff]
  constructor
  · intro ⟨f, hinj, hmem, _⟩
    exact ⟨f, hinj, hmem⟩
  · intro ⟨f, hinj, hmem⟩
    exact ⟨f, hinj, hmem, fun i => by simp⟩

/-- Transfer of the pruning invariant along a state change that never
clears `visited` marks, writes `visited` only with non-sentinel values,
and rewires `right_mapping` only at non-excluded rights, to in-range
left indices. -/
theorem PruneInv_transfer (rows : List (List Nat)) (st st' : MState)
    (hvNF : ∀ r, st.vis r = NOT_FOUND → st'.vis r = NOT_FOUND)
    (hvW : ∀ r, st'.vis r ≠ st.vis r → st'.vis r ≠ NOT_FOUND)
    (hrmP : ∀ r, st'.rm r ≠ st.rm r → st.vis r ≠ NOT_FOUND)
    (hrmB : ∀ r, st'.rm r ≠ st.rm r → st'.rm r < rows.length)
    (hp : PruneInv rows st) : PruneInv rows st' := by
  obtain ⟨hcl, hrmb⟩ := hp
  constructor
  · intro r hr
    have hst : st.vis r = NOT_FOUND := by
      by_cases he : st'.vis r = st.vis r
      · rw [← he]
        exact hr
      · exact absurd hr (hvW r he)
    have hrm_eq : st'.rm r = st.rm r := by
      by_contra hc
      exact (hrmP r hc) hst
    obtain ⟨h1, h2⟩ := hcl r hst
    rw [hrm_eq]
    exact ⟨h1, fun t ht => hvNF t (h2 t ht)⟩
  · intro r hr
    by_cases he : st'.rm r = st.rm r
    · rw [he] at hr ⊢
      exact hrmb r hr
    · exact hrmB r he

/-- The row scan of `match_bfs`, with the full pruning bookkeeping:
`visited` marks are only added (with the current round id), a completed
scan leaves the mappings untouched and every row entry visited or
excluded, and a successful scan augments along the found path without
rewiring any excluded right vertex. -/
theorem scan_row_prune (rows : List (List Nat))
    (hrows : ∀ l, ∀ r ∈ rows.getD l [], r ≠ NOT_FOUND) (next : Nat) :
    ∀ (row : List Nat) (st : MState) (queue : List Nat) (i0 : Nat),
      MCoh rows st → BInv rows st queue → PruneInv rows st →
      VisScope st queue → QBound rows queue →
      st.augId ≠ NOT_FOUND →
      i0 < queue.length → queue.getD i0 0 = next →
      (∀ t ∈ row, t ∈ rows.getD next []) →
      MCoh rows (scan_row next row st queue).1 ∧
      (∀ r, st.vis r = NOT_FOUND → (scan_row next row st queue).1.vis r = NOT_FOUND) ∧
      (∀ r, (scan_row next row st queue).1.vis r ≠ st.vis r →
        (scan_row next row st queue).1.vis r = st.augId) ∧
      ((scan_row next row st queue).2.2 = false →
        (scan_row next row st queue).1.lm = st.lm ∧
        (scan_row next row st queue).1.rm = st.rm ∧
        (scan_row next row st queue).1.augId = st.augId ∧
        BInv rows (scan_row next row st queue).1 (scan_row next row st queue).2.1 ∧
        VisScope (scan_row next row st queue).1 (scan_row next row st queue).2.1 ∧
        QBound rows (scan_row next row st queue).2.1 ∧
        queue.length ≤ (scan_row next row st queue).2.1.length ∧
        (∀ i, i < queue.length →
          (scan_row next row st queue).2.1.getD i 0 = queue.getD i 0) ∧
        (∀ t ∈ row, (scan_row next row st queue).1.vis t = st.augId ∨
          (scan_row next row st queue).1.vis t = NOT_FOUND)) ∧
      ((scan_row next row st queue).2.2 = true →
        (scan_row next row st queue).1.augId = st.augId + 1 ∧
        (scan_row next row st queue).1.lm (queue.getD 0 0) ≠ NOT_FOUND ∧
        (∀ l, st.lm l ≠ NOT_FOUND → (scan_row next row st queue).1.lm l ≠ NOT_FOUND) ∧
        (∀ l, (scan_row next row st queue).1.lm l ≠ st.lm l →
          l = queue.getD 0 0 ∨ st.lm l ≠ NOT_FOUND) ∧
        (∀ r, (scan_row next row st queue).1.rm r ≠ st.rm r → st.vis r ≠ NOT_FOUND) ∧
        (∀ r, (scan_row next row st queue).1.rm r ≠ st.rm r →
          (scan_row next row st queue).1.rm r < rows.length)) := by
  intro row
  induction row with
  | nil =>
    intro st queue i0 hmc hbinv hpr hvsc hqb hane hi0 hqi0 hsub
    refine ⟨hmc, fun r hr => hr, fun r hr => absurd rfl hr, ?_, ?_⟩
    · intro _
      exact ⟨rfl, rfl, rfl, hbinv, hvsc, hqb, le_refl _, fun i hi => rfl,
        fun t ht => absurd ht (List.not_mem_nil t)⟩
    · intro h
      exact absurd h (by simp [scan_row])
  | cons target rest ihr =>
    intro st queue i0 hmc hbinv hpr hvsc hqb hane hi0 hqi0 hsub
    obtain ⟨hqne, hqnd, hqnf, hroot, hchain⟩ := hbinv
    obtain ⟨hlmnf, hrmnf, hcl2, hcl3⟩ := hmc
    have htmem : target ∈ rows.getD next [] := hsub target (List.mem_cons_self _ _)
    have htne : target ≠ NOT_FOUND := hrows next target htmem
    have hq0 : 0 < queue.length := List.length_pos.mpr hqne
    by_cases hg : st.vis target ≠ st.augId ∧ st.vis target ≠ NOT_FOUND
    · have hlm_ne_t : ∀ i, 1 ≤ i → i < queue.length →
          st.lm (queue.getD i 0) ≠ target := by
        intro i h1 hi heq
        have hc := (hchain i h1 hi).2.1
        rw [heq] at hc
        exact hg.1 hc
      by_cases hcolnf : st.rm target = NOT_FOUND
      · simp only [scan_row, if_pos hg]
        rw [if_pos hcolnf]
        have haug := augment_ok rows queue st.lm (upd st.pred target next)
          hqnf hqnd hroot
          (by
            intro i h1 hi
            obtain ⟨ha, hb, j, hj, hc, hd⟩ := hchain i h1 hi
            exact ⟨ha, j, hj, by rw [upd_ne _ _ _ _ (hlm_ne_t i h1 hi)]; exact hc, hd⟩)
          i0
          { st with pred := upd st.pred target next, vis := upd st.vis target st.augId }
          target (queue.length + 1)
          rfl (fun i _ _ => rfl) hlmnf hrmnf hcl2 (fun r _ hr => hcl3 r hr)
          (Or.inl hcolnf) htne hi0
          (by rw [upd_self]; exact hqi0.symm)
          (by rw [hqi0]; exact htmem)
          (by omega)
        obtain ⟨hm, hrootm, hpres, hvis2, _, hai2, hc7, hc8, hc9⟩ := haug
        refine ⟨hm, ?_, ?_, ?_, ?_⟩
        · intro r hr
          show (augment_loop (queue.length + 1) target _).vis r = NOT_FOUND
          rw [hvis2]
          show upd st.vis target st.augId r = NOT_FOUND
          have hrt : r ≠ target := fun he => hg.2 (he ▸ hr)
          rw [upd_ne _ _ _ _ hrt]
          exact hr
        · intro r hr
          show (augment_loop (queue.length + 1) target _).vis r = st.augId
          rw [hvis2] at hr ⊢
          have hr' : upd st.vis target st.augId r ≠ st.vis r := hr
          show upd st.vis target st.augId r = st.augId
          by_cases hrt : r = target
          · subst hrt
            exact upd_self _ _ _
          · rw [upd_ne _ _ _ _ hrt] at hr'
            exact absurd rfl hr'
        · intro h
          exact absurd h (by simp)
        · intro _
          refine ⟨?_, hrootm, hpres, ?_, ?_, ?_⟩
          · show (augment_loop (queue.length + 1) target _).augId + 1 = st.augId + 1
            rw [hai2]
          · intro l hl
            obtain ⟨i, hile, heq⟩ := hc9 l hl
            rcases Nat.eq_zero_or_pos i with h0 | hpos
            · subst h0
              exact Or.inl heq
            · refine Or.inr ?_
              rw [heq]
              exact (hchain i hpos (by omega)).1
          · intro r hr
            show st.vis r ≠ NOT_FOUND
            rcases hc7 r hr with heq | ⟨i, h1, h2, h3⟩
            · subst heq
              exact hg.2
            · rw [h3]
              have hc := (hchain i h1 (by omega)).2.1
              rw [hc]
              exact hane
          · intro r hr
            obtain ⟨i, hile, heq⟩ := hc8 r hr
            rw [heq]
            exact hqb i (by omega)
      · simp only [scan_row, if_pos hg]
        rw [if_neg hcolnf]
        have hlmcol : st.lm (st.rm target) = target := hcl3 target hcolnf
        have hcol_notin : st.rm target ∉ queue := by
          intro hmem
          obtain ⟨i, hi, hqi⟩ := List.getElem_of_mem hmem
          have hgd : queue.getD i 0 = st.rm target := by
            rw [List.getD_eq_getElem?_getD, List.getElem?_eq_getElem hi]
            exact hqi
          rcases Nat.eq_zero_or_pos i with h0 | hpos
          · subst h0
            rw [hgd, hlmcol] at hroot
            exact htne hroot
          · have := hlm_ne_t i hpos hi
            rw [hgd, hlmcol] at this
            exact this rfl
        have hbinv1 : BInv rows
            { st with pred := upd st.pred target next, vis := upd st.vis target st.augId }
            (queue ++ [st.rm target]) := by
          refine ⟨by simp, ?_, ?_, ?_, ?_⟩
          · rw [List.nodup_append]
            exact ⟨hqnd, List.nodup_singleton _,
              fun a ha hb => hcol_notin (by
                have : a = st.rm target := by simpa using hb
                rwa [← this])⟩
          · intro i hi
            rw [List.length_append, List.length_singleton] at hi
            rcases Nat.lt_or_ge i queue.length with hlt | hge
            · rw [getD_append_lt _ _ _ _ hlt]
              exact hqnf i hlt
            · have hieq : i = queue.length := by omega
              subst hieq
              rw [getD_append_length]
              exact hcolnf
          · show st.lm ((queue ++ [st.rm target]).getD 0 0) = NOT_FOUND
            rw [getD_append_lt _ _ _ _ hq0]
            exact hroot
          · intro i h1 hi
            rw [List.length_append, List.length_singleton] at hi
            rcases Nat.lt_or_ge i queue.length with hlt | hge
            · rw [getD_append_lt _ _ _ _ hlt]
              obtain ⟨ha, hb, j, hj, hc, hd⟩ := hchain i h1 hlt
              refine ⟨ha, ?_, j, hj, ?_, ?_⟩
              · show upd st.vis target st.augId (st.lm (queue.getD i 0)) = st.augId
                rw [upd_ne _ _ _ _ (hlm_ne_t i h1 hlt)]
                exact hb
              · show upd st.pred target next (st.lm (queue.getD i 0)) =
                  (queue ++ [st.rm target]).getD j 0
                rw [upd_ne _ _ _ _ (hlm_ne_t i h1 hlt),
                  getD_append_lt _ _ _ _ (by omega)]
                exact hc
              · rw [getD_append_lt _ _ _ _ (by omega)]
                exact hd
            · have hieq : i = queue.length := by omega
              subst hieq
              rw [getD_append_length]
              refine ⟨by rw [hlmcol]; exact htne, ?_, i0, by omega, ?_, ?_⟩
              · show upd st.vis target st.augId (st.lm (st.rm target)) = st.augId
                rw [hlmcol, upd_self]
              · show upd st.pred target next (st.lm (st.rm target)) =
                  (queue ++ [st.rm target]).getD i0 0
                rw [hlmcol, upd_self, getD_append_lt _ _ _ _ hi0]
                exact hqi0.symm
              · rw [hlmcol, getD_append_lt _ _ _ _ hi0, hqi0]
                exact htmem
        have hpr1 : PruneInv rows
            { st with pred := upd st.pred target next,
                      vis := upd st.vis target st.augId } := by
          apply PruneInv_transfer rows st _ _ _ _ _ hpr
          · intro r hr
            show upd st.vis target st.augId r = NOT_FOUND
            have hrt : r ≠ target := fun he => hg.2 (he ▸ hr)
            rw [upd_ne _ _ _ _ hrt]
            exact hr
          · intro r hr
            have hr' : upd st.vis target st.augId r ≠ st.vis r := hr
            show upd st.vis target st.augId r ≠ NOT_FOUND
            by_cases hrt : r = target
            · subst hrt
              rw [upd_self]
              exact hane
            · rw [upd_ne _ _ _ _ hrt] at hr'
              exact absurd rfl hr'
          · intro r hr
            exact absurd rfl hr
          · intro r hr
            exact absurd rfl hr
        have hvsc1 : VisScope
            { st with pred := upd st.pred target next,
                      vis := upd st.vis target st.augId }
            (queue ++ [st.rm target]) := by
          intro t ht
          by_cases htt : t = target
          · refine ⟨queue.length, by omega, ?_, ?_⟩
            · rw [List.length_append, List.length_singleton]
              omega
            · show st.lm ((queue ++ [st.rm target]).getD queue.length 0) = t
              rw [getD_append_length, hlmcol]
              exact htt.symm
          · have htc : upd st.vis target st.augId t = st.augId := ht
            have ht' : st.vis t = st.augId := by
              rw [upd_ne _ _ _ _ htt] at htc
              exact htc
            obtain ⟨i, h1, hi, heq⟩ := hvsc t ht'
            refine ⟨i, h1, ?_, ?_⟩
            · rw [List.length_append, List.length_singleton]
              omega
            · show st.lm ((queue ++ [st.rm target]).getD i 0) = t
              rw [getD_append_lt _ _ _ _ hi]
              exact heq
        have hqb1 : QBound rows (queue ++ [st.rm target]) := by
          intro i hi
          rw [List.length_append, List.length_singleton] at hi
          rcases Nat.lt_or_ge i queue.length with hlt | hge
          · rw [getD_append_lt _ _ _ _ hlt]
            exact hqb i hlt
          · have hieq : i = queue.length := by omega
            subst hieq
            rw [getD_append_length]
            exact hpr.2 target hcolnf
        have hih := ihr
          { st with pred := upd st.pred target next, vis := upd st.vis target st.augId }
          (queue ++ [st.rm target]) i0
          ⟨hlmnf, hrmnf, hcl2, hcl3⟩ hbinv1 hpr1 hvsc1 hqb1 hane
          (by rw [List.length_append, List.length_singleton]; omega)
          (by rw [getD_append_lt _ _ _ _ hi0]; exact hqi0)
          (fun t ht => hsub t (List.mem_cons_of_mem _ ht))
        obtain ⟨hm, hS1, hS2, hnotf, hfound⟩ := hih
        refine ⟨hm, ?_, ?_, ?_, ?_⟩
        · intro r hr
          apply hS1
          show upd st.vis target st.augId r = NOT_FOUND
          have hrt : r ≠ target := fun he => hg.2 (he ▸ hr)
          rw [upd_ne _ _ _ _ hrt]
          exact hr
        · intro r hr
          by_cases he : (scan_row next rest
              { st with pred := upd st.pred target next,
                        vis := upd st.vis target st.augId }
              (queue ++ [st.rm target])).1.vis r =
              upd st.vis target st.augId r
          · rw [he] at hr ⊢
            by_cases hrt : r = target
            · subst hrt
              exact upd_self _ _ _
            · rw [upd_ne _ _ _ _ hrt] at hr
              exact absurd rfl hr
          · exact hS2 r he
        · intro h
          obtain ⟨h1, h2, h3, h4, h5, h6, h7, h8, h9⟩ := hnotf h
          refine ⟨h1, h2, h3, h4, h5, h6, ?_, ?_, ?_⟩
          · rw [List.length_append, List.length_singleton] at h7
            omega
          · intro i hi
            rw [h8 i (by rw [List.length_append, List.length_singleton]; omega),
              getD_append_lt _ _ _ _ hi]
          · intro t ht
            rcases List.mem_cons.mp ht with h0 | htail
            · refine Or.inl ?_
              by_cases he : (scan_row next rest
                  { st with pred := upd st.pred target next,
                            vis := upd st.vis target st.augId }
                  (queue ++ [st.rm target])).1.vis t =
                  upd st.vis target st.augId t
              · rw [he, h0, upd_self]
              · exact hS2 t he
            · exact h9 t htail
        · intro h
          obtain ⟨h1, h2, h3, h4, h5, h6⟩ := hfound h
          refine ⟨h1, ?_, h3, ?_, ?_, h6⟩
          · rw [getD_append_lt _ _ _ _ hq0] at h2
            exact h2
          · intro l hl
            rcases h4 l hl with h0 | hm'
            · rw [getD_append_lt _ _ _ _ hq0] at h0
              exact Or.inl h0
            · exact Or.inr hm'
          · intro r hr
            have hvr : upd st.vis target st.augId r ≠ NOT_FOUND := h5 r hr
            by_cases hrt : r = target
            · subst hrt
              exact hg.2
            · rw [upd_ne _ _ _ _ hrt] at hvr
              exact hvr
    · simp only [scan_row, if_neg hg]
      have hih := ihr st queue i0 ⟨hlmnf, hrmnf, hcl2, hcl3⟩
        ⟨hqne, hqnd, hqnf, hroot, hchain⟩ hpr hvsc hqb hane hi0 hqi0
        (fun t ht => hsub t (List.mem_cons_of_mem _ ht))
      obtain ⟨hm, hS1, hS2, hnotf, hfound⟩ := hih
      refine ⟨hm, hS1, hS2, ?_, hfound⟩
      intro h
      obtain ⟨h1, h2, h3, h4, h5, h6, h7, h8, h9⟩ := hnotf h
      refine ⟨h1, h2, h3, h4, h5, h6, h7, h8, ?_⟩
      intro t ht
      rcases List.mem_cons.mp ht with h0 | htail
      · subst h0
        rcases Decidable.not_and_iff_or_not.mp hg with hga | hgb
        · have hta : st.vis t = st.augId := Decidable.not_not.mp hga
          by_cases he : (scan_row next rest st queue).1.vis t = st.vis t
          · rw [he, hta]
            exact Or.inl rfl
          · exact Or.inl (hS2 t he)
        · have htb : st.vis t = NOT_FOUND := Decidable.not_not.mp hgb
          exact Or.inr (hS1 t htb)
      · exact h9 t htail

/-- A duplicate-free list whose positional entries are all below `n` has
at most `n` elements. -/
theorem length_le_of_nodup_lt (xs : List Nat) (n : Nat) (hnd : xs.Nodup)
    (hb : ∀ i, i < xs.length → xs.getD i 0 < n) : xs.length ≤ n := by
  have hsub : xs ⊆ List.range n := by
    intro x hx
    obtain ⟨i, hi, hxi⟩ := List.getElem_of_mem hx
    rw [List.mem_range]
    have hgd := hb i hi
    rw [List.getD_eq_getElem?_getD, List.getElem?_eq_getElem hi] at hgd
    exact hxi ▸ hgd
  have hle := (hnd.subperm hsub).length_le
  rwa [List.length_range] at hle

/-- The pruning fold of `process_root` (`visited[left_mapping[queue[j]]]
= NOT_FOUND`): only `visited` changes, every write stores the sentinel,
and the left partners of the marked list are all cleared. -/
theorem mark_fold_spec :
    ∀ (L : List Nat) (st : MState),
      (L.foldl (fun s qj => { s with vis := upd s.vis (s.lm qj) NOT_FOUND }) st).lm = st.lm ∧
      (L.foldl (fun s qj => { s with vis := upd s.vis (s.lm qj) NOT_FOUND }) st).rm = st.rm ∧
      (L.foldl (fun s qj => { s with vis := upd s.vis (s.lm qj) NOT_FOUND }) st).augId = st.augId ∧
      (∀ x, (L.foldl (fun s qj => { s with vis := upd s.vis (s.lm qj) NOT_FOUND }) st).vis x = st.vis x ∨
        (L.foldl (fun s qj => { s with vis := upd s.vis (s.lm qj) NOT_FOUND }) st).vis x = NOT_FOUND) ∧
      (∀ qj ∈ L, (L.foldl (fun s qj => { s with vis := upd s.vis (s.lm qj) NOT_FOUND }) st).vis (st.lm qj) = NOT_FOUND) ∧
      (∀ x, (L.foldl (fun s qj => { s with vis := upd s.vis (s.lm qj) NOT_FOUND }) st).vis x ≠ st.vis x →
        ∃ qj ∈ L, st.lm qj = x) := by
  intro L
  induction L with
  | nil =>
    intro st
    exact ⟨rfl, rfl, rfl, fun x => Or.inl rfl, fun qj hqj => absurd hqj (List.not_mem_nil qj),
      fun x hx => absurd rfl hx⟩
  | cons q0 rest ih =>
    intro st
    rw [List.foldl_cons]
    obtain ⟨hlm, hrm, hai, hvx, hmk, hcv⟩ := ih
      { st with vis := upd st.vis (st.lm q0) NOT_FOUND }
    refine ⟨hlm, hrm, hai, ?_, ?_, ?_⟩
    · intro x
      rcases hvx x with h | h
      · by_cases hx : x = st.lm q0
        · refine Or.inr ?_
          rw [h]
          show upd st.vis (st.lm q0) NOT_FOUND x = NOT_FOUND
          rw [hx, upd_self]
        · refine Or.inl ?_
          rw [h]
          show upd st.vis (st.lm q0) NOT_FOUND x = st.vis x
          rw [upd_ne _ _ _ _ hx]
      · exact Or.inr h
    · intro qj hqj
      rcases List.mem_cons.mp hqj with h0 | htail
      · rcases hvx (st.lm qj) with h | h
        · rw [h]
          show upd st.vis (st.lm q0) NOT_FOUND (st.lm qj) = NOT_FOUND
          rw [h0, upd_self]
        · exact h
      · have := hmk qj htail
        rw [show ({ st with vis := upd st.vis (st.lm q0) NOT_FOUND } : MState).lm = st.lm
          from rfl] at this
        exact this
    · intro x hx
      by_cases he : (rest.foldl (fun s qj => { s with vis := upd s.vis (s.lm qj) NOT_FOUND })
          ({ st with vis := upd st.vis (st.lm q0) NOT_FOUND } : MState)).vis x =
          ({ st with vis := upd st.vis (st.lm q0) NOT_FOUND } : MState).vis x
      · rw [he] at hx
        have hx' : upd st.vis (st.lm q0) NOT_FOUND x ≠ st.vis x := hx
        by_cases hxe : x = st.lm q0
        · exact ⟨q0, List.mem_cons_self _ _, hxe.symm⟩
        · rw [upd_ne _ _ _ _ hxe] at hx'
          exact absurd rfl hx'
      · obtain ⟨qj, hqj, hqx⟩ := hcv x he
        exact ⟨qj, List.mem_cons_of_mem _ hqj, hqx⟩

/-- `match_cheap` writes into `right_mapping` only left indices below
the row count, so every matched right vertex points into range. -/
theorem match_cheap_rmb (rows : List (List Nat)) (st : MState)
    (hb : ∀ r, st.rm r ≠ NOT_FOUND → st.rm r < rows.length) :
    ∀ r, (match_cheap rows st).rm r ≠ NOT_FOUND →
      (match_cheap rows st).rm r < rows.length := by
  unfold match_cheap
  have haux : ∀ (us : List Nat) (s : MState),
      (∀ l ∈ us, l < rows.length) →
      (∀ r, s.rm r ≠ NOT_FOUND → s.rm r < rows.length) →
      ∀ r, (us.foldl
        (fun s l =>
          match (rows.getD l []).find? (fun r => s.rm r == NOT_FOUND) with
          | some r => { s with lm := upd s.lm l r, rm := upd s.rm r l }
          | none => s) s).rm r ≠ NOT_FOUND →
        (us.foldl
          (fun s l =>
            match (rows.getD l []).find? (fun r => s.rm r == NOT_FOUND) with
            | some r => { s with lm := upd s.lm l r, rm := upd s.rm r l }
            | none => s) s).rm r < rows.length := by
    intro us
    induction us with
    | nil => intro s _ hs r hr; exact hs r hr
    | cons l rest ih =>
      intro s hbnd hs r hr
      cases hf : (rows.getD l []).find? (fun r => s.rm r == NOT_FOUND) with
      | none =>
        simp only [List.foldl_cons, hf] at hr ⊢
        exact ih s (fun u hu => hbnd u (List.mem_cons_of_mem _ hu)) hs r hr
      | some r0 =>
        simp only [List.foldl_cons, hf] at hr ⊢
        apply ih _ (fun u hu => hbnd u (List.mem_cons_of_mem _ hu)) _ r hr
        intro r' hr'
        show upd s.rm r0 l r' < rows.length
        by_cases he : r' = r0
        · rw [he, upd_self]
          exact hbnd l (List.mem_cons_self _ _)
        · rw [upd_ne _ _ _ _ he]
          rw [show ({ s with lm := upd s.lm l r0, rm := upd s.rm r0 l } : MState).rm r' =
            upd s.rm r0 l r' from rfl, upd_ne _ _ _ _ he] at hr'
          exact hs r' hr'
  exact haux _ _ (fun l hl => List.mem_range.mp hl) hb

/-- The BFS loop of `match_bfs`, with full pruning bookkeeping: the
given fuel never runs out, `visited` marks are only added with the
current round id, an exhausted queue means the mappings are untouched
and every row of every enqueued left vertex is entirely visited or
excluded, and a found path augments without rewiring excluded rights. -/
theorem bfs_loop_prune (rows : List (List Nat))
    (hrows : ∀ l, ∀ r ∈ rows.getD l [], r ≠ NOT_FOUND) :
    ∀ (fuel : Nat) (st : MState) (queue : List Nat) (qptr : Nat),
      MCoh rows st → BInv rows st queue → PruneInv rows st →
      VisScope st queue → QBound rows queue →
      Scanned rows st queue qptr →
      st.augId ≠ NOT_FOUND →
      rows.length + 1 ≤ fuel + qptr →
      MCoh rows (bfs_loop rows fuel queue qptr st).1 ∧
      (∀ r, st.vis r = NOT_FOUND → (bfs_loop rows fuel queue qptr st).1.vis r = NOT_FOUND) ∧
      (∀ r, (bfs_loop rows fuel queue qptr st).1.vis r ≠ st.vis r →
        (bfs_loop rows fuel queue qptr st).1.vis r = st.augId) ∧
      ((bfs_loop rows fuel queue qptr st).2.2 = false →
        (bfs_loop rows fuel queue qptr st).1.lm = st.lm ∧
        (bfs_loop rows fuel queue qptr st).1.rm = st.rm ∧
        (bfs_loop rows fuel queue qptr st).1.augId = st.augId ∧
        BInv rows (bfs_loop rows fuel queue qptr st).1 (bfs_loop rows fuel queue qptr st).2.1 ∧
        VisScope (bfs_loop rows fuel queue qptr st).1 (bfs_loop rows fuel queue qptr st).2.1 ∧
        queue.length ≤ (bfs_loop rows fuel queue qptr st).2.1.length ∧
        (∀ i, i < queue.length →
          (bfs_loop rows fuel queue qptr st).2.1.getD i 0 = queue.getD i 0) ∧
        (∀ i, i < (bfs_loop rows fuel queue qptr st).2.1.length →
          ∀ t ∈ rows.getD ((bfs_loop rows fuel queue qptr st).2.1.getD i 0) [],
            (bfs_loop rows fuel queue qptr st).1.vis t = st.augId ∨
            (bfs_loop rows fuel queue qptr st).1.vis t = NOT_FOUND)) ∧
      ((bfs_loop rows fuel queue qptr st).2.2 = true →
        (bfs_loop rows fuel queue qptr st).1.augId = st.augId + 1 ∧
        (bfs_loop rows fuel queue qptr st).1.lm (queue.getD 0 0) ≠ NOT_FOUND ∧
        (∀ l, st.lm l ≠ NOT_FOUND → (bfs_loop rows fuel queue qptr st).1.lm l ≠ NOT_FOUND) ∧
        (∀ l, (bfs_loop rows fuel queue qptr st).1.lm l ≠ st.lm l →
          l = queue.getD 0 0 ∨ st.lm l ≠ NOT_FOUND) ∧
        (∀ r, (bfs_loop rows fuel queue qptr st).1.rm r ≠ st.rm r → st.vis r ≠ NOT_FOUND) ∧
        (∀ r, (bfs_loop rows fuel queue qptr st).1.rm r ≠ st.rm r →
          (bfs_loop rows fuel queue qptr st).1.rm r < rows.length)) := by
  intro fuel
  induction fuel with
  | zero =>
    intro st queue qptr hmc hbinv hpr hvsc hqb hscn hane hfuel
    have hqlen : queue.length ≤ rows.length :=
      length_le_of_nodup_lt queue rows.length hbinv.2.1 hqb
    have hred : bfs_loop rows 0 queue qptr st = (st, queue, false) := rfl
    rw [hred]
    refine ⟨hmc, fun r hr => hr, fun r hr => absurd rfl hr, ?_, ?_⟩
    · intro _
      refine ⟨rfl, rfl, rfl, hbinv, hvsc, le_refl _, fun i _ => rfl, ?_⟩
      intro i hi t ht
      have hi' : i < queue.length := hi
      exact hscn i (by omega) hi' t ht
    · intro h
      exact absurd h (by simp)
  | succ fuel ih =>
    intro st queue qptr hmc hbinv hpr hvsc hqb hscn hane hfuel
    by_cases hq : qptr < queue.length
    · rcases hscan : scan_row (queue.getD qptr 0) (rows.getD (queue.getD qptr 0) []) st queue
        with ⟨st1, queue1, found⟩
      have hsp := scan_row_prune rows hrows (queue.getD qptr 0)
        (rows.getD (queue.getD qptr 0) []) st queue qptr hmc hbinv hpr hvsc hqb hane hq rfl
        (fun t ht => ht)
      rw [hscan] at hsp
      dsimp only at hsp
      obtain ⟨hm1, hS1, hS2, hnotf, hfound⟩ := hsp
      cases found with
      | true =>
        have hred : bfs_loop rows (fuel + 1) queue qptr st = (st1, queue1, true) := by
          simp only [bfs_loop, if_pos hq, hscan]
        rw [hred]
        obtain ⟨hf1, hf2, hf3, hf4, hf5, hf6⟩ := hfound rfl
        refine ⟨hm1, hS1, hS2, ?_, ?_⟩
        · intro h
          exact absurd h (by simp)
        · intro _
          exact ⟨hf1, hf2, hf3, hf4, hf5, hf6⟩
      | false =>
        have hred : bfs_loop rows (fuel + 1) queue qptr st =
            bfs_loop rows fuel queue1 (qptr + 1) st1 := by
          simp only [bfs_loop, if_pos hq, hscan]
        rw [hred]
        obtain ⟨hn1, hn2, hn3, hbinv1, hvsc1, hqb1, hlen1, hpre1, hS3⟩ := hnotf rfl
        have hpr1 : PruneInv rows st1 := by
          apply PruneInv_transfer rows st st1 hS1
            (fun r hr => by rw [hS2 r hr]; exact hane)
            (fun r hr => absurd (congrFun hn2 r) hr)
            (fun r hr => absurd (congrFun hn2 r) hr) hpr
        have hscn1 : Scanned rows st1 queue1 (qptr + 1) := by
          intro i hi hilen t ht
          rcases Nat.lt_or_ge i qptr with hilt | hige
          · have hq1i : queue1.getD i 0 = queue.getD i 0 := hpre1 i (by omega)
            rw [hq1i] at ht
            rcases hscn i hilt (by omega) t ht with ho | ho
            · by_cases he : st1.vis t = st.vis t
              · rw [he, ho, hn3]
                exact Or.inl rfl
              · rw [hn3]
                exact Or.inl (hS2 t he)
            · exact Or.inr (hS1 t ho)
          · have hieq : i = qptr := by omega
            subst hieq
            have hq1i : queue1.getD i 0 = queue.getD i 0 := hpre1 i hq
            rw [hq1i] at ht
            rw [hn3]
            exact hS3 t ht
        have hih := ih st1 queue1 (qptr + 1) hm1 hbinv1 hpr1 hvsc1 hqb1 hscn1
          (by rw [hn3]; exact hane) (by omega)
        obtain ⟨hm2, hT1, hT2, hTnotf, hTfound⟩ := hih
        have hq00 : queue1.getD 0 0 = queue.getD 0 0 := hpre1 0 (by omega)
        refine ⟨hm2, ?_, ?_, ?_, ?_⟩
        · intro r hr
          exact hT1 r (hS1 r hr)
        · intro r hr
          by_cases he : (bfs_loop rows fuel queue1 (qptr + 1) st1).1.vis r = st1.vis r
          · rw [he] at hr ⊢
            exact hS2 r hr
          · rw [hT2 r he, hn3]
        · intro h
          obtain ⟨hu1, hu2, hu3, hub, hu4, hu5, hu6, hu7⟩ := hTnotf h
          refine ⟨by rw [hu1, hn1], by rw [hu2, hn2], by rw [hu3, hn3], hub, hu4, ?_, ?_, ?_⟩
          · omega
          · intro i hi
            rw [hu6 i (by omega), hpre1 i hi]
          · intro i hi t ht
            rcases hu7 i hi t ht with ho | ho
            · rw [hn3] at ho
              exact Or.inl ho
            · exact Or.inr ho
        · intro h
          obtain ⟨hu1, hu2, hu3, hu4, hu5, hu6⟩ := hTfound h
          refine ⟨by rw [hu1, hn3], ?_, ?_, ?_, ?_, ?_⟩
          · rw [← hq00]
            exact hu2
          · intro l hl
            exact hu3 l (by rw [congrFun hn1 l]; exact hl)
          · intro l hl
            rw [← congrFun hn1 l] at hl ⊢
            rcases hu4 l hl with h0 | h0
            · rw [hq00] at h0
              exact Or.inl h0
            · exact Or.inr h0
          · intro r hr
            rw [← congrFun hn2 r] at hr
            have hv1 := hu5 r hr
            intro hc
            exact hv1 (hS1 r hc)
          · intro r hr
            rw [← congrFun hn2 r] at hr
            exact hu6 r hr
    · have hred : bfs_loop rows (fuel + 1) queue qptr st = (st, queue, false) := by
        simp only [bfs_loop, if_neg hq]
      rw [hred]
      refine ⟨hmc, fun r hr => hr, fun r hr => absurd rfl hr, ?_, ?_⟩
      · intro _
        refine ⟨rfl, rfl, rfl, hbinv, hvsc, le_refl _, fun i _ => rfl, ?_⟩
        intro i hi t ht
        have hi' : i < queue.length := hi
        exact hscn i (by omega) hi' t ht
      · intro h
        exact absurd h (by simp)

/-- Matching coherence only concerns the two mappings, so it transfers
along states that agree on them. -/
theorem MCoh_congr (rows : List (List Nat)) (s s' : MState)
    (hlm : s'.lm = s.lm) (hrm : s'.rm = s.rm) (h : MCoh rows s) : MCoh rows s' := by
  obtain ⟨h1, h2, h3, h4⟩ := h
  refine ⟨by rw [hlm]; exact h1, by rw [hrm]; exact h2, ?_, ?_⟩
  · intro l hl
    rw [hlm] at hl ⊢
    rw [hrm]
    exact h3 l hl
  · intro r hr
    rw [hrm] at hr ⊢
    rw [hlm]
    exact h4 r hr

/-- A positional entry past the head belongs to the tail. -/
theorem getD_drop_one {α : Type} (xs : List α) (i : Nat) (d : α)
    (h1 : 1 ≤ i) (h2 : i < xs.length) : xs.getD i d ∈ xs.drop 1 := by
  cases xs with
  | nil => simp at h2
  | cons x rest =>
    rw [List.drop_one, List.tail_cons]
    obtain ⟨j, rfl⟩ : ∃ j, i = j + 1 := ⟨i - 1, by omega⟩
    rw [List.getD_cons_succ]
    apply getD_mem_of_lt
    rw [List.length_cons] at h2
    omega

/-- A member of the tail has a positional index past the head. -/
theorem mem_drop_one_getD (xs : List Nat) (x : Nat) (h : x ∈ xs.drop 1) :
    ∃ i, 1 ≤ i ∧ i < xs.length ∧ xs.getD i 0 = x := by
  cases xs with
  | nil => simp at h
  | cons a rest =>
    rw [List.drop_one, List.tail_cons] at h
    obtain ⟨j, hj, hxj⟩ := List.getElem_of_mem h
    refine ⟨j + 1, by omega, by rw [List.length_cons]; omega, ?_⟩
    rw [List.getD_cons_succ, List.getD_eq_getElem?_getD, List.getElem?_eq_getElem hj]
    exact hxj

/-- One root-processing step of `match_bfs` preserves the full matching
invariant, extending the processed list by the root: a successful BFS
augments coherently, a failed one permanently prunes every right vertex
visited during the round, covering the root's whole reachable set. -/
theorem process_root_prune (rows : List (List Nat))
    (hrows : ∀ l, ∀ r ∈ rows.getD l [], r ≠ NOT_FOUND)
    (hL : rows.length < NOT_FOUND)
    (done : List Nat) (st : MState) (root : Nat)
    (hroot_lt : root < rows.length)
    (hroot_nd : root ∉ done)
    (hdone : done.length + 1 ≤ rows.length)
    (hinv : MatchInv rows done st) :
    MatchInv rows (done ++ [root]) (process_root rows st root) := by
  obtain ⟨hmc, hpr, hp3, hp4, hp5⟩ := hinv
  have hane : st.augId ≠ NOT_FOUND :=
    Nat.ne_of_lt (lt_of_le_of_lt (le_trans hp5 hdone) hL)
  have hlen5 : (done ++ [root]).length = done.length + 1 := by
    rw [List.length_append, List.length_singleton]
  by_cases hc : st.lm root = NOT_FOUND ∧ rows.getD root [] ≠ []
  · have hbinv0 : BInv rows st [root] := by
      refine ⟨by simp, List.nodup_singleton _, ?_, hc.1, ?_⟩
      · intro i hi
        have hieq : i = 0 := by simpa using hi
        subst hieq
        exact Nat.ne_of_lt (lt_trans hroot_lt hL)
      · intro i h1 hi
        simp at hi
        omega
    have hvsc0 : VisScope st [root] := by
      intro t ht
      rcases hp4 t with h | h
      · rw [ht] at h
        exact absurd h hane
      · rw [ht] at h
        exact absurd h (lt_irrefl _)
    have hqb0 : QBound rows [root] := by
      intro i hi
      have hieq : i = 0 := by simpa using hi
      subst hieq
      exact hroot_lt
    have hscn0 : Scanned rows st [root] 0 := by
      intro i hi
      exact absurd hi (Nat.not_lt_zero i)
    have hbl := bfs_loop_prune rows hrows (rows.length + 1) st [root] 0
      hmc hbinv0 hpr hvsc0 hqb0 hscn0 hane (by omega)
    rcases hB : bfs_loop rows (rows.length + 1) [root] 0 st with ⟨stB, queueB, foundB⟩
    rw [hB] at hbl
    dsimp only at hbl
    obtain ⟨hm, hS1, hS2, hnotf, hfound⟩ := hbl
    simp only [process_root, if_pos hc, hB]
    cases foundB with
    | true =>
      obtain ⟨hg1, hg2, hg3, hg4, hg5, hg6⟩ := hfound rfl
      have hfne : ¬ stB.lm root = NOT_FOUND := hg2
      rw [if_neg hfne]
      refine ⟨hm, ?_, ?_, ?_, ?_⟩
      · exact PruneInv_transfer rows st stB hS1
          (fun r hr => by rw [hS2 r hr]; exact hane) hg5 hg6 hpr
      · intro l hl hlm t ht
        rcases List.mem_append.mp hl with hld | hlr
        · have hst : st.lm l = NOT_FOUND := by
            by_contra hne
            exact (hg3 l hne) hlm
          exact hS1 t (hp3 l hld hst t ht)
        · have hlr' : l = root := by simpa using hlr
          subst hlr'
          exact absurd hlm hfne
      · intro t
        by_cases he : stB.vis t = st.vis t
        · rw [he, hg1]
          rcases hp4 t with h | h
          · exact Or.inl h
          · exact Or.inr (by omega)
        · rw [hS2 t he, hg1]
          exact Or.inr (by omega)
      · rw [hg1, hlen5]
        omega
    | false =>
      obtain ⟨hn1, hn2, hn3, hbinvB, hvscB, hlenB, hpreB, hscanB⟩ := hnotf rfl
      obtain ⟨hql_ne, hqnd, hqnf, hqroot, hqchain⟩ := hbinvB
      have hfail : stB.lm root = NOT_FOUND := by
        rw [congrFun hn1 root]
        exact hc.1
      rw [if_pos hfail]
      have h1q : 1 ≤ queueB.length := hlenB
      have hq0B : queueB.getD 0 0 = root := hpreB 0 (by simp)
      obtain ⟨hklm, hkrm, hkai, hkvx, hkmk, hkcv⟩ := mark_fold_spec (queueB.drop 1) stB
      have hvisNF : ∀ t, stB.vis t = st.augId →
          ((queueB.drop 1).foldl
            (fun s qj => { s with vis := upd s.vis (s.lm qj) NOT_FOUND }) stB).vis t =
            NOT_FOUND := by
        intro t ht
        have ht' : stB.vis t = stB.augId := by rw [hn3]; exact ht
        obtain ⟨i, h1, hi, heq⟩ := hvscB t ht'
        have hmem : queueB.getD i 0 ∈ queueB.drop 1 := getD_drop_one queueB i 0 h1 hi
        have hres := hkmk (queueB.getD i 0) hmem
        rw [heq] at hres
        exact hres
      have hallNF : ∀ j, j < queueB.length → ∀ t ∈ rows.getD (queueB.getD j 0) [],
          ((queueB.drop 1).foldl
            (fun s qj => { s with vis := upd s.vis (s.lm qj) NOT_FOUND }) stB).vis t =
            NOT_FOUND := by
        intro j hj t ht
        rcases hscanB j hj t ht with ho | ho
        · exact hvisNF t ho
        · rcases hkvx t with hk | hk
          · rw [hk, ho]
          · exact hk
      refine ⟨MCoh_congr rows stB _ hklm hkrm hm, ⟨?_, ?_⟩, ?_, ?_, ?_⟩
      · intro r hr
        by_cases hor : st.vis r = NOT_FOUND
        · obtain ⟨hrm_ne, hrow⟩ := hpr.1 r hor
          have hrmKr : ((queueB.drop 1).foldl
              (fun s qj => { s with vis := upd s.vis (s.lm qj) NOT_FOUND }) stB).rm r =
              st.rm r := by
            rw [hkrm, hn2]
          rw [hrmKr]
          refine ⟨hrm_ne, ?_⟩
          intro t ht
          have h1 : stB.vis t = NOT_FOUND := hS1 t (hrow t ht)
          rcases hkvx t with hk | hk
          · rw [hk, h1]
          · exact hk
        · have hBr : stB.vis r ≠ NOT_FOUND := by
            intro hBnf
            by_cases he : stB.vis r = st.vis r
            · exact hor (he ▸ hBnf)
            · rw [hS2 r he] at hBnf
              exact hane hBnf
          have hKne : ((queueB.drop 1).foldl
              (fun s qj => { s with vis := upd s.vis (s.lm qj) NOT_FOUND }) stB).vis r ≠
              stB.vis r := by
            rw [hr]
            exact fun he => hBr he.symm
          obtain ⟨qj, hqjm, hqjx⟩ := hkcv r hKne
          obtain ⟨i, h1, hi, hqi⟩ := mem_drop_one_getD queueB qj hqjm
          have hlm_ne : stB.lm qj ≠ NOT_FOUND := by
            rw [← hqi]
            exact (hqchain i h1 hi).1
          have hrm_eq : stB.rm r = qj := by
            have hcl := hm.2.2.1 qj hlm_ne
            rw [hqjx] at hcl
            exact hcl.2
          have hqj_ne : qj ≠ NOT_FOUND := by
            rw [← hqi]
            exact hqnf i hi
          have hKrm : ((queueB.drop 1).foldl
              (fun s qj => { s with vis := upd s.vis (s.lm qj) NOT_FOUND }) stB).rm r =
              qj := by
            rw [hkrm, hrm_eq]
          rw [hKrm]
          refine ⟨hqj_ne, ?_⟩
          intro t ht
          exact hallNF i hi t (by rw [hqi]; exact ht)
      · intro r hr
        rw [hkrm, hn2] at hr ⊢
        exact hpr.2 r hr
      · intro l hl hlm t ht
        rcases List.mem_append.mp hl with hld | hlr
        · have hlm_st : st.lm l = NOT_FOUND := by
            rw [hklm, hn1] at hlm
            exact hlm
          have h1 : st.vis t = NOT_FOUND := hp3 l hld hlm_st t ht
          have h2 : stB.vis t = NOT_FOUND := hS1 t h1
          rcases hkvx t with hk | hk
          · rw [hk, h2]
          · exact hk
        · have hlr' : l = root := by simpa using hlr
          subst hlr'
          exact hallNF 0 (by omega) t (by rw [hq0B]; exact ht)
      · intro t
        rcases hkvx t with hk | hk
        · by_cases he : stB.vis t = st.vis t
          · rw [hk, he, hkai, hn3]
            exact hp4 t
          · exact Or.inl (hvisNF t (hS2 t he))
        · exact Or.inl hk
      · rw [hkai, hn3, hlen5]
        omega
  · simp only [process_root, if_neg hc]
    refine ⟨hmc, hpr, ?_, hp4, ?_⟩
    · intro l hl hlm t ht
      rcases List.mem_append.mp hl with hld | hlr
      · exact hp3 l hld hlm t ht
      · have hlr' : l = root := by simpa using hlr
        rw [hlr'] at hlm ht
        have hemp : ¬ rows.getD root [] ≠ [] := fun hne => hc ⟨hlm, hne⟩
        rw [Decidable.not_not.mp hemp] at ht
        exact absurd ht (List.not_mem_nil t)
    · rw [hlen5]
      omega

/-- The root loop of `match_bfs` maintains the matching invariant over
the processed prefix of the left side. -/
theorem fold_roots_prune (rows : List (List Nat))
    (hrows : ∀ l, ∀ r ∈ rows.getD l [], r ≠ NOT_FOUND)
    (hL : rows.length < NOT_FOUND) :
    ∀ (us done : List Nat) (st : MState),
      done ++ us = List.range rows.length →
      MatchInv rows done st →
      MatchInv rows (done ++ us) (us.foldl (process_root rows) st) := by
  intro us
  induction us with
  | nil =>
    intro done st heq hinv
    rw [List.append_nil]
    exact hinv
  | cons u rest ih =>
    intro done st heq hinv
    have hmem : u ∈ List.range rows.length := by
      rw [← heq]
      exact List.mem_append.mpr (Or.inr (List.mem_cons_self _ _))
    have hult : u < rows.length := List.mem_range.mp hmem
    have hnd : (done ++ u :: rest).Nodup := by
      rw [heq]
      exact List.nodup_range _
    have hnotin : u ∉ done := by
      intro hu
      rw [List.nodup_append] at hnd
      exact hnd.2.2 hu (List.mem_cons_self _ _)
    have hlen : done.length + 1 ≤ rows.length := by
      have hlc := congrArg List.length heq
      rw [List.length_append, List.length_cons, List.length_range] at hlc
      omega
    have hstep := process_root_prune rows hrows hL done st u hult hnotin hlen hinv
    have hih := ih (done ++ [u]) (process_root rows st u)
      (by rw [List.append_assoc, List.singleton_append]; exact heq) hstep
    rw [List.foldl_cons]
    have hfin : (done ++ [u]) ++ rest = done ++ u :: rest := by
      rw [List.append_assoc, List.singleton_append]
    rw [← hfin]
    exact hih

/-- After `match_cheap` and `match_bfs` the full matching invariant
holds with every left vertex processed. -/
theorem match_bfs_prune (rows : List (List Nat))
    (hrows : ∀ l, ∀ r ∈ rows.getD l [], r ≠ NOT_FOUND)
    (hL : rows.length < NOT_FOUND) :
    MatchInv rows (List.range rows.length)
      (match_bfs rows (match_cheap rows matchInit)) := by
  unfold match_bfs
  have hinit : MatchInv rows []
      { match_cheap rows matchInit with vis := fun _ => 0, augId := 1 } := by
    refine ⟨?_, ⟨?_, ?_⟩, ?_, ?_, ?_⟩
    · exact MCoh_congr rows (match_cheap rows matchInit) _ rfl rfl
        (match_cheap_mcoh rows hrows (le_of_lt hL) matchInit (matchInit_mcoh rows)
          (fun l _ => rfl))
    · intro r hr
      have h0 : (0 : Nat) = NOT_FOUND := hr
      exact absurd h0 (by decide)
    · intro r hr
      exact match_cheap_rmb rows matchInit (fun r hr' => absurd rfl hr') r hr
    · intro l hl hlm t ht
      exact absurd hl (List.not_mem_nil l)
    · intro t
      exact Or.inr Nat.zero_lt_one
    · exact Nat.le_refl 1
  exact fold_roots_prune rows hrows hL (List.range rows.length) [] _ rfl hinit

/-- The certificate extracted from the final matching state: the
unmatched left vertices together with the matched partners of the pruned
right vertices form a set whose whole neighbourhood consists of pruned
rights, so no matching can cover more left vertices than the computed
one. -/
theorem matching_maximal (rows : List (List Nat))
    (hrows : ∀ l, ∀ r ∈ rows.getD l [], r ≠ NOT_FOUND)
    (st : MState)
    (hinv : MatchInv rows (List.range rows.length) st)
    (g : Nat → Nat)
    (hg1 : ∀ l, l < rows.length → g l ≠ NOT_FOUND → g l ∈ rows.getD l [])
    (hg2 : ∀ l1 l2, l1 < rows.length → l2 < rows.length →
      g l1 ≠ NOT_FOUND → g l1 = g l2 → l1 = l2) :
    ((Finset.range rows.length).filter (fun l => g l ≠ NOT_FOUND)).card ≤
    ((Finset.range rows.length).filter (fun l => st.lm l ≠ NOT_FOUND)).card := by
  obtain ⟨hmc, hpr, hp3, hp4, hp5⟩ := hinv
  have hjoin : ∀ l t, l < rows.length → t ∈ rows.getD l [] → t ∈ rows.join := by
    intro l t hl ht
    rw [List.mem_join]
    exact ⟨rows.getD l [], getD_mem_of_lt rows l [] hl, ht⟩
  set F := (Finset.range rows.length).filter (fun l => st.lm l = NOT_FOUND) with hF
  set P := (rows.join.toFinset).filter (fun r => st.vis r = NOT_FOUND) with hPd
  set W := F ∪ P.image st.rm with hWd
  have hPprune : ∀ r ∈ P, st.rm r ≠ NOT_FOUND ∧ st.rm r < rows.length ∧
      ∀ t ∈ rows.getD (st.rm r) [], st.vis t = NOT_FOUND := by
    intro r hr
    rw [hPd, Finset.mem_filter] at hr
    obtain ⟨hrm_ne, hrow⟩ := hpr.1 r hr.2
    exact ⟨hrm_ne, hpr.2 r hrm_ne, hrow⟩
  have hPnf : ∀ r ∈ P, r ≠ NOT_FOUND := by
    intro r hr
    rw [hPd, Finset.mem_filter, List.mem_toFinset, List.mem_join] at hr
    obtain ⟨⟨row, hrow_mem, hr_mem⟩, _⟩ := hr
    obtain ⟨i, hi, hrowi⟩ := List.getElem_of_mem hrow_mem
    apply hrows i
    rw [List.getD_eq_getElem?_getD, List.getElem?_eq_getElem hi, hrowi]
    exact hr_mem
  have hNW : ∀ w ∈ W, w < rows.length ∧ ∀ t ∈ rows.getD w [], t ∈ P := by
    intro w hw
    rw [hWd, Finset.mem_union] at hw
    rcases hw with hwF | hwP
    · rw [hF, Finset.mem_filter, Finset.mem_range] at hwF
      refine ⟨hwF.1, ?_⟩
      intro t ht
      rw [hPd, Finset.mem_filter, List.mem_toFinset]
      exact ⟨hjoin w t hwF.1 ht, hp3 w (List.mem_range.mpr hwF.1) hwF.2 t ht⟩
    · rw [Finset.mem_image] at hwP
      obtain ⟨p, hp, hpw⟩ := hwP
      obtain ⟨hrm_ne, hrm_lt, hrow⟩ := hPprune p hp
      refine ⟨hpw ▸ hrm_lt, ?_⟩
      intro t ht
      rw [hPd, Finset.mem_filter, List.mem_toFinset]
      rw [← hpw] at ht
      exact ⟨hjoin _ t hrm_lt ht, hrow t ht⟩
  have hdisj : Disjoint F (P.image st.rm) := by
    rw [Finset.disjoint_left]
    intro a haF haP
    rw [hF, Finset.mem_filter] at haF
    rw [Finset.mem_image] at haP
    obtain ⟨p, hp, hpa⟩ := haP
    have hlm_p : st.lm (st.rm p) = p := hmc.2.2.2 p (hPprune p hp).1
    rw [hpa, haF.2] at hlm_p
    exact (hPnf p hp) hlm_p.symm
  have hinj : Set.InjOn st.rm P := by
    intro p1 h1 p2 h2 he
    rw [Finset.mem_coe] at h1 h2
    have ha := hmc.2.2.2 p1 (hPprune p1 h1).1
    have hb := hmc.2.2.2 p2 (hPprune p2 h2).1
    rw [he] at ha
    rw [hb] at ha
    exact ha.symm
  have hcardW : W.card = F.card + P.card := by
    rw [hWd, Finset.card_union_of_disjoint hdisj, Finset.card_image_of_injOn hinj]
  have hWmatched : (W.filter (fun w => g w ≠ NOT_FOUND)).card ≤ P.card := by
    apply Finset.card_le_card_of_injOn g
    · intro w hw
      rw [Finset.mem_filter] at hw
      obtain ⟨hwW, hwg⟩ := hw
      obtain ⟨hwlt, hrowP⟩ := hNW w hwW
      exact hrowP (g w) (hg1 w hwlt hwg)
    · intro w1 h1 w2 h2 he
      rw [Finset.mem_coe, Finset.mem_filter] at h1 h2
      exact hg2 w1 w2 (hNW w1 h1.1).1 (hNW w2 h2.1).1 h1.2 he
  have hWsub : W ⊆ Finset.range rows.length := by
    intro w hw
    rw [Finset.mem_range]
    exact (hNW w hw).1
  have hsplitW : (W.filter (fun w => g w ≠ NOT_FOUND)).card +
      (W.filter (fun w => ¬ g w ≠ NOT_FOUND)).card = W.card :=
    Finset.filter_card_add_filter_neg_card_eq_card _
  have hsplitRg : ((Finset.range rows.length).filter (fun l => g l ≠ NOT_FOUND)).card +
      ((Finset.range rows.length).filter (fun l => ¬ g l ≠ NOT_FOUND)).card =
      rows.length := by
    rw [Finset.filter_card_add_filter_neg_card_eq_card, Finset.card_range]
  have hsplitRlm : ((Finset.range rows.length).filter (fun l => st.lm l ≠ NOT_FOUND)).card +
      ((Finset.range rows.length).filter (fun l => ¬ st.lm l ≠ NOT_FOUND)).card =
      rows.length := by
    rw [Finset.filter_card_add_filter_neg_card_eq_card, Finset.card_range]
  have hFneg : (Finset.range rows.length).filter (fun l => ¬ st.lm l ≠ NOT_FOUND) = F := by
    rw [hF]
    apply Finset.filter_congr
    intro x hx
    exact not_not
  have hWcardle : (W.filter (fun w => ¬ g w ≠ NOT_FOUND)).card ≤
      ((Finset.range rows.length).filter (fun l => ¬ g l ≠ NOT_FOUND)).card :=
    Finset.card_le_card (Finset.filter_subset_filter _ hWsub)
  rw [hFneg] at hsplitRlm
  omega

/-- The greedy pass followed by the BFS augmenting-path pass saturates
the left side exactly when the bipartite graph admits a left-saturating
matching. -/
theorem semi_perfect_iff_sat (rows : List (List Nat))
    (hrows : ∀ l, ∀ r ∈ rows.getD l [], r ≠ NOT_FOUND)
    (hL : rows.length < NOT_FOUND) :
    is_semi_perfect_matching (match_bfs rows (match_cheap rows matchInit)).lm rows.length =
      sat_matchable rows := by
  have hinv := match_bfs_prune rows hrows hL
  have hmc := hinv.1
  cases hsat : sat_matchable rows with
  | true =>
    have hSat : SatM rows := (sat_matchable_iff_SatM rows).mp hsat
    obtain ⟨f, hfinj, hfmem⟩ := hSat
    have hfrow : ∀ (x : Nat) (hx : x < rows.length), f ⟨x, hx⟩ ∈ rows.getD x [] := by
      intro x hx
      have hmem := hfmem ⟨x, hx⟩
      rw [List.get_eq_getElem] at hmem
      rw [List.getD_eq_getElem?_getD, List.getElem?_eq_getElem hx]
      exact hmem
    have hg1 : ∀ l, l < rows.length →
        (if h : l < rows.length then f ⟨l, h⟩ else NOT_FOUND) ≠ NOT_FOUND →
        (if h : l < rows.length then f ⟨l, h⟩ else NOT_FOUND) ∈ rows.getD l [] := by
      intro l hl _
      rw [dif_pos hl]
      exact hfrow l hl
    have hg2 : ∀ l1 l2, l1 < rows.length → l2 < rows.length →
        (if h : l1 < rows.length then f ⟨l1, h⟩ else NOT_FOUND) ≠ NOT_FOUND →
        (if h : l1 < rows.length then f ⟨l1, h⟩ else NOT_FOUND) =
          (if h : l2 < rows.length then f ⟨l2, h⟩ else NOT_FOUND) → l1 = l2 := by
      intro l1 l2 h1 h2 _ he
      rw [dif_pos h1, dif_pos h2] at he
      exact congrArg Fin.val (hfinj he)
    have hgall : (Finset.range rows.length).filter
        (fun l => (if h : l < rows.length then f ⟨l, h⟩ else NOT_FOUND) ≠ NOT_FOUND) =
        Finset.range rows.length := by
      apply Finset.filter_true_of_mem
      intro x hx
      rw [Finset.mem_range] at hx
      rw [dif_pos hx]
      exact hrows x (f ⟨x, hx⟩) (hfrow x hx)
    have hmax := matching_maximal rows hrows _ hinv
      (fun l => if h : l < rows.length then f ⟨l, h⟩ else NOT_FOUND) hg1 hg2
    rw [hgall, Finset.card_range] at hmax
    have hle : ((Finset.range rows.length).filter
        (fun l => (match_bfs rows (match_cheap rows matchInit)).lm l ≠ NOT_FOUND)).card ≤
        rows.length := by
      calc ((Finset.range rows.length).filter _).card
          ≤ (Finset.range rows.length).card := Finset.card_le_card (Finset.filter_subset _ _)
        _ = rows.length := Finset.card_range _
    have hfull : (Finset.range rows.length).filter
        (fun l => (match_bfs rows (match_cheap rows matchInit)).lm l ≠ NOT_FOUND) =
        Finset.range rows.length := by
      apply Finset.eq_of_subset_of_card_le (Finset.filter_subset _ _)
      rw [Finset.card_range]
      omega
    unfold is_semi_perfect_matching
    rw [List.all_eq_true]
    intro i hi
    rw [List.mem_range] at hi
    have hii : i ∈ (Finset.range rows.length).filter
        (fun l => (match_bfs rows (match_cheap rows matchInit)).lm l ≠ NOT_FOUND) := by
      rw [hfull, Finset.mem_range]
      exact hi
    rw [Finset.mem_filter] at hii
    simpa using hii.2
  | false =>
    cases hsp : is_semi_perfect_matching
        (match_bfs rows (match_cheap rows matchInit)).lm rows.length with
    | false => rfl
    | true =>
      exfalso
      have hsemi : ∀ l, l < rows.length →
          (match_bfs rows (match_cheap rows matchInit)).lm l ≠ NOT_FOUND := by
        intro l hl
        unfold is_semi_perfect_matching at hsp
        rw [List.all_eq_true] at hsp
        have h2 := hsp l (List.mem_range.mpr hl)
        simpa using h2
      have hSat : SatM rows := by
        refine ⟨fun i => (match_bfs rows (match_cheap rows matchInit)).lm i.1, ?_, ?_⟩
        · intro i j he
          dsimp only at he
          have hi := hmc.2.2.1 i.1 (hsemi i.1 i.2)
          have hj := hmc.2.2.1 j.1 (hsemi j.1 j.2)
          apply Fin.ext
          rw [← hi.2, he, hj.2]
        · intro i
          have hi := hmc.2.2.1 i.1 (hsemi i.1 i.2)
          have hmem := hi.1
          rw [List.getD_eq_getElem?_getD, List.getElem?_eq_getElem i.2] at hmem
          rw [List.get_eq_getElem]
          exact hmem
      have := (sat_matchable_iff_SatM rows).mpr hSat
      rw [hsat] at this
      exact absurd this (by simp)

/-- On in-range inputs the per-pair feasibility test of the GQL filter
agrees pointwise with the specification's saturating-matching
criterion. -/
theorem gql_test_eq_spec (d q : Graph) (valid : List (List Bool)) (u v : Nat)
    (hd : d.neighbors.length ≤ NOT_FOUND)
    (hq : q.neighbors.length < NOT_FOUND) :
    gql_test d q valid u v = gql_test_spec d q valid u v := by
  unfold gql_test gql_test_spec
  cases hqn : q.neighbors? u with
  | none => rfl
  | some qnbrs =>
    simp only [Option.bind_eq_bind, Option.some_bind]
    cases hdn : d.neighbors? v with
    | none => rfl
    | some dnbrs =>
      simp only [Option.some_bind]
      cases hbg : compute_bipartite_graph qnbrs dnbrs valid with
      | none => rfl
      | some bg =>
        simp only [Option.some_bind]
        have hbglen : bg.length = qnbrs.length :=
          (compute_bipartite_graph_spec qnbrs dnbrs valid bg hbg).1
        have hent := (compute_bipartite_graph_spec qnbrs dnbrs valid bg hbg).2
        have hdk : dnbrs.length ≤ NOT_FOUND :=
          le_trans (neighbors?_length_le d v dnbrs hdn) hd
        have hqk : qnbrs.length < NOT_FOUND :=
          lt_of_le_of_lt (neighbors?_length_le q u qnbrs hqn) hq
        have hrows : ∀ l, ∀ r ∈ bg.getD l [], r ≠ NOT_FOUND := by
          intro l r hr
          by_cases hl : l < qnbrs.length
          · have hlt := (hent l hl r hr).1
            omega
          · rw [getD_default bg l [] (by omega)] at hr
            exact absurd hr (List.not_mem_nil r)
        have hL : bg.length < NOT_FOUND := by
          rw [hbglen]
          exact hqk
        have hiff := semi_perfect_iff_sat bg hrows hL
        rw [← hbglen, hiff]

/-- The per-row refinement loop only consumes the test through its
results, so extensionally equal tests refine identically. -/
theorem gql_refine_row_congr
    (t1 t2 : Graph → Graph → List (List Bool) → Nat → Nat → Option Bool)
    (d q : Graph) (u : Nat)
    (ht : ∀ valid v, t1 d q valid u v = t2 d q valid u v) :
    ∀ (row : List Nat) (valid : List (List Bool)),
      gql_refine_row t1 d q u row valid = gql_refine_row t2 d q u row valid := by
  intro row
  induction row with
  | nil => intro valid; rfl
  | cons v rest ih =>
    intro valid
    by_cases hv : v = INVALID_NODE_ID
    · simp only [gql_refine_row, if_pos hv, ih]
    · simp only [gql_refine_row, if_neg hv, ht, ih]

/-- A global refinement pass with extensionally equal tests returns the
same candidates and validity bitmap. -/
theorem gql_pass_congr
    (t1 t2 : Graph → Graph → List (List Bool) → Nat → Nat → Option Bool)
    (d q : Graph)
    (ht : ∀ valid u v, t1 d q valid u v = t2 d q valid u v) :
    ∀ (us : List Nat) (cands : Candidates) (valid : List (List Bool)),
      gql_pass t1 d q us cands valid = gql_pass t2 d q us cands valid := by
  intro us
  induction us with
  | nil => intro cands valid; rfl
  | cons u rest ih =>
    intro cands valid
    simp only [gql_pass,
      gql_refine_row_congr t1 t2 d q u (fun valid v => ht valid u v), ih]

/-- The whole GQL filter agrees with its specification-side variant on
in-range graphs. -/
theorem gql_filter_eq_spec (d q : Graph)
    (hd : d.neighbors.length ≤ NOT_FOUND)
    (hq : q.neighbors.length < NOT_FOUND) :
    gql_filter d q = gql_filter_spec d q := by
  unfold gql_filter gql_filter_spec
  cases hldf : ldf_filter d q with
  | none => rfl
  | some seed =>
    simp only [Option.bind_eq_bind, Option.some_bind]
    cases seed with
    | none => rfl
    | some cands =>
      have ht : ∀ valid u v, gql_test d q valid u v = gql_test_spec d q valid u v :=
        fun valid u v => gql_test_eq_spec d q valid u v hd hq
      unfold gql_refine
      simp only [gql_pass_congr gql_test gql_test_spec d q ht]

/-- C3: for every data graph and query graph with in-range adjacency
lists (fewer neighbours than the sentinel), the GQL filter computes
exactly the specification's criterion: the whole pipeline (seed, two
refinement passes testing each still-valid pair with the current
bitmap, invalidation and compaction) returns the same result as the
variant in which every per-pair test is replaced by "the bipartite
graph `B(u, v)` with left side `N(u)`, right side `N(v)` and edges at
currently valid candidate pairs admits a matching saturating the left
side"; moreover, on every such bipartite graph the greedy pass followed
by the BFS augmenting-path pass computes a maximum matching, and its
left-saturation test equals the saturating-matching criterion. -/
theorem c3_gql_filter_saturating_matching (d q : Graph)
    (hd : d.neighbors.length ≤ NOT_FOUND)
    (hq : q.neighbors.length < NOT_FOUND) :
    gql_filter d q = gql_filter_spec d q ∧
    ∀ valid u v qnbrs dnbrs bg,
      q.neighbors? u = some qnbrs → d.neighbors? v = some dnbrs →
      compute_bipartite_graph qnbrs dnbrs valid = some bg →
      (is_semi_perfect_matching
          (match_bfs bg (match_cheap bg matchInit)).lm qnbrs.length =
        sat_matchable bg) ∧
      ∀ g : Nat → Nat,
        (∀ l, l < bg.length → g l ≠ NOT_FOUND → g l ∈ bg.getD l []) →
        (∀ l1 l2, l1 < bg.length → l2 < bg.length →
          g l1 ≠ NOT_FOUND → g l1 = g l2 → l1 = l2) →
        ((Finset.range bg.length).filter (fun l => g l ≠ NOT_FOUND)).card ≤
        ((Finset.range bg.length).filter
          (fun l => (match_bfs bg (match_cheap bg matchInit)).lm l ≠ NOT_FOUND)).card := by
  refine ⟨gql_filter_eq_spec d q hd hq, ?_⟩
  intro valid u v qnbrs dnbrs bg hqn hdn hbg
  have hbglen : bg.length = qnbrs.length :=
    (compute_bipartite_graph_spec qnbrs dnbrs valid bg hbg).1
  have hent := (compute_bipartite_graph_spec qnbrs dnbrs valid bg hbg).2
  have hdk : dnbrs.length ≤ NOT_FOUND :=
    le_trans (neighbors?_length_le d v dnbrs hdn) hd
  have hqk : qnbrs.length < NOT_FOUND :=
    lt_of_le_of_lt (neighbors?_length_le q u qnbrs hqn) hq
  have hrows : ∀ l, ∀ r ∈ bg.getD l [], r ≠ NOT_FOUND := by
    intro l r hr
    by_cases hl : l < qnbrs.length
    · have hlt := (hent l hl r hr).1
      omega
    · rw [getD_default bg l [] (by omega)] at hr
      exact absurd hr (List.not_mem_nil r)
  have hL : bg.length < NOT_FOUND := by
    rw [hbglen]
    exact hqk
  constructor
  · rw [← hbglen]
    exact semi_perfect_iff_sat bg hrows hL
  · intro g hg1 hg2
    exact matching_maximal bg hrows _ (match_bfs_prune bg hrows hL) g hg1 hg2

/-- Witness: on the five-node test graph and the three-node path query
the hypotheses hold and the GQL filter coincides with the
specification-side filter. -/
theorem c3_gql_filter_saturating_matching_witness :
    exG.neighbors.length ≤ NOT_FOUND ∧ exQ2.neighbors.length < NOT_FOUND ∧
    gql_filter exG exQ2 = gql_filter_spec exG exQ2 :=
  ⟨by decide, by decide,
    (c3_gql_filter_saturating_matching exG exQ2 (by decide) (by decide)).1⟩

end Suma
